import Mathlib

/-!
Verification of the VisualJSON document core: a shallow embedding of the
JSON AST codec (src/utils/parser.ts), the structural diff/patch engine
(src/utils/jsonDiff.ts), the JSONPath build/resolve helpers and the
mutation/undo-redo store (src/store/useJsonStore.ts), together with proofs
about the properties the specification states for them.

Modelling conventions, used throughout:
- JavaScript strings are modelled by Lean `String`; the character-indexed
  loops of the source are modelled by structural recursion over `String.data`.
- JSON numbers are modelled by `Int`: the core never performs arithmetic on
  values, it only moves them around and compares them, so only decidable
  equality of numbers is exercised.
- Node ids (uuids / generateId, whose implementation file `utils/id.ts` is
  not part of the sources) are modelled by a `Nat` counter threaded through
  each operation: the only property the code relies on is that every
  generated id is fresh.  This follows the spec (section 4.1: a pre-order
  build "assigning one fresh id per JSON value").
- JavaScript objects used as maps (`Record<string, JsonNode>`) are modelled
  by association lists with JavaScript assignment semantics: assigning to an
  existing key overwrites it in place, assigning to a new key appends.
- Unbounded recursion through the node map (which the source performs
  directly, and which terminates because documents are trees) is modelled
  with an explicit fuel argument; every wrapper instantiates the fuel with a
  bound that is proved sufficient for well-formed documents.
-/

/-- Finite JSON value, as produced by JSON.parse: object fields keep
insertion order, as the spec demands (section 3, round-trip law). -/
inductive JsonValue where
  | null
  | bool (b : Bool)
  | num (n : Int)
  | str (s : String)
  | arr (items : List JsonValue)
  | obj (entries : List (String × JsonValue))
deriving Repr

mutual

/-- Structural equality of JSON values.  This is also the model of the
source's isEqualValue (jsonDiff.ts): reference equality or equality of
JSON.stringify output, which on the values modelled here coincides with
structural equality. -/
def beqVal : JsonValue → JsonValue → Bool
  | .null, .null => true
  | .bool a, .bool b => a == b
  | .num a, .num b => a == b
  | .str a, .str b => a == b
  | .arr a, .arr b => beqValList a b
  | .obj a, .obj b => beqValEntries a b
  | _, _ => false

/-- Elementwise equality of JSON value lists. -/
def beqValList : List JsonValue → List JsonValue → Bool
  | [], [] => true
  | x :: xs, y :: ys => beqVal x y && beqValList xs ys
  | _, _ => false

/-- Elementwise equality of JSON object entry lists. -/
def beqValEntries : List (String × JsonValue) → List (String × JsonValue) → Bool
  | [], [] => true
  | (k₁, v₁) :: xs, (k₂, v₂) :: ys => k₁ == k₂ && beqVal v₁ v₂ && beqValEntries xs ys
  | _, _ => false

end

/-- Primitive slot of a node: `string | number | boolean | null`.  The
TypeScript field `value` is optional, but every node constructor in the
repository assigns it (containers get `null`), so it is total here. -/
inductive JsonPrim where
  | null
  | bool (b : Bool)
  | num (n : Int)
  | str (s : String)
deriving Repr, DecidableEq

/-- Reading a primitive back as a JSON value. -/
def JsonPrim.toValue : JsonPrim → JsonValue
  | .null => .null
  | .bool b => .bool b
  | .num n => .num n
  | .str s => .str s

/-- Node type tag (src/types.ts JsonNodeType). -/
inductive JsonNodeType where
  | object
  | array
  | string
  | number
  | boolean
  | null
deriving Repr, DecidableEq

/-- Arena node (src/types.ts JsonNode), with ids as naturals. -/
structure JsonNode where
  id : Nat
  type : JsonNodeType
  parentId : Option Nat := none
  key : Option String := none
  value : JsonPrim := .null
  children : Option (List Nat) := none
deriving Repr, DecidableEq

/-- Children id list of a node; `[]` when the node has none
(the source reads `node.children ?? []` or guards on presence). -/
def childList (n : JsonNode) : List Nat := n.children.getD []

/-- Node arena: the JavaScript object `Record<string, JsonNode>` as an
association list. -/
abbrev NodeMap := List (Nat × JsonNode)

/-- Map read `nodes[id]`. -/
def lookupNode (m : NodeMap) (i : Nat) : Option JsonNode :=
  (m.find? (fun p => p.1 == i)).map (fun p => p.2)

/-- Map write `nodes[id] = n`: overwrite in place if present, else append,
matching JavaScript object assignment. -/
def setNode (m : NodeMap) (i : Nat) (n : JsonNode) : NodeMap :=
  if m.any (fun p => p.1 == i) then m.map (fun p => if p.1 == i then (i, n) else p)
  else m ++ [(i, n)]

/-- Map delete `delete nodes[id]`. -/
def eraseNode (m : NodeMap) (i : Nat) : NodeMap :=
  m.filter (fun p => p.1 != i)

/-- Sequential bulk assignment, as in `Object.assign(nodes, subtree)`. -/
def assignAll (m : NodeMap) (extra : NodeMap) : NodeMap :=
  extra.foldl (fun acc p => setNode acc p.1 p.2) m

/-- Key list of a node map. -/
def keysOf (m : NodeMap) : List Nat := m.map (fun p => p.1)

/-- Document (src/types.ts JsonDocument). -/
structure JsonDocument where
  rootId : Nat
  nodes : NodeMap
deriving Repr, DecidableEq

/-! ## AST codec (src/utils/parser.ts) -/

/-- Result of one parseNode call: the id handed back, the next fresh id,
and the nodes the call added to the arena (in insertion order). -/
structure ParseOut where
  id : Nat
  ctr : Nat
  nodes : NodeMap
deriving Repr

/-- Result of parsing a run of siblings. -/
structure ParseListOut where
  ids : List Nat
  ctr : Nat
  nodes : NodeMap
deriving Repr

mutual

/-- Pre-order builder parseNode of jsonToAst (parser.ts): assign a fresh id,
descend into children, then record the node.  The counter models
generateId. -/
def parseNode (v : JsonValue) (parentId : Option Nat) (key : Option String)
    (ctr : Nat) : ParseOut :=
  let id := ctr
  match v with
  | .null =>
      ⟨id, ctr + 1, [(id, { id, type := .null, parentId, key, value := .null })]⟩
  | .bool b =>
      ⟨id, ctr + 1, [(id, { id, type := .boolean, parentId, key, value := .bool b })]⟩
  | .num n =>
      ⟨id, ctr + 1, [(id, { id, type := .number, parentId, key, value := .num n })]⟩
  | .str s =>
      ⟨id, ctr + 1, [(id, { id, type := .string, parentId, key, value := .str s })]⟩
  | .arr items =>
      let r := parseItems items id (ctr + 1)
      ⟨id, r.ctr, r.nodes ++
        [(id, { id, type := .array, parentId, key, value := .null, children := some r.ids })]⟩
  | .obj entries =>
      let r := parseEntries entries id (ctr + 1)
      ⟨id, r.ctr, r.nodes ++
        [(id, { id, type := .object, parentId, key, value := .null, children := some r.ids })]⟩

/-- Parse the items of an array in order (`value.map(item => parseNode(item, id))`). -/
def parseItems (items : List JsonValue) (pid : Nat) (ctr : Nat) : ParseListOut :=
  match items with
  | [] => ⟨[], ctr, []⟩
  | v :: tl =>
      let r := parseNode v (some pid) none ctr
      let rs := parseItems tl pid r.ctr
      ⟨r.id :: rs.ids, rs.ctr, r.nodes ++ rs.nodes⟩

/-- Parse the entries of an object in order
(`Object.entries(value).map(([k, v]) => parseNode(v, id, k))`). -/
def parseEntries (entries : List (String × JsonValue)) (pid : Nat) (ctr : Nat) :
    ParseListOut :=
  match entries with
  | [] => ⟨[], ctr, []⟩
  | (k, v) :: tl =>
      let r := parseNode v (some pid) (some k) ctr
      let rs := parseEntries tl pid r.ctr
      ⟨r.id :: rs.ids, rs.ctr, r.nodes ++ rs.nodes⟩

end

/-- The codec entry point jsonToAst, parameterised by the first fresh id so
the store can thread its id supply through; also returns the next fresh id. -/
def jsonToAstFrom (ctr : Nat) (v : JsonValue) : JsonDocument × Nat :=
  let r := parseNode v none none ctr
  ({ rootId := r.id, nodes := r.nodes }, r.ctr)

/-- The codec entry point jsonToAst (parser.ts). -/
def jsonToAst (v : JsonValue) : JsonDocument :=
  (jsonToAstFrom 0 v).1

/-- JavaScript object field write `result[key] = v`: overwrite in place when
the key exists, else append. -/
def objAssign (entries : List (String × JsonValue)) (k : String) (v : JsonValue) :
    List (String × JsonValue) :=
  if entries.any (fun p => p.1 == k) then
    entries.map (fun p => if p.1 == k then (k, v) else p)
  else entries ++ [(k, v)]

/-- Step of the object-reconstruction loop of astToJson: a child
contributes a field only when its key is present and truthy (the source
tests `childNode.key`, and the empty string is falsy, so such children are
dropped). -/
def serChildStep (m : NodeMap) (ser : Nat → JsonValue)
    (acc : List (String × JsonValue)) (childId : Nat) : List (String × JsonValue) :=
  match lookupNode m childId with
  | some childNode =>
      match childNode.key with
      | some k => if k == "" then acc else objAssign acc k (ser childId)
      | none => acc
  | none => acc

/-- Recursive reconstruction serializeNode of astToJson (parser.ts).  A
missing node degrades to `null`.  The fuel bounds the nesting depth;
astToJson instantiates it with more than the node count, which on
tree-shaped arenas can never run out. -/
def serializeNode (m : NodeMap) : Nat → Nat → JsonValue
  | 0, _ => .null
  | fuel + 1, nodeId =>
    match lookupNode m nodeId with
    | none => .null
    | some node =>
      match node.type with
      | .object =>
          .obj ((childList node).foldl
            (serChildStep m (fun childId => serializeNode m fuel childId)) [])
      | .array => .arr ((childList node).map (fun childId => serializeNode m fuel childId))
      | .null => .null
      | _ => node.value.toValue

/-- The codec exit point astToJson (parser.ts). -/
def astToJson (doc : JsonDocument) : JsonValue :=
  serializeNode doc.nodes (doc.nodes.length + 1) doc.rootId

mutual

/-- Nesting height of a JSON value, used to discharge the codec fuel. -/
def jheight : JsonValue → Nat
  | .null | .bool _ | .num _ | .str _ => 1
  | .arr items => 1 + jheightList items
  | .obj entries => 1 + jheightEntries entries

/-- Maximal height of a list of values. -/
def jheightList : List JsonValue → Nat
  | [] => 0
  | v :: tl => max (jheight v) (jheightList tl)

/-- Maximal height of a list of object entries. -/
def jheightEntries : List (String × JsonValue) → Nat
  | [] => 0
  | (_, v) :: tl => max (jheight v) (jheightEntries tl)

end

/-- Check that an object entry list has no empty key and no repeated key.
Repeated keys cannot occur in a parsed JavaScript object, and the empty key
is exactly the one astToJson drops. -/
def goodKeys : List (String × JsonValue) → Bool
  | [] => true
  | (k, _) :: tl => k != "" && !(tl.any (fun p => p.1 == k)) && goodKeys tl

mutual

/-- Check, recursively, that every object in a value has pairwise distinct,
non-empty keys. -/
def goodJson : JsonValue → Bool
  | .null | .bool _ | .num _ | .str _ => true
  | .arr items => goodJsonList items
  | .obj entries => goodKeys entries && goodJsonEntries entries

/-- List form of goodJson. -/
def goodJsonList : List JsonValue → Bool
  | [] => true
  | v :: tl => goodJson v && goodJsonList tl

/-- Entry form of goodJson. -/
def goodJsonEntries : List (String × JsonValue) → Bool
  | [] => true
  | (_, v) :: tl => goodJson v && goodJsonEntries tl

end

/-! ## Specification predicates for the codec round trip -/

/-- What one parseNode call guarantees: it hands back the id it was given
as counter, consumes exactly as many ids as it adds nodes, occupies exactly
the id interval it consumed, and serializing its root out of any arena that
agrees with it on that interval recovers the parsed value. -/
def ParseOutSpec (v : JsonValue) (key : Option String) (ctr : Nat) (r : ParseOut) : Prop :=
  r.id = ctr ∧
  r.ctr = ctr + r.nodes.length ∧
  1 ≤ r.nodes.length ∧
  jheight v ≤ r.nodes.length ∧
  (∀ j, (lookupNode r.nodes j).isSome = true ↔ (ctr ≤ j ∧ j < r.ctr)) ∧
  (∀ NS fuel,
    (∀ j, ctr ≤ j → j < r.ctr → lookupNode NS j = lookupNode r.nodes j) →
    jheight v ≤ fuel →
    (∃ n, lookupNode NS ctr = some n ∧ n.key = key) ∧ serializeNode NS fuel ctr = v)

/-- The guarantee of parseItems, stated for the item list of an array. -/
def ParseItemsSpec (items : List JsonValue) (ctr : Nat) (r : ParseListOut) : Prop :=
  r.ctr = ctr + r.nodes.length ∧
  jheightList items ≤ r.nodes.length ∧
  (∀ j, (lookupNode r.nodes j).isSome = true ↔ (ctr ≤ j ∧ j < r.ctr)) ∧
  (∀ NS fuel,
    (∀ j, ctr ≤ j → j < r.ctr → lookupNode NS j = lookupNode r.nodes j) →
    jheightList items ≤ fuel →
    r.ids.map (fun i => serializeNode NS fuel i) = items)

/-- The guarantee of parseEntries, stated for the entry list of an object. -/
def ParseEntriesSpec (es : List (String × JsonValue)) (ctr : Nat) (r : ParseListOut) : Prop :=
  r.ctr = ctr + r.nodes.length ∧
  jheightEntries es ≤ r.nodes.length ∧
  (∀ j, (lookupNode r.nodes j).isSome = true ↔ (ctr ≤ j ∧ j < r.ctr)) ∧
  (∀ NS fuel,
    (∀ j, ctr ≤ j → j < r.ctr → lookupNode NS j = lookupNode r.nodes j) →
    jheightEntries es ≤ fuel →
    List.Forall₂ (fun (i : Nat) (e : String × JsonValue) =>
      (∃ n, lookupNode NS i = some n ∧ n.key = some e.1) ∧
      serializeNode NS fuel i = e.2) r.ids es)

/-! ## JSONPath segments and the path grammar
(shared by src/utils/jsonDiff.ts, src/utils/schemaValidation.ts and
src/store/useJsonStore.ts, which contain the same IDENTIFIER_PATTERN,
escapePathKey, appendKeySegment and parseJsonPath definitions) -/

/-- Path segment (JsonPathSegment): an object key or an array index. -/
inductive PathSeg where
  | key (s : String)
  | idx (n : Nat)
deriving Repr, DecidableEq

/-- First character class of IDENTIFIER_PATTERN, the regex
of letters A-Z a-z, underscore and dollar. -/
def isIdentStart (c : Char) : Bool :=
  c.isAlpha || c = '_' || c = '$'

/-- Later character class of IDENTIFIER_PATTERN (letters, digits,
underscore, dollar), also the class scanned after a dot by parseJsonPath. -/
def isIdentChar (c : Char) : Bool :=
  c.isAlphanum || c = '_' || c = '$'

/-- Full-string test of IDENTIFIER_PATTERN. -/
def identPatternTest (s : String) : Bool :=
  match s.data with
  | [] => false
  | c :: rest => isIdentStart c && rest.all isIdentChar

/-- Character expansion of escapePathKey: the source first doubles every
backslash and then escapes every quote; because the second pass introduces
backslashes only in front of quotes, the two global replacements compose to
this single character map. -/
def escapeKeyChars : List Char → List Char
  | [] => []
  | c :: rest =>
      if c = '\\' then '\\' :: '\\' :: escapeKeyChars rest
      else if c = '\'' then '\\' :: '\'' :: escapeKeyChars rest
      else c :: escapeKeyChars rest

/-- Key escaping escapePathKey for bracket-quoted path segments. -/
def escapePathKey (key : String) : String :=
  ⟨escapeKeyChars key.data⟩

/-- Decimal digit list of a natural number; the fuel only bounds the digit
count and `n + 1` always suffices.  This models the JavaScript template
interpolation of an array index into a path string. -/
def natDigitsAux : Nat → Nat → List Char
  | 0, _ => []
  | fuel + 1, n =>
      if n < 10 then [Nat.digitChar n]
      else natDigitsAux fuel (n / 10) ++ [Nat.digitChar (n % 10)]

/-- Decimal rendering of a natural number. -/
def natToDecimal (n : Nat) : List Char :=
  natDigitsAux (n + 1) n

/-- Segment builder appendKeySegment: a dot segment for identifier-shaped
keys, a bracket-quoted segment otherwise. -/
def appendKeySegment (base : String) (key : String) : String :=
  if identPatternTest key then base ++ "." ++ key
  else base ++ "['" ++ escapePathKey key ++ "']"

/-- Segment builder appendIndexSegment. -/
def appendIndexSegment (base : String) (index : Nat) : String :=
  base ++ "[" ++ (⟨natToDecimal index⟩ : String) ++ "]"

/-- Model of JavaScript String.prototype.trim: strip whitespace from both
ends (the source applies it to path strings before parsing). -/
def jsTrim (s : String) : String :=
  ⟨((s.data.dropWhile Char.isWhitespace).reverse.dropWhile Char.isWhitespace).reverse⟩

/-- Numeric value of a digit run, as Number() computes it for the digit
substring the parser sliced. -/
def digitsToNat (cs : List Char) : Nat :=
  cs.foldl (fun acc c => acc * 10 + (c.toNat - 48)) 0

/-- Bracket-quoted key scanner of parseJsonPath: consume until an unescaped
quote, a backslash taking the following character literally; running out of
input before the closing quote fails, exactly as the source then fails its
quote check. Returns the key characters and the input after the quote. -/
def readQuoted : List Char → Option (List Char × List Char)
  | [] => none
  | '\\' :: rest =>
      match rest with
      | [] => none
      | n :: rest2 =>
          match readQuoted rest2 with
          | some (k, r) => some (n :: k, r)
          | none => none
  | '\'' :: rest => some ([], rest)
  | c :: rest =>
      match readQuoted rest with
      | some (k, r) => some (c :: k, r)
      | none => none

/-- Segment loop of parseJsonPath over the characters after the leading
dollar.  The fuel only bounds the number of loop iterations; every segment
consumes at least one character, so one more than the character count
always suffices. -/
def parseSegsFrom : Nat → List Char → Option (List PathSeg)
  | 0, _ => none
  | _ + 1, [] => some []
  | fuel + 1, '.' :: rest =>
      let ident := rest.takeWhile isIdentChar
      if ident.isEmpty then none
      else
        match parseSegsFrom fuel (rest.dropWhile isIdentChar) with
        | some segs => some (.key ⟨ident⟩ :: segs)
        | none => none
  | fuel + 1, '[' :: rest =>
      match rest with
      | [] => none
      | '\'' :: rest2 =>
          match readQuoted rest2 with
          | none => none
          | some (k, rem) =>
              match rem with
              | ']' :: rem2 =>
                  match parseSegsFrom fuel rem2 with
                  | some segs => some (.key ⟨k⟩ :: segs)
                  | none => none
              | _ => none
      | _ =>
          let digits := rest.takeWhile Char.isDigit
          if digits.isEmpty then none
          else
            match rest.dropWhile Char.isDigit with
            | ']' :: rem2 =>
                match parseSegsFrom fuel rem2 with
                | some segs => some (.idx (digitsToNat digits) :: segs)
                | none => none
            | _ => none
  | _ + 1, _ => none

/-- Path string parsing parseJsonPath: trim, require a leading dollar, then
scan dot segments, bracket-quoted segments and bracket index segments;
any other character fails the whole parse. -/
def parseJsonPath (path : String) : Option (List PathSeg) :=
  let value := jsTrim path
  match value.data with
  | '$' :: rest => parseSegsFrom (rest.length + 1) rest
  | _ => none

/-! ## Structural diff/patch engine (src/utils/jsonDiff.ts) -/

/-- Kind of one diff entry. -/
inductive DiffKind where
  | add
  | remove
  | replace
deriving Repr, DecidableEq

/-- One JsonDiffEntry; the source stores `undefined` in the value slot an
entry does not use, modelled as `none`. -/
structure DiffEntry where
  path : String
  kind : DiffKind
  currentValue : Option JsonValue := none
  incomingValue : Option JsonValue := none
deriving Repr

/-- JavaScript object field read `entries[key]`. -/
def objLookup (entries : List (String × JsonValue)) (k : String) : Option JsonValue :=
  (entries.find? (fun p => p.1 == k)).map (fun p => p.2)

/-- Key dedup of `new Set([...keys(left), ...keys(right)])`, keeping first
occurrences (the subsequent sort makes the kept order irrelevant). -/
def dedupKeysAux (seen : List String) : List String → List String
  | [] => []
  | k :: tl =>
      if seen.contains k then dedupKeysAux seen tl
      else k :: dedupKeysAux (k :: seen) tl

/-- Deduplicated key union. -/
def dedupKeys (ks : List String) : List String :=
  dedupKeysAux [] ks

/-- Sorted insertion, helper for sortKeys. -/
def insertSorted (k : String) : List String → List String
  | [] => [k]
  | x :: tl => if k ≤ x then k :: x :: tl else x :: insertSorted k tl

/-- Ascending key sort.  The source sorts with the default Array.sort
comparator (code-unit lexicographic); on pairwise distinct keys every
correct sort produces the same list, so an insertion sort models it. -/
def sortKeys : List String → List String
  | [] => []
  | k :: tl => insertSorted k (sortKeys tl)

/-- Deep clone via JSON.parse(JSON.stringify(v)): the identity on the JSON
values modelled here. -/
def cloneValue (v : JsonValue) : JsonValue := v

/-- Recursive comparison walk of diffJson.  Equal values emit nothing; two
arrays are walked index by index over the longer length; two objects are
walked over the sorted union of their keys; any other combination emits one
replace entry.  The fuel bounds the nesting depth; diffJson hands it the
combined heights, which cannot run out. -/
def diffWalk : Nat → String → JsonValue → JsonValue → List DiffEntry
  | 0, _, _, _ => []
  | fuel + 1, path, left, right =>
    if beqVal left right then []
    else
      match left, right with
      | .arr ls, .arr rs =>
          (List.range (max ls.length rs.length)).foldl (fun diffs index =>
            if index ≥ ls.length then
              diffs ++ [{ path := appendIndexSegment path index, kind := .add,
                          incomingValue := some (rs.getD index .null) }]
            else if index ≥ rs.length then
              diffs ++ [{ path := appendIndexSegment path index, kind := .remove,
                          currentValue := some (ls.getD index .null) }]
            else
              diffs ++ diffWalk fuel (appendIndexSegment path index)
                (ls.getD index .null) (rs.getD index .null)) []
      | .obj lo, .obj ro =>
          (sortKeys (dedupKeys (lo.map (fun p => p.1) ++ ro.map (fun p => p.1)))).foldl
            (fun diffs k =>
              match objLookup lo k, objLookup ro k with
              | none, some rv =>
                  diffs ++ [{ path := appendKeySegment path k, kind := .add,
                              incomingValue := some rv }]
              | some lv, none =>
                  diffs ++ [{ path := appendKeySegment path k, kind := .remove,
                              currentValue := some lv }]
              | some lv, some rv =>
                  diffs ++ diffWalk fuel (appendKeySegment path k) lv rv
              | none, none => diffs) []
      | _, _ =>
          [{ path := path, kind := .replace,
             currentValue := some left, incomingValue := some right }]

/-- Diff entry point diffJson. -/
def diffJson (current incoming : JsonValue) : List DiffEntry :=
  diffWalk (jheight current + jheight incoming + 1) "$" current incoming

/-- Default container installed when applySetBySegments auto-vivifies an
intermediate step: array when the next segment is an index, object when it
is a key. -/
def vivifyDefault (nextSeg : PathSeg) : JsonValue :=
  match nextSeg with
  | .idx _ => .arr []
  | .key _ => .obj []

/-- Final assignment step of applySetBySegments: write into an object
field, or into an array slot, padding a too-short array with nulls; on a
structurally mismatched target nothing happens (the source returns the
partially walked root unchanged). -/
def setLast (cursor : JsonValue) (last : PathSeg) (v : JsonValue) : JsonValue :=
  match last with
  | .key k =>
      match cursor with
      | .obj entries => .obj (objAssign entries k (cloneValue v))
      | _ => cursor
  | .idx i =>
      match cursor with
      | .arr items =>
          if i ≥ items.length then
            .arr ((items ++ List.replicate (i - items.length) JsonValue.null) ++ [cloneValue v])
          else .arr (items.set i (cloneValue v))
      | _ => cursor

/-- Walk of applySetBySegments: descend along the segments, auto-vivifying
missing or null intermediate containers (padding arrays with the vivify
default, exactly as the source pushes defaults), and assign at the last
segment.  A structural mismatch leaves everything from that point
unchanged, which reproduces the source returning the partially vivified
root. -/
def setGo (cursor : JsonValue) : List PathSeg → JsonValue → JsonValue
  | [], v => cloneValue v
  | [last], v => setLast cursor last v
  | seg :: next :: rest, v =>
      match seg with
      | .key k =>
          match cursor with
          | .obj entries =>
              let child :=
                match objLookup entries k with
                | none => vivifyDefault next
                | some .null => vivifyDefault next
                | some c => c
              .obj (objAssign entries k (setGo child (next :: rest) v))
          | _ => cursor
      | .idx i =>
          match cursor with
          | .arr items =>
              let items2 :=
                if i ≥ items.length then
                  items ++ List.replicate (i + 1 - items.length) (vivifyDefault next)
                else items
              let child :=
                match items2.getD i JsonValue.null with
                | .null => vivifyDefault next
                | c => c
              .arr (items2.set i (setGo child (next :: rest) v))
          | _ => cursor

/-- Entry point applySetBySegments (the deep clone of the root is the
identity here). -/
def applySetBySegments (target : JsonValue) (segments : List PathSeg) (v : JsonValue) :
    JsonValue :=
  setGo target segments v

/-- Walk of applyDeleteBySegments: descend without vivification, abort on
any mismatch or absence, then delete the object key or splice the array
index at the last segment (out-of-range indices abort; the parser cannot
produce the negative indices the source also guards). -/
def delGo (cursor : JsonValue) : List PathSeg → JsonValue
  | [] => cursor
  | [last] =>
      match last with
      | .key k =>
          match cursor with
          | .obj entries => .obj (entries.filter (fun p => p.1 != k))
          | _ => cursor
      | .idx i =>
          match cursor with
          | .arr items =>
              if i < items.length then .arr (items.eraseIdx i) else cursor
          | _ => cursor
  | seg :: next :: rest =>
      match seg with
      | .key k =>
          match cursor with
          | .obj entries =>
              match objLookup entries k with
              | some child => .obj (objAssign entries k (delGo child (next :: rest)))
              | none => cursor
          | _ => cursor
      | .idx i =>
          match cursor with
          | .arr items =>
              if i < items.length then
                .arr (items.set i (delGo (items.getD i JsonValue.null) (next :: rest)))
              else cursor
          | _ => cursor

/-- Entry point applyDeleteBySegments: an empty segment list returns null,
as in the source. -/
def applyDeleteBySegments (target : JsonValue) (segments : List PathSeg) : JsonValue :=
  match segments with
  | [] => JsonValue.null
  | _ => delGo target segments

/-- Patch application applyDiffEntries: thread the (cloned) base through
the entries in order; an unparseable path skips its entry; remove deletes,
add and replace assign.  The source would assign `undefined` when an
add or replace entry carries no incoming value; diffJson never emits such
an entry, and the model skips it. -/
def applyDiffEntries (current : JsonValue) (entries : List DiffEntry) : JsonValue :=
  entries.foldl (fun next entry =>
    match parseJsonPath entry.path with
    | none => next
    | some segments =>
        match entry.kind with
        | .remove => applyDeleteBySegments next segments
        | _ =>
            match entry.incomingValue with
            | some v => applySetBySegments next segments v
            | none => next) (cloneValue current)

/-! ## Path build and resolve over a document (useJsonStore.ts) -/

/-- First index of an id in a children list, `children.indexOf(id)` with
`none` for the -1 result. -/
def listIndexOf : List Nat → Nat → Option Nat
  | [], _ => none
  | y :: tl, x => if y = x then some 0 else (listIndexOf tl x).map (fun i => i + 1)

/-- Upward walk of buildPathInDocument, collecting segment strings
leaf-to-root; `none` models the early `return '\x24'` bail-outs (missing
parent, id not among the parent children, keyless child of an object,
non-container parent).  The fuel bounds the parent-chain length; the
wrapper passes more than the node count, which a tree cannot exhaust. -/
def buildPathPartsUp (m : NodeMap) : Nat → JsonNode → Option (List String)
  | 0, _ => none
  | fuel + 1, current =>
      match current.parentId with
      | none => some []
      | some pid =>
          match lookupNode m pid with
          | none => none
          | some parent =>
              match parent.type with
              | .array =>
                  match listIndexOf (childList parent) current.id with
                  | none => none
                  | some index =>
                      match buildPathPartsUp m fuel parent with
                      | some parts =>
                          some (("[" ++ (⟨natToDecimal index⟩ : String) ++ "]") :: parts)
                      | none => none
              | .object =>
                  match current.key with
                  | none => none
                  | some k =>
                      match buildPathPartsUp m fuel parent with
                      | some parts => some (appendKeySegment "" k :: parts)
                      | none => none
              | _ => none

/-- Path builder buildPathInDocument: walk the parent chain, then reverse
and join the collected parts after the leading dollar. -/
def buildPathInDocument (doc : JsonDocument) (nodeId : Nat) : String :=
  match lookupNode doc.nodes nodeId with
  | none => "$"
  | some start =>
      match buildPathPartsUp doc.nodes (doc.nodes.length + 1) start with
      | none => "$"
      | some parts => "$" ++ String.join parts.reverse

/-- Downward walk of resolvePathInDocument over parsed segments: a key
segment requires an object with children and takes the first child whose
key matches; an index segment requires an array and a bounds-checked
position. -/
def resolveSegs (m : NodeMap) : List PathSeg → Nat → Option Nat
  | [], currentId => some currentId
  | seg :: rest, currentId =>
      match lookupNode m currentId with
      | none => none
      | some current =>
          match seg with
          | .key k =>
              match current.type, current.children with
              | .object, some children =>
                  match children.find? (fun childId =>
                    match lookupNode m childId with
                    | some cn => cn.key == some k
                    | none => false) with
                  | some nextId => resolveSegs m rest nextId
                  | none => none
              | _, _ => none
          | .idx i =>
              match current.type, current.children with
              | .array, some children =>
                  if i < children.length then resolveSegs m rest (children.getD i 0)
                  else none
              | _, _ => none

/-- Path resolution resolvePathInDocument: parse, then walk from the root;
a parse failure and a resolution miss both give `none`. -/
def resolvePathInDocument (doc : JsonDocument) (jsonPath : String) : Option Nat :=
  match parseJsonPath jsonPath with
  | none => none
  | some segments => resolveSegs doc.nodes segments doc.rootId

/-! ## Store state, history commands and helpers (useJsonStore.ts) -/

/-- History command (HistoryCommand of useJsonStore.ts). -/
inductive HistoryCommand where
  | updateValue (id : Nat) (oldValue newValue : JsonPrim)
  | renameKey (id : Nat) (oldKey : Option String) (newKey : String)
  | addNode (parentId : Nat) (node : JsonNode)
  | deleteNode (parentId : Nat) (index : Nat) (node : JsonNode) (subtree : NodeMap)
  | moveArrayItem (parentId : Nat) (fromIndex toIndex : Int)
  | changeType (id : Nat) (oldNode newNode : JsonNode) (removedSubtree : NodeMap)
  | replaceDocument (before after : JsonDocument)
      (beforeSelectedId afterSelectedId : Option Nat)
      (beforeExpandedIds afterExpandedIds : List Nat)
deriving Repr, DecidableEq

/-- Paste mode. -/
inductive PasteMode where
  | replace
  | append
  | insert
deriving Repr, DecidableEq

/-- Sort direction of sortObjectKeys. -/
inductive SortDir where
  | asc
  | desc
deriving Repr, DecidableEq

/-- Format mode of formatDocument. -/
inductive FormatMode where
  | pretty
  | minify
  | sort
deriving Repr, DecidableEq

/-- Paste outcome `{ ok, reason? }`. -/
structure PasteResult where
  ok : Bool
  reason : Option String := none
deriving Repr, DecidableEq

/-- Which field of a node one pending search-and-replace edit touches. -/
inductive ReplaceField where
  | key
  | value
deriving Repr, DecidableEq

/-- One pending search-and-replace edit (the store's replacePreview
entries): the node, the field it touches, and the text before/after. -/
structure ReplaceEntry where
  id : Nat
  field : ReplaceField
  before : String
  after : String
deriving Repr, DecidableEq

/-- The slice of the zustand store state the document core owns: the
document, the auxiliary selection state every mutation keeps in sync, the
pending search-and-replace preview, the two history stacks, and the
fresh-id counter modelling uuidv4.  JavaScript Sets of ids are modelled as
insertion-ordered duplicate-free lists. -/
structure StoreState where
  document : Option JsonDocument
  selectedId : Option Nat := none
  expandedIds : List Nat := []
  focusRootId : Option Nat := none
  multiSelectedIds : List Nat := []
  replacePreview : List ReplaceEntry := []
  isDirty : Bool := false
  undoStack : List HistoryCommand := []
  redoStack : List HistoryCommand := []
  nextId : Nat := 0
deriving Repr, DecidableEq

/-- Shallow node copy cloneNode; on immutable values it is the identity. -/
def cloneNode (n : JsonNode) : JsonNode := n

/-- Per-node document copy cloneDocument; the identity on immutable values. -/
def cloneDocument (d : JsonDocument) : JsonDocument := d

/-- JavaScript Set insertion: append unless present. -/
def addIdOnce (l : List Nat) (x : Nat) : List Nat :=
  if l.contains x then l else l ++ [x]

/-- The falsy-string fallback `s || fallback`. -/
def jsKeyOr (s : String) (fallback : String) : String :=
  if s = "" then fallback else s

/-- Validity guard of moveListItem: both indices in range and distinct.
The source returns the argument array itself exactly when this fails, and
a fresh array otherwise, which is what its callers test with `!==`. -/
def moveListItemValid (list : List Nat) (fromIndex toIndex : Int) : Bool :=
  decide (0 ≤ fromIndex ∧ 0 ≤ toIndex ∧ fromIndex < (list.length : Int) ∧
    toIndex < (list.length : Int) ∧ fromIndex ≠ toIndex)

/-- Reorder helper moveListItem: splice the item out of its old position
and into the new one; invalid indices leave the list untouched. -/
def moveListItem (list : List Nat) (fromIndex toIndex : Int) : List Nat :=
  if moveListItemValid list fromIndex toIndex then
    (list.eraseIdx fromIndex.toNat).insertIdx toIndex.toNat (list.getD fromIndex.toNat 0)
  else list

/-- Walk of collectDescendantIds: add each child to the set, then descend.
Fuel bounds the depth, as everywhere. -/
def collectDescendantIdsAux (m : NodeMap) : Nat → Nat → List Nat → List Nat
  | 0, _, acc => acc
  | fuel + 1, nodeId, acc =>
      match lookupNode m nodeId with
      | none => acc
      | some node =>
          (childList node).foldl (fun acc2 childId =>
            collectDescendantIdsAux m fuel childId (addIdOnce acc2 childId)) acc

/-- Descendant id set of collectDescendantIds, in insertion order. -/
def collectDescendantIds (m : NodeMap) (rootId : Nat) : List Nat :=
  collectDescendantIdsAux m (m.length + 1) rootId []

/-- Default value/children pair getDefaultNodeState for a node type. -/
def getDefaultNodeState (t : JsonNodeType) : JsonPrim × Option (List Nat) :=
  match t with
  | .string => (.str "", none)
  | .number => (.num 0, none)
  | .boolean => (.bool false, none)
  | .null => (.null, none)
  | _ => (.null, some [])

/-- Candidate key with a numeric suffix, the template of
ensureUniqueObjectKey. -/
def mkSuffixed (base : String) (n : Nat) : String :=
  base ++ "_" ++ (⟨natToDecimal n⟩ : String)

/-- Suffix search loop of ensureUniqueObjectKey: try base_1, base_2, ...
until one is free.  The fuel only bounds the loop; one more than the
number of existing keys always suffices, because the candidates are
pairwise distinct. -/
def firstFreeSuffix (existing : List String) (base : String) : Nat → Nat → String
  | 0, suffix => mkSuffixed base suffix
  | fuel + 1, suffix =>
      if existing.contains (mkSuffixed base suffix) then
        firstFreeSuffix existing base fuel (suffix + 1)
      else mkSuffixed base suffix

/-- Key deduplication ensureUniqueObjectKey: outside an object parent the
desired key (or the "key" fallback) passes through; inside, the desired key
is defaulted and trimmed to a non-empty base, then suffixed until it
differs from every sibling key (the sibling with id exceptId being
ignored). -/
def ensureUniqueObjectKey (nodes : NodeMap) (parentId : Nat) (desiredKey : String)
    (exceptId : Option Nat) : String :=
  match lookupNode nodes parentId with
  | none => jsKeyOr desiredKey "key"
  | some parent =>
      match parent.type, parent.children with
      | .object, some children =>
          let base := jsKeyOr (jsTrim (jsKeyOr desiredKey "key")) "key"
          let existing := children.filterMap (fun childId =>
            if exceptId = some childId then none
            else
              match lookupNode nodes childId with
              | some cn => cn.key
              | none => none)
          if existing.contains base then
            firstFreeSuffix existing base (existing.length + 1) 1
          else base
      | _, _ => jsKeyOr desiredKey "key"

/-- Subtree builder buildSubtreeFromValue: the recursive walk without an
override id coincides with parseNode of the codec (assign a fresh id,
recurse into children, then record the node), so the model shares it; with
an override the root keeps the given id and consumes no fresh one. -/
def buildSubtreeFromValue (v : JsonValue) (parentId : Option Nat) (key : Option String)
    (rootIdOverride : Option Nat) (ctr : Nat) : ParseOut :=
  match rootIdOverride with
  | none => parseNode v parentId key ctr
  | some oid =>
      match v with
      | .null => ⟨oid, ctr, [(oid, { id := oid, type := .null, parentId, key, value := .null })]⟩
      | .bool b =>
          ⟨oid, ctr, [(oid, { id := oid, type := .boolean, parentId, key, value := .bool b })]⟩
      | .num n =>
          ⟨oid, ctr, [(oid, { id := oid, type := .number, parentId, key, value := .num n })]⟩
      | .str s =>
          ⟨oid, ctr, [(oid, { id := oid, type := .string, parentId, key, value := .str s })]⟩
      | .arr items =>
          let r := parseItems items oid ctr
          ⟨oid, r.ctr, r.nodes ++
            [(oid, { id := oid, type := .array, parentId, key, value := .null,
                     children := some r.ids })]⟩
      | .obj entries =>
          let r := parseEntries entries oid ctr
          ⟨oid, r.ctr, r.nodes ++
            [(oid, { id := oid, type := .object, parentId, key, value := .null,
                     children := some r.ids })]⟩

mutual

/-- Recursive key sort sortJsonKeysDeep: arrays map, objects rebuild their
entries in ascending key order (the source reduces over the sorted key
list, reading each value out of the object), primitives pass through. -/
def sortJsonKeysDeep : JsonValue → JsonValue
  | .arr items => .arr (sortJsonKeysDeepList items)
  | .obj entries =>
      .obj ((sortKeys (dedupKeys (entries.map (fun p => p.1)))).map (fun k =>
        (k, (objLookup (sortJsonKeysDeepEntries entries) k).getD .null)))
  | v => v

/-- List form of sortJsonKeysDeep. -/
def sortJsonKeysDeepList : List JsonValue → List JsonValue
  | [] => []
  | v :: tl => sortJsonKeysDeep v :: sortJsonKeysDeepList tl

/-- Entry form of sortJsonKeysDeep: sort every field value, keeping keys
and order (the object case above then reads the sorted values per key). -/
def sortJsonKeysDeepEntries : List (String × JsonValue) → List (String × JsonValue)
  | [] => []
  | (k, v) :: tl => (k, sortJsonKeysDeep v) :: sortJsonKeysDeepEntries tl

end

/-- Sort key of a child in sortObjectKeys: the node key, or the empty
string for a missing node or key. -/
def childSortKey (m : NodeMap) (c : Nat) : String :=
  match lookupNode m c with
  | some cn => cn.key.getD ""
  | none => ""

/-- Stable sorted insertion for sortObjectKeys. -/
def insertChildByKey (m : NodeMap) (c : Nat) : List Nat → List Nat
  | [] => [c]
  | x :: tl =>
      if childSortKey m c ≤ childSortKey m x then c :: x :: tl
      else x :: insertChildByKey m c tl

/-- Stable ascending sort of children by key, the model of the source
`[...children].sort(localeCompare)` (the comparator is modelled by
code-point string order). -/
def sortChildrenByKey (m : NodeMap) : List Nat → List Nat
  | [] => []
  | c :: tl => insertChildByKey m c (sortChildrenByKey m tl)

/-- Ancestor expansion walk of replaceDocumentFromJson:
`while (current && current.parentId) add(current.parentId)`. -/
def ancestorsAdd (m : NodeMap) : Nat → Option JsonNode → List Nat → List Nat
  | 0, _, acc => acc
  | fuel + 1, current, acc =>
      match current with
      | none => acc
      | some cn =>
          match cn.parentId with
          | none => acc
          | some pid => ancestorsAdd m fuel (lookupNode m pid) (addIdOnce acc pid)

/-! ## Store mutations (useJsonStore.ts) -/

/-- Mutation updateNodeValue: always records an UPDATE_VALUE command when
the node exists (there is no equality guard on the value). -/
def updateNodeValue (s : StoreState) (id : Nat) (value : JsonPrim) : StoreState :=
  match s.document with
  | none => s
  | some doc =>
      match lookupNode doc.nodes id with
      | none => s
      | some node =>
          let oldValue := node.value
          let command := HistoryCommand.updateValue id oldValue value
          { s with
            document := some { doc with nodes := setNode doc.nodes id { node with value := value } },
            isDirty := true,
            undoStack := s.undoStack ++ [command],
            redoStack := [] }

/-- Pre-order subtree capture of changeNodeType (record each visited node,
then descend). -/
def collectSubtreePre (m : NodeMap) : Nat → Nat → NodeMap → NodeMap
  | 0, _, acc => acc
  | fuel + 1, nodeId, acc =>
      match lookupNode m nodeId with
      | none => acc
      | some n =>
          (childList n).foldl (fun a c => collectSubtreePre m fuel c a)
            (setNode acc nodeId (cloneNode n))

/-- Mutation changeNodeType: a no-op when the type is unchanged; otherwise
prune the subtree (captured for undo), install the default state of the new
type, and fix the expanded-id set. -/
def changeNodeType (s : StoreState) (id : Nat) (nextType : JsonNodeType) : StoreState :=
  match s.document with
  | none => s
  | some doc =>
      match lookupNode doc.nodes id with
      | none => s
      | some node =>
          if node.type = nextType then s
          else
            let removedSubtree := (childList node).foldl
              (fun a c => collectSubtreePre doc.nodes (doc.nodes.length + 1) c a) []
            let oldNode := cloneNode node
            let defaultState := getDefaultNodeState nextType
            let newNode : JsonNode :=
              { node with type := nextType, value := defaultState.1,
                          children := defaultState.2 }
            let newNodes := (keysOf removedSubtree).foldl eraseNode
              (setNode doc.nodes id (cloneNode newNode))
            let command := HistoryCommand.changeType id oldNode (cloneNode newNode) removedSubtree
            let exp1 := s.expandedIds.filter (fun e => !((keysOf removedSubtree).contains e))
            let exp2 :=
              if nextType = .object ∨ nextType = .array then addIdOnce exp1 id else exp1
            { s with
              document := some { doc with nodes := newNodes },
              expandedIds := exp2,
              isDirty := true,
              undoStack := s.undoStack ++ [command],
              redoStack := [] }

/-- Mutation moveArrayItem: requires an array parent; an index guard
failure (negative, out of range, equal) leaves the whole state untouched
and pushes nothing. -/
def moveArrayItem (s : StoreState) (parentId : Nat) (fromIndex toIndex : Int) : StoreState :=
  match s.document with
  | none => s
  | some doc =>
      match lookupNode doc.nodes parentId with
      | none => s
      | some parent =>
          match parent.type, parent.children with
          | .array, some children =>
              if moveListItemValid children fromIndex toIndex then
                let command := HistoryCommand.moveArrayItem parentId fromIndex toIndex
                let parent2 := { parent with children := some (moveListItem children fromIndex toIndex) }
                { s with
                  document := some { doc with nodes := setNode doc.nodes parentId parent2 },
                  isDirty := true,
                  undoStack := s.undoStack ++ [command],
                  redoStack := [] }
              else s
          | _, _ => s

/-- Mutation addNode: append a child with a type-appropriate default value
to a parent that has a children list; for an object parent the key is
deduplicated against the siblings. -/
def addNode (s : StoreState) (parentId : Nat) (t : JsonNodeType) (key : Option String) :
    StoreState :=
  match s.document with
  | none => s
  | some doc =>
      match lookupNode doc.nodes parentId with
      | none => s
      | some parent =>
          match parent.children with
          | none => s
          | some children =>
              let value : JsonPrim :=
                match t with
                | .string => .str ""
                | .number => .num 0
                | .boolean => .bool false
                | _ => .null
              let newId := s.nextId
              let resolvedKey : Option String :=
                if parent.type = .object then
                  some (ensureUniqueObjectKey doc.nodes parentId
                    (jsKeyOr (key.getD "") "key") none)
                else key
              let newNode : JsonNode :=
                { id := newId, type := t, parentId := some parentId, key := resolvedKey,
                  value := value,
                  children := if t = .object ∨ t = .array then some [] else none }
              let command := HistoryCommand.addNode parentId newNode
              let newNodes := setNode (setNode doc.nodes newId newNode) parentId
                { parent with children := some (children ++ [newId]) }
              { s with
                document := some { doc with nodes := newNodes },
                expandedIds := addIdOnce s.expandedIds parentId,
                isDirty := true,
                undoStack := s.undoStack ++ [command],
                redoStack := [],
                nextId := s.nextId + 1 }

/-- Post-order subtree capture of deleteNode (descend first, then record
every node except the one being deleted). -/
def collectSubtreePost (m : NodeMap) (rootExcl : Nat) : Nat → Nat → NodeMap → NodeMap
  | 0, _, acc => acc
  | fuel + 1, nodeId, acc =>
      match lookupNode m nodeId with
      | none => acc
      | some n =>
          let acc1 := (childList n).foldl (fun a c => collectSubtreePost m rootExcl fuel c a) acc
          if nodeId = rootExcl then acc1 else setNode acc1 nodeId n

/-- Recursive arena removal of deleteNode (look the node up in the current
map, delete the children subtrees, then the node itself). -/
def deleteRecursive : Nat → NodeMap → Nat → NodeMap
  | 0, nodes, _ => nodes
  | fuel + 1, nodes, nodeId =>
      let nodes1 :=
        match lookupNode nodes nodeId with
        | some n =>
            match n.children with
            | some cs => cs.foldl (fun acc c => deleteRecursive fuel acc c) nodes
            | none => nodes
        | none => nodes
      eraseNode nodes1 nodeId

/-- Mutation deleteNode: requires a parent; captures the removed node, its
index and its subtree for undo, then removes the subtree from the arena. -/
def deleteNode (s : StoreState) (id : Nat) : StoreState :=
  match s.document with
  | none => s
  | some doc =>
      match lookupNode doc.nodes id with
      | none => s
      | some node =>
          match node.parentId with
          | none => s
          | some pid =>
              match lookupNode doc.nodes pid with
              | none => s
              | some parent =>
                  match parent.children with
                  | none => s
                  | some children =>
                      match listIndexOf children id with
                      | none => s
                      | some index =>
                          let subtree := (childList node).foldl
                            (fun a c => collectSubtreePost doc.nodes id
                              (doc.nodes.length + 1) c a) []
                          let command := HistoryCommand.deleteNode pid index node subtree
                          let newChildren := children.filter (fun childId => childId ≠ id)
                          let newNodes := deleteRecursive (doc.nodes.length + 1) doc.nodes id
                          let parent2 := { parent with children := some newChildren }
                          { s with
                            document := some { doc with nodes := setNode newNodes parent.id parent2 },
                            selectedId := if s.selectedId = some id then none else s.selectedId,
                            isDirty := true,
                            undoStack := s.undoStack ++ [command],
                            redoStack := [] }

/-- Mutation renameNodeKey: requires a parent; the applied key is the
deduplicated key, which may differ from the requested one. -/
def renameNodeKey (s : StoreState) (id : Nat) (newKey : String) : StoreState :=
  match s.document with
  | none => s
  | some doc =>
      match lookupNode doc.nodes id with
      | none => s
      | some node =>
          match node.parentId with
          | none => s
          | some pid =>
              let uniqueKey := ensureUniqueObjectKey doc.nodes pid newKey (some id)
              let command := HistoryCommand.renameKey id node.key uniqueKey
              let node2 := { node with key := some uniqueKey }
              { s with
                document := some { doc with nodes := setNode doc.nodes id node2 },
                isDirty := true,
                undoStack := s.undoStack ++ [command],
                redoStack := [] }

/-- Graft helper appendToParent of pasteNodeJson: build the pasted subtree,
deduplicate its root key when the target is an object (against the map as
assigned so far, whose sibling keys are unchanged), assign its nodes, and
append the root to the children. -/
def appendToParentModel (nodes : NodeMap) (ctr : Nat) (parentId : Nat) (value : JsonValue)
    (key : Option String) : NodeMap × Nat :=
  match lookupNode nodes parentId with
  | none => (nodes, ctr)
  | some parent =>
      match parent.children with
      | none => (nodes, ctr)
      | some children =>
          let subtree := buildSubtreeFromValue value (some parentId) key none ctr
          let nodes2 := subtree.nodes.foldl (fun acc (p : Nat × JsonNode) =>
            if parent.type = .object ∧ p.1 = subtree.id then
              setNode acc p.1 { p.2 with
                key := some (ensureUniqueObjectKey acc parentId
                  (jsKeyOr (key.getD "") "key") none) }
            else setNode acc p.1 p.2) nodes
          (setNode nodes2 parentId { parent with children := some (children ++ [subtree.id]) },
           subtree.ctr)

/-- Mutation pasteNodeJson.  The outcome of JSON.parse on the raw clipboard
text (a platform builtin) enters as an `Except`: a parse failure returns a
structured failure before any state is touched.  A successful parse
commits one whole-document REPLACE_DOCUMENT command. -/
def pasteNodeJson (s : StoreState) (targetId : Nat) (rawJson : Except String JsonValue)
    (mode : PasteMode) : PasteResult × StoreState :=
  match s.document with
  | none => ({ ok := false, reason := some "Target node not found" }, s)
  | some doc =>
      match lookupNode doc.nodes targetId with
      | none => ({ ok := false, reason := some "Target node not found" }, s)
      | some target =>
          match rawJson with
          | .error msg => ({ ok := false, reason := some msg }, s)
          | .ok parsed =>
              let beforeDoc := cloneDocument doc
              let step : NodeMap × Nat :=
                if mode = .replace ∨ (target.type ≠ .object ∧ target.type ≠ .array) then
                  let descendants := collectDescendantIds doc.nodes targetId
                  let nodes1 := descendants.foldl eraseNode doc.nodes
                  let subtree := buildSubtreeFromValue parsed target.parentId target.key
                    (some targetId) s.nextId
                  (subtree.nodes.foldl (fun acc p => setNode acc p.1 p.2) nodes1, subtree.ctr)
                else if target.type = .array then
                  match mode, parsed with
                  | .append, .arr items =>
                      items.foldl (fun (acc : NodeMap × Nat) item =>
                        appendToParentModel acc.1 acc.2 targetId item none)
                        (doc.nodes, s.nextId)
                  | _, _ => appendToParentModel doc.nodes s.nextId targetId parsed none
                else
                  match mode, parsed with
                  | .append, .obj entries =>
                      entries.foldl (fun (acc : NodeMap × Nat) e =>
                        appendToParentModel acc.1 acc.2 targetId e.2 (some e.1))
                        (doc.nodes, s.nextId)
                  | _, _ => appendToParentModel doc.nodes s.nextId targetId parsed (some "pasted")
              let nextDoc : JsonDocument := { rootId := doc.rootId, nodes := step.1 }
              let nextExpandedIds := addIdOnce s.expandedIds targetId
              let command := HistoryCommand.replaceDocument beforeDoc (cloneDocument nextDoc)
                s.selectedId s.selectedId s.expandedIds nextExpandedIds
              ({ ok := true },
               { s with
                 document := some nextDoc,
                 expandedIds := nextExpandedIds,
                 isDirty := true,
                 undoStack := s.undoStack ++ [command],
                 redoStack := [],
                 nextId := step.2 })

/-- Mutation sortObjectKeys: stable-sort the children of an object node by
key; an already sorted order is a no-op; otherwise commit one
whole-document REPLACE_DOCUMENT command (selection and expansion are
snapshotted unchanged). -/
def sortObjectKeys (s : StoreState) (nodeId : Nat) (direction : SortDir) : StoreState :=
  match s.document with
  | none => s
  | some doc =>
      match lookupNode doc.nodes nodeId with
      | none => s
      | some node =>
          match node.type, node.children with
          | .object, some children =>
              let sorted0 := sortChildrenByKey doc.nodes children
              let sorted := if direction = .desc then sorted0.reverse else sorted0
              if sorted = children then s
              else
                let beforeDoc := cloneDocument doc
                let node2 := { node with children := some sorted }
                let nextDoc : JsonDocument :=
                  { doc with nodes := setNode doc.nodes nodeId node2 }
                let command := HistoryCommand.replaceDocument beforeDoc (cloneDocument nextDoc)
                  s.selectedId s.selectedId s.expandedIds s.expandedIds
                { s with
                  document := some nextDoc,
                  isDirty := true,
                  undoStack := s.undoStack ++ [command],
                  redoStack := [] }
          | _, _ => s

/-- Mutation replaceDocumentFromJson: rebuild the whole arena from a raw
JSON value, re-resolve the selection through its path, expand the new
selection ancestors, and commit one REPLACE_DOCUMENT command. -/
def replaceDocumentFromJson (s : StoreState) (jsonValue : JsonValue) : StoreState :=
  match s.document with
  | none => s
  | some doc =>
      let beforeDoc := cloneDocument doc
      let selectedPath := s.selectedId.map (fun sel => buildPathInDocument doc sel)
      let built := jsonToAstFrom s.nextId jsonValue
      let nextDoc := built.1
      let nextSelectedId := selectedPath.bind (fun p => resolvePathInDocument nextDoc p)
      let nextExpandedIds :=
        match nextSelectedId with
        | none => [nextDoc.rootId]
        | some sid =>
            ancestorsAdd nextDoc.nodes (nextDoc.nodes.length + 1)
              (lookupNode nextDoc.nodes sid) [nextDoc.rootId]
      let command := HistoryCommand.replaceDocument beforeDoc (cloneDocument nextDoc)
        s.selectedId nextSelectedId s.expandedIds nextExpandedIds
      { s with
        document := some nextDoc,
        selectedId := nextSelectedId,
        expandedIds := nextExpandedIds,
        focusRootId := none,
        multiSelectedIds := [],
        isDirty := true,
        undoStack := s.undoStack ++ [command],
        redoStack := [],
        nextId := built.2 }

/-- Mutation formatDocument: serialize the document and replace it with the
result, key-sorted in sort mode (pretty and minify only change the text
representation, which the arena does not store). -/
def formatDocument (s : StoreState) (mode : FormatMode) : StoreState :=
  match s.document with
  | none => s
  | some doc =>
      let json := astToJson doc
      match mode with
      | .sort => replaceDocumentFromJson s (sortJsonKeysDeep json)
      | _ => replaceDocumentFromJson s json

/-- Mutation applyDiffSelection: apply the chosen diff entries to the
serialized document and replace it with the result. -/
def applyDiffSelection (s : StoreState) (entries : List DiffEntry) : StoreState :=
  match s.document with
  | none => s
  | some doc =>
      match entries with
      | [] => s
      | _ => replaceDocumentFromJson s (applyDiffEntries (astToJson doc) entries)

/-- Upward walk of batchDeleteSelected's topLevel filter: false exactly
when some strict ancestor of the node is itself selected (the node then
disappears with that ancestor's subtree and is not spliced out
separately); a missing parent ends the walk. -/
def chainClearOf (m : NodeMap) (sel : List Nat) : Nat → Option JsonNode → Bool
  | _, none => true
  | 0, some _ => true
  | fuel + 1, some cur =>
      match cur.parentId with
      | none => true
      | some p =>
          if sel.contains p then false
          else chainClearOf m sel fuel (lookupNode m p)

/-- Subtree removal of batchDeleteSelected, also collecting the removed
ids in deletion order (the JS deletedIds set): children first, then the
node itself; a missing node removes and records nothing. -/
def deleteRecursiveB : Nat → NodeMap × List Nat → Nat → NodeMap × List Nat
  | 0, acc, _ => acc
  | fuel + 1, acc, nodeId =>
      match lookupNode acc.1 nodeId with
      | none => acc
      | some n =>
          let acc1 := (childList n).foldl (fun a c => deleteRecursiveB fuel a c) acc
          (eraseNode acc1.1 nodeId, acc1.2 ++ [nodeId])

/-- One topLevel node's removal in batchDeleteSelected: splice the node
out of its parent's children, then delete its subtree; a node or parent
that has already vanished, or a parent without children, is skipped. -/
def batchDeleteStep (fuel : Nat) (acc : NodeMap × List Nat) (nodeId : Nat) :
    NodeMap × List Nat :=
  match lookupNode acc.1 nodeId with
  | none => acc
  | some node =>
      match node.parentId with
      | none => acc
      | some pid =>
          match lookupNode acc.1 pid with
          | none => acc
          | some parent =>
              match parent.children with
              | none => acc
              | some cs =>
                  deleteRecursiveB fuel
                    (setNode acc.1 parent.id
                      { parent with
                        children := some (cs.filter (fun childId => childId ≠ nodeId)) },
                     acc.2) nodeId

/-- Mutation batchDeleteSelected: delete every top-level multi-selected
subtree (a selected node nested under another selected node is skipped),
commit one whole-document REPLACE_DOCUMENT command, and recompute the
selection and expansion bookkeeping; when nothing is deletable it only
clears the multi-selection and pushes nothing. -/
def batchDeleteSelected (s : StoreState) : StoreState :=
  match s.document with
  | none => s
  | some doc =>
      if s.multiSelectedIds = [] then s
      else
        let selected := s.multiSelectedIds.filter (fun id =>
          match lookupNode doc.nodes id with
          | some n => n.parentId.isSome
          | none => false)
        let topLevel := selected.filter (fun id =>
          chainClearOf doc.nodes selected (doc.nodes.length + 1)
            (lookupNode doc.nodes id))
        if topLevel = [] then { s with multiSelectedIds := [] }
        else
          let result := topLevel.foldl
            (fun acc nodeId => batchDeleteStep (doc.nodes.length + 1) acc nodeId)
            (doc.nodes, [])
          let nextDoc : JsonDocument := { rootId := doc.rootId, nodes := result.1 }
          let nextSelectedId :=
            match s.selectedId with
            | some sel => if result.2.contains sel then none else some sel
            | none => none
          let nextExpandedIds := s.expandedIds.foldl
            (fun acc id =>
              if !result.2.contains id && (lookupNode result.1 id).isSome then
                addIdOnce acc id
              else acc) [doc.rootId]
          let command := HistoryCommand.replaceDocument (cloneDocument doc)
            (cloneDocument nextDoc) s.selectedId nextSelectedId
            s.expandedIds nextExpandedIds
          { s with
            document := some nextDoc,
            selectedId := nextSelectedId,
            expandedIds := nextExpandedIds,
            multiSelectedIds := [],
            focusRootId := none,
            isDirty := true,
            undoStack := s.undoStack ++ [command],
            redoStack := [] }

/-- Mutation applyReplacePreview: apply every pending search-and-replace
entry (a key edit is re-deduplicated against the siblings, a value edit
only lands on string nodes), commit one whole-document REPLACE_DOCUMENT
command and clear the preview; an empty preview is a no-op. -/
def applyReplacePreview (s : StoreState) : StoreState :=
  match s.document with
  | none => s
  | some doc =>
      if s.replacePreview = [] then s
      else
        let newNodes := s.replacePreview.foldl
          (fun nm entry =>
            match lookupNode nm entry.id with
            | none => nm
            | some node =>
                match entry.field with
                | .key =>
                    match node.parentId with
                    | some pid =>
                        setNode nm entry.id
                          { node with key := some (ensureUniqueObjectKey nm pid
                              entry.after (some node.id)) }
                    | none => nm
                | .value =>
                    if node.type = JsonNodeType.string then
                      setNode nm entry.id { node with value := .str entry.after }
                    else nm)
          doc.nodes
        let afterDoc : JsonDocument := { rootId := doc.rootId, nodes := newNodes }
        let command := HistoryCommand.replaceDocument (cloneDocument doc)
          (cloneDocument afterDoc) s.selectedId s.selectedId
          s.expandedIds s.expandedIds
        { s with
          document := some afterDoc,
          replacePreview := [],
          isDirty := true,
          undoStack := s.undoStack ++ [command],
          redoStack := [] }

/-! ## Undo and redo (useJsonStore.ts) -/

/-- Arena effect of undoing one fine-grained command (the REPLACE_DOCUMENT
variant swaps whole snapshots instead and never reaches this). -/
def undoApplyNodes (command : HistoryCommand) (nodes : NodeMap) : NodeMap :=
  match command with
  | .updateValue id oldValue _ =>
      match lookupNode nodes id with
      | some n => setNode nodes id { n with value := oldValue }
      | none => nodes
  | .renameKey id oldKey _ =>
      match lookupNode nodes id with
      | some n => setNode nodes id { n with key := oldKey }
      | none => nodes
  | .addNode parentId node =>
      match lookupNode nodes parentId with
      | some parent =>
          match parent.children with
          | some cs =>
              eraseNode (setNode nodes parentId
                { parent with children := some (cs.filter (fun cid => cid ≠ node.id)) }) node.id
          | none => nodes
      | none => nodes
  | .deleteNode parentId index node subtree =>
      match lookupNode nodes parentId with
      | some parent =>
          match parent.children with
          | some cs =>
              let newChildren := cs.insertIdx index node.id
              let nodes1 := setNode nodes parentId { parent with children := some newChildren }
              setNode (assignAll nodes1 subtree) node.id node
          | none => nodes
      | none => nodes
  | .moveArrayItem parentId fromIndex toIndex =>
      match lookupNode nodes parentId with
      | some parent =>
          match parent.type, parent.children with
          | .array, some cs =>
              if moveListItemValid cs toIndex fromIndex then
                setNode nodes parentId
                  { parent with children := some (moveListItem cs toIndex fromIndex) }
              else nodes
          | _, _ => nodes
      | none => nodes
  | .changeType id oldNode _ removedSubtree =>
      assignAll (setNode nodes id (cloneNode oldNode)) removedSubtree
  | .replaceDocument _ _ _ _ _ _ => nodes

/-- Arena effect of redoing one fine-grained command. -/
def redoApplyNodes (command : HistoryCommand) (nodes : NodeMap) : NodeMap :=
  match command with
  | .updateValue id _ newValue =>
      match lookupNode nodes id with
      | some n => setNode nodes id { n with value := newValue }
      | none => nodes
  | .renameKey id _ newKey =>
      match lookupNode nodes id with
      | some n => setNode nodes id { n with key := some newKey }
      | none => nodes
  | .addNode parentId node =>
      match lookupNode nodes parentId with
      | some parent =>
          match parent.children with
          | some cs =>
              setNode (setNode nodes parentId
                { parent with children := some (cs ++ [node.id]) }) node.id node
          | none => nodes
      | none => nodes
  | .deleteNode parentId _ node subtree =>
      match lookupNode nodes parentId with
      | some parent =>
          match parent.children with
          | some cs =>
              let nodes1 := setNode nodes parentId
                { parent with children := some (cs.filter (fun cid => cid ≠ node.id)) }
              (keysOf subtree).foldl eraseNode (eraseNode nodes1 node.id)
          | none => nodes
      | none => nodes
  | .moveArrayItem parentId fromIndex toIndex =>
      match lookupNode nodes parentId with
      | some parent =>
          match parent.type, parent.children with
          | .array, some cs =>
              if moveListItemValid cs fromIndex toIndex then
                setNode nodes parentId
                  { parent with children := some (moveListItem cs fromIndex toIndex) }
              else nodes
          | _, _ => nodes
      | none => nodes
  | .changeType id _ newNode removedSubtree =>
      (keysOf removedSubtree).foldl eraseNode (setNode nodes id (cloneNode newNode))
  | .replaceDocument _ _ _ _ _ _ => nodes

/-- History pop undo: a no-op on an empty stack or a missing document;
REPLACE_DOCUMENT commands swap in the before snapshot (with its selection
and expansion), every other command inverts its arena effect; either way
the command moves to the redo stack and the document is marked dirty. -/
def undo (s : StoreState) : StoreState :=
  match s.document with
  | none => s
  | some doc =>
      match s.undoStack.getLast? with
      | none => s
      | some command =>
          let newUndoStack := s.undoStack.dropLast
          let newRedoStack := s.redoStack ++ [command]
          match command with
          | .replaceDocument before _ bSel _ bExp _ =>
              { s with
                document := some (cloneDocument before),
                selectedId := bSel,
                expandedIds := bExp,
                focusRootId := none,
                multiSelectedIds := [],
                isDirty := true,
                undoStack := newUndoStack,
                redoStack := newRedoStack }
          | _ =>
              { s with
                document := some { doc with nodes := undoApplyNodes command doc.nodes },
                isDirty := true,
                undoStack := newUndoStack,
                redoStack := newRedoStack }

/-- History pop redo, the mirror of undo. -/
def redo (s : StoreState) : StoreState :=
  match s.document with
  | none => s
  | some doc =>
      match s.redoStack.getLast? with
      | none => s
      | some command =>
          let newRedoStack := s.redoStack.dropLast
          let newUndoStack := s.undoStack ++ [command]
          match command with
          | .replaceDocument _ after _ aSel _ aExp =>
              { s with
                document := some (cloneDocument after),
                selectedId := aSel,
                expandedIds := aExp,
                focusRootId := none,
                multiSelectedIds := [],
                isDirty := true,
                undoStack := newUndoStack,
                redoStack := newRedoStack }
          | _ =>
              { s with
                document := some { doc with nodes := redoApplyNodes command doc.nodes },
                isDirty := true,
                undoStack := newUndoStack,
                redoStack := newRedoStack }

/-- One committed mutation of the store, covering every public edit
operation that can push a History Command. -/
inductive Mutation where
  | updateNodeValue (id : Nat) (value : JsonPrim)
  | changeNodeType (id : Nat) (nextType : JsonNodeType)
  | moveArrayItem (parentId : Nat) (fromIndex toIndex : Int)
  | addNode (parentId : Nat) (t : JsonNodeType) (key : Option String)
  | deleteNode (id : Nat)
  | renameNodeKey (id : Nat) (newKey : String)
  | pasteNodeJson (targetId : Nat) (rawJson : Except String JsonValue) (mode : PasteMode)
  | sortObjectKeys (nodeId : Nat) (direction : SortDir)
  | replaceDocumentFromJson (v : JsonValue)
  | formatDocument (mode : FormatMode)
  | applyDiffSelection (entries : List DiffEntry)
  | batchDeleteSelected
  | applyReplacePreview

/-- Dispatch of one mutation on the store state (pasteNodeJson also hands a
result to its caller, dropped here). -/
def applyMutation (m : Mutation) (s : StoreState) : StoreState :=
  match m with
  | .updateNodeValue id value => updateNodeValue s id value
  | .changeNodeType id nextType => changeNodeType s id nextType
  | .moveArrayItem parentId fromIndex toIndex => moveArrayItem s parentId fromIndex toIndex
  | .addNode parentId t key => addNode s parentId t key
  | .deleteNode id => deleteNode s id
  | .renameNodeKey id newKey => renameNodeKey s id newKey
  | .pasteNodeJson targetId rawJson mode => (pasteNodeJson s targetId rawJson mode).2
  | .sortObjectKeys nodeId direction => sortObjectKeys s nodeId direction
  | .replaceDocumentFromJson v => replaceDocumentFromJson s v
  | .formatDocument mode => formatDocument s mode
  | .applyDiffSelection entries => applyDiffSelection s entries
  | .batchDeleteSelected => batchDeleteSelected s
  | .applyReplacePreview => applyReplacePreview s

/-! ## Key uniqueness invariant (for the addNode/renameNodeKey sequences) -/

/-- Keys currently held by the children of an object parent, in child
order; children without a node or without a key contribute nothing (this is
what ensureUniqueObjectKey collects, with no exception). -/
def siblingKeys (m : NodeMap) (cs : List Nat) : List String :=
  cs.filterMap (fun childId =>
    match lookupNode m childId with
    | some cn => cn.key
    | none => none)

/-- State invariant around one object parent P: the document is loaded, P
is an object node with a duplicate-free children list of already-issued
ids, every id in the arena has been issued, and no two children of P hold
the same key. -/
def KeyInv (s : StoreState) (P : Nat) : Prop :=
  match s.document with
  | none => False
  | some doc =>
      match lookupNode doc.nodes P with
      | none => False
      | some parent =>
          match parent.children with
          | none => False
          | some cs =>
              parent.type = JsonNodeType.object ∧ cs.Nodup ∧
              (∀ c ∈ cs, c < s.nextId) ∧
              (∀ j ∈ keysOf doc.nodes, j < s.nextId) ∧
              (siblingKeys doc.nodes cs).Nodup

/-- A mutation targeting the children of the object parent P: an addNode on
P, or a renameNodeKey of a node whose parent is P. -/
def targetsParent (P : Nat) (s : StoreState) : Mutation → Prop
  | .addNode pid _ _ => pid = P
  | .renameNodeKey cid _ =>
      ∃ doc node, s.document = some doc ∧ lookupNode doc.nodes cid = some node ∧
        node.parentId = some P
  | _ => False

/-- Every mutation of the sequence targets P in the state where it runs. -/
def SeqTargets (P : Nat) : StoreState → List Mutation → Prop
  | _, [] => True
  | s, op :: ops => targetsParent P s op ∧ SeqTargets P (applyMutation op s) ops

/-- A concrete store for exercising the key-uniqueness invariant: a loaded
document holding a single empty object root (id 0), next fresh id 1. -/
def c5doc0 : JsonDocument :=
  { rootId := 0,
    nodes := [(0, { id := 0, type := .object, children := some [] })] }

def c5store : StoreState :=
  { document := some c5doc0,
    nextId := 1 }

/-- Three mutations on the root object: two addNode with desired key "a"
(the second is deduplicated to "a_1") and a rename of the first child to
"a_1" (deduplicated to "a_1_1"). -/
def c5ops : List Mutation :=
  [.addNode 0 .string (some "a"), .addNode 0 .string (some "a"),
   .renameNodeKey 1 "a_1"]

/-- The node arena after the two addNode mutations of c5ops. -/
def c5nodesMid : NodeMap :=
  [(0, { id := 0, type := .object, children := some [1, 2] }),
   (1, { id := 1, type := .string, parentId := some 0, key := some "a",
         value := .str "" }),
   (2, { id := 2, type := .string, parentId := some 0, key := some "a_1",
         value := .str "" })]

/-- Child node 1 as it stands when the rename runs. -/
def c5node1 : JsonNode :=
  { id := 1, type := .string, parentId := some 0, key := some "a",
    value := .str "" }

/-- The node arena c5ops produces from c5store. -/
def c5nodesFinal : NodeMap :=
  [(0, { id := 0, type := .object, children := some [1, 2] }),
   (1, { id := 1, type := .string, parentId := some 0, key := some "a_1_1",
         value := .str "" }),
   (2, { id := 2, type := .string, parentId := some 0, key := some "a_1",
         value := .str "" })]

/-! ## Document well-formedness (the Document invariants of the spec) -/

/-- Character-level form of one rendered path segment: exactly the data of
appendIndexSegment "" i and appendKeySegment "" k. -/
def renderSeg : PathSeg → List Char
  | .idx i => '[' :: (natToDecimal i ++ [']'])
  | .key k =>
      if identPatternTest k then '.' :: k.data
      else '[' :: '\'' :: (escapeKeyChars k.data ++ ['\'', ']'])

/-- Concatenated rendering of a segment list. -/
def renderSegs : List PathSeg → List Char
  | [] => []
  | seg :: tl => renderSeg seg ++ renderSegs tl

/-- Pairwise distinctness of a key list, executably. -/
def allDistinct : List String → Bool
  | [] => true
  | k :: tl => !(tl.contains k) && allDistinct tl

/-- Per-node Document invariants, checked at one arena entry (id i holding
node n): the stored id matches the arena key; a parentless node is the
root; a parented node is listed among the children of an existing
object/array parent, and carries a key when that parent is an object;
an object node has pairwise distinct child keys. -/
def nodeWfAt (doc : JsonDocument) (i : Nat) (n : JsonNode) : Bool :=
  (n.id == i) &&
  (match n.parentId with
   | none => i == doc.rootId
   | some p =>
       match lookupNode doc.nodes p with
       | none => false
       | some pn =>
           (childList pn).contains i &&
           (pn.type == JsonNodeType.object || pn.type == JsonNodeType.array) &&
           (!(pn.type == JsonNodeType.object) || n.key.isSome)) &&
  (!(n.type == JsonNodeType.object) || allDistinct (siblingKeys doc.nodes (childList n)))

/-- The parent chain starting at id i reaches a parentless node within the
given number of steps (the Document invariants make nodes a finite tree, so
one step per arena entry always suffices). -/
def chainOk (m : NodeMap) : Nat → Nat → Bool
  | 0, _ => false
  | fuel + 1, i =>
      match lookupNode m i with
      | none => false
      | some n =>
          match n.parentId with
          | none => true
          | some p => chainOk m fuel p

/-- Document invariants of the spec, as one executable check over the
arena: every entry satisfies its per-node invariants and has a parent
chain reaching the root within nodes.length + 1 steps. -/
def docWf (doc : JsonDocument) : Bool :=
  doc.nodes.all (fun e =>
    nodeWfAt doc e.1 e.2 && chainOk doc.nodes (doc.nodes.length + 1) e.1)

/-- A concrete well-formed document: an object root holding a string
property under the non-identifier key "a b" and an empty array under "c". -/
def c4doc : JsonDocument :=
  { rootId := 0,
    nodes := [(0, { id := 0, type := .object, children := some [1, 2] }),
              (1, { id := 1, type := .string, parentId := some 0, key := some "a b",
                    value := .str "x" }),
              (2, { id := 2, type := .array, parentId := some 0, key := some "c",
                    children := some [] })] }

/-! ## Store wellformedness for the undo/redo analysis -/

/-- Bit-for-bit equality of two Documents as JavaScript data: same root and
the same node under every id (the nodes map is keyed storage, so key order
carries no document content). -/
def DocEq (d1 d2 : JsonDocument) : Prop :=
  d1.rootId = d2.rootId ∧ ∀ j, lookupNode d1.nodes j = lookupNode d2.nodes j

/-- DocEq lifted to the optional document slot of the store. -/
def OptDocEq : Option JsonDocument → Option JsonDocument → Prop
  | some d1, some d2 => DocEq d1 d2
  | none, none => True
  | _, _ => False

/-- Ids of the subtree rooted at a node, following children edges of the
fixed arena m0 (proof-side characterization of the subtree walks). -/
def descIds (m0 : NodeMap) : Nat → Nat → List Nat
  | 0, i => [i]
  | fuel + 1, i =>
      match lookupNode m0 i with
      | none => [i]
      | some n => i :: (childList n).flatMap (fun c => descIds m0 fuel c)

/-- j reaches the ancestor i by following parent pointers upward. -/
inductive ReachUp (m0 : NodeMap) : Nat → Nat → Prop where
  | refl (i : Nat) : ReachUp m0 i i
  | step {j p i : Nat} {n : JsonNode} : lookupNode m0 j = some n →
      n.parentId = some p → ReachUp m0 p i → ReachUp m0 j i

/-- Pairwise distinctness of an id list, executably. -/
def distinctNat : List Nat → Bool
  | [] => true
  | k :: tl => !(tl.contains k) && distinctNat tl

/-- Wellformed store around a depth witness rank: the document is loaded
and every arena entry has a coherent stored id, an already-issued id, a
rank below the arena size, a parent that lists it as a child, a
duplicate-free children list, and children that exist, point back to it
and carry a strictly smaller rank.  These are the Document invariants of
the spec plus the bookkeeping the store guarantees (ids issued by the
counter; rank is depth). -/
def storeOk (s : StoreState) (rank : Nat → Nat) : Bool :=
  match s.document with
  | none => false
  | some doc =>
      doc.nodes.all (fun e =>
        (e.2.id == e.1) &&
        decide (e.1 < s.nextId) &&
        decide (rank e.1 ≤ doc.nodes.length) &&
        (match e.2.parentId with
         | none => true
         | some p =>
             match lookupNode doc.nodes p with
             | none => false
             | some pn => (childList pn).contains e.1) &&
        distinctNat (childList e.2) &&
        (childList e.2).all (fun c =>
          match lookupNode doc.nodes c with
          | none => false
          | some cn => (cn.parentId == some e.1) && decide (rank c < rank e.1)))

/-- Concrete store for exercising the undo/redo round trip: a root object
holding an array "b" of two numbers, all invariants checkable. -/
def c3store : StoreState :=
  { document := some
      { rootId := 0,
        nodes := [
          (0, { id := 0, type := .object, children := some [1] }),
          (1, { id := 1, type := .array, parentId := some 0, key := some "b",
                children := some [2, 3] }),
          (2, { id := 2, type := .number, parentId := some 1, value := .num 0 }),
          (3, { id := 3, type := .number, parentId := some 1, value := .num 1 })] },
    nextId := 4 }

/-- Rank certificate for c3store: a bound on subtree height, decreasing
from parent to child. -/
def c3rank : Nat → Nat :=
  fun i => if i = 0 then 3 else if i = 1 then 2 else 1

/-! ## Basic lemmas about the node map -/

theorem lookupNode_nil (j : Nat) : lookupNode [] j = none := rfl

theorem lookupNode_singleton (i : Nat) (n : JsonNode) (j : Nat) :
    lookupNode [(i, n)] j = if i = j then some n else none := by
  by_cases h : i = j <;> simp [lookupNode, h]

theorem lookupNode_append (m₁ m₂ : NodeMap) (j : Nat) :
    lookupNode (m₁ ++ m₂) j = (lookupNode m₁ j).or (lookupNode m₂ j) := by
  unfold lookupNode
  rw [List.find?_append]
  cases m₁.find? (fun p => p.1 == j) <;> simp

theorem lookupNode_append_left {m₁ : NodeMap} {j : Nat} {n : JsonNode}
    (m₂ : NodeMap) (h : lookupNode m₁ j = some n) :
    lookupNode (m₁ ++ m₂) j = some n := by
  rw [lookupNode_append, h]; rfl

theorem lookupNode_append_right {m₁ : NodeMap} {j : Nat}
    (m₂ : NodeMap) (h : lookupNode m₁ j = none) :
    lookupNode (m₁ ++ m₂) j = lookupNode m₂ j := by
  rw [lookupNode_append, h]
  cases lookupNode m₂ j <;> rfl

theorem lookupNode_isSome_of_mem {m : NodeMap} {j : Nat}
    (h : j ∈ keysOf m) : (lookupNode m j).isSome = true := by
  simp only [keysOf, List.mem_map] at h
  obtain ⟨p, hp, hpj⟩ := h
  have hfind : (List.find? (fun p => p.1 == j) m).isSome = true := by
    rw [List.find?_isSome]
    exact ⟨p, hp, by simp [hpj]⟩
  simp only [lookupNode]
  cases hf : List.find? (fun p => p.1 == j) m with
  | none => rw [hf] at hfind; cases hfind
  | some q => simp

theorem objAssign_of_not_mem {acc : List (String × JsonValue)} {k : String}
    (v : JsonValue) (h : ∀ p ∈ acc, p.1 ≠ k) :
    objAssign acc k v = acc ++ [(k, v)] := by
  unfold objAssign
  rw [if_neg]
  simp only [List.any_eq_true, not_exists, not_and]
  intro p hp
  simpa using h p hp

theorem goodKeys_mem {es : List (String × JsonValue)} (h : goodKeys es = true) :
    ∀ e ∈ es, e.1 ≠ "" := by
  induction es with
  | nil => intro e he; cases he
  | cons hd tl ih =>
      obtain ⟨k, v⟩ := hd
      simp only [goodKeys, Bool.and_eq_true] at h
      intro e he
      rcases List.mem_cons.mp he with rfl | he
      · simpa using h.1.1
      · exact ih h.2 e he

theorem foldl_serChildStep (NS : NodeMap) (ser : Nat → JsonValue)
    {ids : List Nat} {es : List (String × JsonValue)}
    (hf : List.Forall₂ (fun (i : Nat) (e : String × JsonValue) =>
      (∃ n, lookupNode NS i = some n ∧ n.key = some e.1) ∧ ser i = e.2) ids es)
    (hgood : goodKeys es = true) :
    ∀ acc, (∀ p ∈ acc, ∀ e ∈ es, p.1 ≠ e.1) →
    ids.foldl (serChildStep NS ser) acc = acc ++ es := by
  induction hf with
  | nil => intro acc _; simp
  | cons hhead htail ih =>
      rename_i i e ids es
      intro acc hdisj
      obtain ⟨⟨n, hn, hkey⟩, hser⟩ := hhead
      obtain ⟨k, v⟩ := e
      simp only at hkey hser
      simp only [goodKeys, Bool.and_eq_true] at hgood
      have hk : (k == "") = false := by
        simpa using hgood.1.1
      have hstep : serChildStep NS ser acc i = acc ++ [(k, v)] := by
        simp only [serChildStep, hn, hkey, hk, Bool.false_eq_true, if_false]
        rw [hser, objAssign_of_not_mem]
        intro p hp
        exact hdisj p hp (k, v) (List.mem_cons_self _ _)
      rw [List.foldl_cons, hstep, ih hgood.2 (acc ++ [(k, v)]) ?_]
      · simp
      · intro p hp e he
        rcases List.mem_append.mp hp with hp | hp
        · exact hdisj p hp e (List.mem_cons_of_mem _ he)
        · have hpkv : p = (k, v) := List.mem_singleton.mp hp
          subst hpkv
          intro hcontra
          have hek : (e.1 == k) = true := by
            simp only at hcontra
            simp [← hcontra]
          have hany : es.any (fun q => q.1 == k) = true :=
            List.any_eq_true.mpr ⟨e, he, hek⟩
          have hnot := hgood.1.2
          rw [hany] at hnot
          cases hnot

theorem map_eq_of_forall₂ {g : Nat → JsonValue} :
    ∀ {ids : List Nat} {items : List JsonValue},
    List.Forall₂ (fun i v => g i = v) ids items → ids.map g = items
  | _, _, .nil => rfl
  | _, _, .cons h htail => by
      simp only [List.map_cons, h, map_eq_of_forall₂ htail]

/-! ## The codec round trip -/

mutual

theorem parseNode_spec :
    ∀ (v : JsonValue) (pid : Option Nat) (key : Option String) (ctr : Nat),
    goodJson v = true → ParseOutSpec v key ctr (parseNode v pid key ctr)
  | .null, pid, key, ctr, _ => by
      refine ⟨rfl, rfl, Nat.le_refl _, Nat.le_refl _, ?_, ?_⟩
      · intro j
        simp only [parseNode]
        rw [lookupNode_singleton]
        by_cases hj : ctr = j <;> simp [hj] <;> omega
      · intro NS fuel hag hfuel
        have hctr : lookupNode NS ctr =
            some { id := ctr, type := .null, parentId := pid, key, value := .null } := by
          rw [hag ctr (Nat.le_refl _) (by simp [parseNode]), parseNode]
          rw [lookupNode_singleton]
          simp
        refine ⟨⟨_, hctr, rfl⟩, ?_⟩
        obtain ⟨f, rfl⟩ : ∃ f, fuel = f + 1 := ⟨fuel - 1, by simp [jheight] at hfuel; omega⟩
        simp [serializeNode, hctr]
  | .bool b, pid, key, ctr, _ => by
      refine ⟨rfl, rfl, Nat.le_refl _, Nat.le_refl _, ?_, ?_⟩
      · intro j
        simp only [parseNode]
        rw [lookupNode_singleton]
        by_cases hj : ctr = j <;> simp [hj] <;> omega
      · intro NS fuel hag hfuel
        have hctr : lookupNode NS ctr =
            some { id := ctr, type := .boolean, parentId := pid, key, value := .bool b } := by
          rw [hag ctr (Nat.le_refl _) (by simp [parseNode]), parseNode]
          rw [lookupNode_singleton]
          simp
        refine ⟨⟨_, hctr, rfl⟩, ?_⟩
        obtain ⟨f, rfl⟩ : ∃ f, fuel = f + 1 := ⟨fuel - 1, by simp [jheight] at hfuel; omega⟩
        simp [serializeNode, hctr, JsonPrim.toValue]
  | .num n, pid, key, ctr, _ => by
      refine ⟨rfl, rfl, Nat.le_refl _, Nat.le_refl _, ?_, ?_⟩
      · intro j
        simp only [parseNode]
        rw [lookupNode_singleton]
        by_cases hj : ctr = j <;> simp [hj] <;> omega
      · intro NS fuel hag hfuel
        have hctr : lookupNode NS ctr =
            some { id := ctr, type := .number, parentId := pid, key, value := .num n } := by
          rw [hag ctr (Nat.le_refl _) (by simp [parseNode]), parseNode]
          rw [lookupNode_singleton]
          simp
        refine ⟨⟨_, hctr, rfl⟩, ?_⟩
        obtain ⟨f, rfl⟩ : ∃ f, fuel = f + 1 := ⟨fuel - 1, by simp [jheight] at hfuel; omega⟩
        simp [serializeNode, hctr, JsonPrim.toValue]
  | .str s, pid, key, ctr, _ => by
      refine ⟨rfl, rfl, Nat.le_refl _, Nat.le_refl _, ?_, ?_⟩
      · intro j
        simp only [parseNode]
        rw [lookupNode_singleton]
        by_cases hj : ctr = j <;> simp [hj] <;> omega
      · intro NS fuel hag hfuel
        have hctr : lookupNode NS ctr =
            some { id := ctr, type := .string, parentId := pid, key, value := .str s } := by
          rw [hag ctr (Nat.le_refl _) (by simp [parseNode]), parseNode]
          rw [lookupNode_singleton]
          simp
        refine ⟨⟨_, hctr, rfl⟩, ?_⟩
        obtain ⟨f, rfl⟩ : ∃ f, fuel = f + 1 := ⟨fuel - 1, by simp [jheight] at hfuel; omega⟩
        simp [serializeNode, hctr, JsonPrim.toValue]
  | .arr items, pid, key, ctr, h => by
      have hg : goodJsonList items = true := by simpa [goodJson] using h
      obtain ⟨hctr2, hheight, hiff, hser⟩ := parseItems_spec items ctr (ctr + 1) hg
      refine ⟨rfl, ?_, ?_, ?_, ?_, ?_⟩ <;> dsimp only [parseNode]
      · simp only [List.length_append, List.length_cons, List.length_nil]
        omega
      · simp only [List.length_append, List.length_cons, List.length_nil]
        omega
      · simp only [List.length_append, List.length_cons, List.length_nil, jheight]
        omega
      · intro j
        rw [lookupNode_append, lookupNode_singleton]
        by_cases hj : ctr = j
        · subst hj
          have h0 : lookupNode (parseItems items ctr (ctr + 1)).nodes ctr = none := by
            have h0s : ¬ ((lookupNode (parseItems items ctr (ctr + 1)).nodes ctr).isSome = true) := by
              rw [hiff ctr]; omega
            simpa using Option.not_isSome_iff_eq_none.mp (by simpa using h0s)
          rw [h0, Option.none_or, if_pos rfl]
          simp only [Option.isSome_some, true_iff]
          omega
        · rw [if_neg hj, Option.or_none, hiff j]
          omega
      · intro NS fuel hag hfuel
        have hlt : ctr < (parseItems items ctr (ctr + 1)).ctr := by omega
        have h0 : lookupNode (parseItems items ctr (ctr + 1)).nodes ctr = none := by
          have h0s : ¬ ((lookupNode (parseItems items ctr (ctr + 1)).nodes ctr).isSome = true) := by
            rw [hiff ctr]; omega
          simpa using Option.not_isSome_iff_eq_none.mp (by simpa using h0s)
        have hctrN : lookupNode NS ctr = some
            { id := ctr, type := JsonNodeType.array, parentId := pid, key := key,
              value := JsonPrim.null,
              children := some (parseItems items ctr (ctr + 1)).ids } := by
          rw [hag ctr (Nat.le_refl _) hlt, lookupNode_append_right _ h0, lookupNode_singleton]
          simp
        refine ⟨⟨_, hctrN, rfl⟩, ?_⟩
        obtain ⟨f, rfl⟩ : ∃ f, fuel = f + 1 := ⟨fuel - 1, by simp [jheight] at hfuel; omega⟩
        have hag2 : ∀ j, ctr + 1 ≤ j → j < (parseItems items ctr (ctr + 1)).ctr →
            lookupNode NS j = lookupNode (parseItems items ctr (ctr + 1)).nodes j := by
          intro j h1 h2
          have hsome : (lookupNode (parseItems items ctr (ctr + 1)).nodes j).isSome = true :=
            (hiff j).mpr ⟨h1, h2⟩
          obtain ⟨n, hn⟩ := Option.isSome_iff_exists.mp hsome
          rw [hag j (by omega) h2, lookupNode_append_left _ hn, hn]
        have hfb : jheightList items ≤ f := by
          simp [jheight] at hfuel; omega
        have hmap := hser NS f hag2 hfb
        simp only [serializeNode, hctrN, childList, Option.getD_some]
        rw [hmap]
  | .obj entries, pid, key, ctr, h => by
      have hgk : goodKeys entries = true := by
        simp only [goodJson, Bool.and_eq_true] at h; exact h.1
      have hg : goodJsonEntries entries = true := by
        simp only [goodJson, Bool.and_eq_true] at h; exact h.2
      obtain ⟨hctr2, hheight, hiff, hser⟩ := parseEntries_spec entries ctr (ctr + 1) hg
      refine ⟨rfl, ?_, ?_, ?_, ?_, ?_⟩ <;> dsimp only [parseNode]
      · simp only [List.length_append, List.length_cons, List.length_nil]
        omega
      · simp only [List.length_append, List.length_cons, List.length_nil]
        omega
      · simp only [List.length_append, List.length_cons, List.length_nil, jheight]
        omega
      · intro j
        rw [lookupNode_append, lookupNode_singleton]
        by_cases hj : ctr = j
        · subst hj
          have h0 : lookupNode (parseEntries entries ctr (ctr + 1)).nodes ctr = none := by
            have h0s : ¬ ((lookupNode (parseEntries entries ctr (ctr + 1)).nodes ctr).isSome = true) := by
              rw [hiff ctr]; omega
            simpa using Option.not_isSome_iff_eq_none.mp (by simpa using h0s)
          rw [h0, Option.none_or, if_pos rfl]
          simp only [Option.isSome_some, true_iff]
          omega
        · rw [if_neg hj, Option.or_none, hiff j]
          omega
      · intro NS fuel hag hfuel
        have hlt : ctr < (parseEntries entries ctr (ctr + 1)).ctr := by omega
        have h0 : lookupNode (parseEntries entries ctr (ctr + 1)).nodes ctr = none := by
          have h0s : ¬ ((lookupNode (parseEntries entries ctr (ctr + 1)).nodes ctr).isSome = true) := by
            rw [hiff ctr]; omega
          simpa using Option.not_isSome_iff_eq_none.mp (by simpa using h0s)
        have hctrN : lookupNode NS ctr = some
            { id := ctr, type := JsonNodeType.object, parentId := pid, key := key,
              value := JsonPrim.null,
              children := some (parseEntries entries ctr (ctr + 1)).ids } := by
          rw [hag ctr (Nat.le_refl _) hlt, lookupNode_append_right _ h0, lookupNode_singleton]
          simp
        refine ⟨⟨_, hctrN, rfl⟩, ?_⟩
        obtain ⟨f, rfl⟩ : ∃ f, fuel = f + 1 := ⟨fuel - 1, by simp [jheight] at hfuel; omega⟩
        have hag2 : ∀ j, ctr + 1 ≤ j → j < (parseEntries entries ctr (ctr + 1)).ctr →
            lookupNode NS j = lookupNode (parseEntries entries ctr (ctr + 1)).nodes j := by
          intro j h1 h2
          have hsome : (lookupNode (parseEntries entries ctr (ctr + 1)).nodes j).isSome = true :=
            (hiff j).mpr ⟨h1, h2⟩
          obtain ⟨n, hn⟩ := Option.isSome_iff_exists.mp hsome
          rw [hag j (by omega) h2, lookupNode_append_left _ hn, hn]
        have hfb : jheightEntries entries ≤ f := by
          simp [jheight] at hfuel; omega
        have hforall := hser NS f hag2 hfb
        simp only [serializeNode, hctrN, childList, Option.getD_some]
        rw [foldl_serChildStep NS (fun childId => serializeNode NS f childId) hforall hgk []
          (by intro p hp; cases hp)]
        simp

theorem parseItems_spec :
    ∀ (items : List JsonValue) (pid : Nat) (ctr : Nat),
    goodJsonList items = true → ParseItemsSpec items ctr (parseItems items pid ctr)
  | [], pid, ctr, _ => by
      refine ⟨rfl, Nat.le_refl _, ?_, ?_⟩ <;> dsimp only [parseItems]
      · intro j
        rw [lookupNode_nil]
        simp only [Option.isSome_none, Bool.false_eq_true, false_iff]
        omega
      · intro NS fuel _ _
        rfl
  | v :: tl, pid, ctr, h => by
      have hgv : goodJson v = true := by
        simp only [goodJsonList, Bool.and_eq_true] at h; exact h.1
      have hgtl : goodJsonList tl = true := by
        simp only [goodJsonList, Bool.and_eq_true] at h; exact h.2
      obtain ⟨hid, hctrv, hlen1, hheightv, hiffv, hserv⟩ :=
        parseNode_spec v (some pid) none ctr hgv
      obtain ⟨hctr2, hheight2, hiff2, hser2⟩ :=
        parseItems_spec tl pid (parseNode v (some pid) none ctr).ctr hgtl
      refine ⟨?_, ?_, ?_, ?_⟩ <;> dsimp only [parseItems]
      · simp only [List.length_append]; omega
      · simp only [List.length_append, jheightList]; omega
      · intro j
        rw [lookupNode_append]
        cases hrv : lookupNode (parseNode v (some pid) none ctr).nodes j with
        | some n =>
            rw [Option.or_some]
            have hj := (hiffv j).mp (by rw [hrv]; rfl)
            simp only [Option.isSome_some, true_iff]
            omega
        | none =>
            rw [Option.none_or, hiff2 j]
            have hj : ¬ (ctr ≤ j ∧ j < (parseNode v (some pid) none ctr).ctr) := by
              rw [← hiffv j, hrv]; simp
            omega
      · intro NS fuel hag hfuel
        have hfv : jheight v ≤ fuel := by
          simp only [jheightList] at hfuel; omega
        have hftl : jheightList tl ≤ fuel := by
          simp only [jheightList] at hfuel; omega
        have hagv : ∀ j, ctr ≤ j → j < (parseNode v (some pid) none ctr).ctr →
            lookupNode NS j = lookupNode (parseNode v (some pid) none ctr).nodes j := by
          intro j h1 h2
          have hsome : (lookupNode (parseNode v (some pid) none ctr).nodes j).isSome = true :=
            (hiffv j).mpr ⟨h1, h2⟩
          obtain ⟨n, hn⟩ := Option.isSome_iff_exists.mp hsome
          rw [hag j h1 (by omega), lookupNode_append_left _ hn, hn]
        have hagtl : ∀ j, (parseNode v (some pid) none ctr).ctr ≤ j →
            j < (parseItems tl pid (parseNode v (some pid) none ctr).ctr).ctr →
            lookupNode NS j =
              lookupNode (parseItems tl pid (parseNode v (some pid) none ctr).ctr).nodes j := by
          intro j h1 h2
          have h0 : lookupNode (parseNode v (some pid) none ctr).nodes j = none := by
            have h0s : ¬ ((lookupNode (parseNode v (some pid) none ctr).nodes j).isSome = true) := by
              rw [hiffv j]; omega
            simpa using Option.not_isSome_iff_eq_none.mp (by simpa using h0s)
          rw [hag j (by omega) h2, lookupNode_append_right _ h0]
        have hhead := (hserv NS fuel hagv hfv).2
        have htail := hser2 NS fuel hagtl hftl
        simp only [List.map_cons, hid, hhead, htail]

theorem parseEntries_spec :
    ∀ (entries : List (String × JsonValue)) (pid : Nat) (ctr : Nat),
    goodJsonEntries entries = true → ParseEntriesSpec entries ctr (parseEntries entries pid ctr)
  | [], pid, ctr, _ => by
      refine ⟨rfl, Nat.le_refl _, ?_, ?_⟩ <;> dsimp only [parseEntries]
      · intro j
        rw [lookupNode_nil]
        simp only [Option.isSome_none, Bool.false_eq_true, false_iff]
        omega
      · intro NS fuel _ _
        exact List.Forall₂.nil
  | (k, v) :: tl, pid, ctr, h => by
      have hgv : goodJson v = true := by
        simp only [goodJsonEntries, Bool.and_eq_true] at h; exact h.1
      have hgtl : goodJsonEntries tl = true := by
        simp only [goodJsonEntries, Bool.and_eq_true] at h; exact h.2
      obtain ⟨hid, hctrv, hlen1, hheightv, hiffv, hserv⟩ :=
        parseNode_spec v (some pid) (some k) ctr hgv
      obtain ⟨hctr2, hheight2, hiff2, hser2⟩ :=
        parseEntries_spec tl pid (parseNode v (some pid) (some k) ctr).ctr hgtl
      refine ⟨?_, ?_, ?_, ?_⟩ <;> dsimp only [parseEntries]
      · simp only [List.length_append]; omega
      · simp only [List.length_append, jheightEntries]; omega
      · intro j
        rw [lookupNode_append]
        cases hrv : lookupNode (parseNode v (some pid) (some k) ctr).nodes j with
        | some n =>
            rw [Option.or_some]
            have hj := (hiffv j).mp (by rw [hrv]; rfl)
            simp only [Option.isSome_some, true_iff]
            omega
        | none =>
            rw [Option.none_or, hiff2 j]
            have hj : ¬ (ctr ≤ j ∧ j < (parseNode v (some pid) (some k) ctr).ctr) := by
              rw [← hiffv j, hrv]; simp
            omega
      · intro NS fuel hag hfuel
        have hfv : jheight v ≤ fuel := by
          simp only [jheightEntries] at hfuel; omega
        have hftl : jheightEntries tl ≤ fuel := by
          simp only [jheightEntries] at hfuel; omega
        have hagv : ∀ j, ctr ≤ j → j < (parseNode v (some pid) (some k) ctr).ctr →
            lookupNode NS j = lookupNode (parseNode v (some pid) (some k) ctr).nodes j := by
          intro j h1 h2
          have hsome : (lookupNode (parseNode v (some pid) (some k) ctr).nodes j).isSome = true :=
            (hiffv j).mpr ⟨h1, h2⟩
          obtain ⟨n, hn⟩ := Option.isSome_iff_exists.mp hsome
          rw [hag j h1 (by omega), lookupNode_append_left _ hn, hn]
        have hagtl : ∀ j, (parseNode v (some pid) (some k) ctr).ctr ≤ j →
            j < (parseEntries tl pid (parseNode v (some pid) (some k) ctr).ctr).ctr →
            lookupNode NS j =
              lookupNode (parseEntries tl pid (parseNode v (some pid) (some k) ctr).ctr).nodes j := by
          intro j h1 h2
          have h0 : lookupNode (parseNode v (some pid) (some k) ctr).nodes j = none := by
            have h0s : ¬ ((lookupNode (parseNode v (some pid) (some k) ctr).nodes j).isSome = true) := by
              rw [hiffv j]; omega
            simpa using Option.not_isSome_iff_eq_none.mp (by simpa using h0s)
          rw [hag j (by omega) h2, lookupNode_append_right _ h0]
        have hhead := hserv NS fuel hagv hfv
        have htail := hser2 NS fuel hagtl hftl
        refine List.Forall₂.cons ?_ htail
        rw [hid]
        exact ⟨hhead.1, hhead.2⟩

end

theorem astToJson_jsonToAst_of_goodJson (v : JsonValue) (h : goodJson v = true) :
    astToJson (jsonToAst v) = v := by
  obtain ⟨hid, hctr, hlen1, hheight, hiff, hser⟩ := parseNode_spec v none none 0 h
  have hmain := (hser (parseNode v none none 0).nodes
    ((parseNode v none none 0).nodes.length + 1)
    (fun j h1 h2 => rfl) (by omega)).2
  dsimp only [astToJson, jsonToAst, jsonToAstFrom]
  rw [hid]
  exact hmain

/-- The claim of C1 is false as stated: the codec drops object fields whose
key is the empty string, because astToJson keeps a child only when
`childNode.key` is truthy and the empty string is falsy in JavaScript.  On
the JSON value with the single field with empty key, the decode of the
encode is the empty object. -/
theorem C1_astToJson_jsonToAst_counterexample :
    ¬ (astToJson (jsonToAst (JsonValue.obj [("", JsonValue.num 1)])) =
        JsonValue.obj [("", JsonValue.num 1)]) := by
  intro hcontra
  have hval : astToJson (jsonToAst (JsonValue.obj [("", JsonValue.num 1)])) =
      JsonValue.obj [] := rfl
  rw [hval] at hcontra
  simp at hcontra

/-- C1 (amended): for every finite JSON value whose objects carry pairwise
distinct keys (automatic for a value parsed from JavaScript) none of which
is the empty string, encoding into a Document with jsonToAst and decoding
with astToJson is the identity, object key order being insertion order. -/
theorem C1_roundtrip_of_goodJson (v : JsonValue) (h : goodJson v = true) :
    astToJson (jsonToAst v) = v :=
  astToJson_jsonToAst_of_goodJson v h

theorem C1_roundtrip_witness :
    goodJson (JsonValue.obj
      [("a", JsonValue.num 1),
       ("b", JsonValue.arr [JsonValue.str "x", JsonValue.bool true, JsonValue.null]),
       ("c d", JsonValue.obj [("x", JsonValue.num 2)])]) = true ∧
    astToJson (jsonToAst (JsonValue.obj
      [("a", JsonValue.num 1),
       ("b", JsonValue.arr [JsonValue.str "x", JsonValue.bool true, JsonValue.null]),
       ("c d", JsonValue.obj [("x", JsonValue.num 2)])])) =
      JsonValue.obj
      [("a", JsonValue.num 1),
       ("b", JsonValue.arr [JsonValue.str "x", JsonValue.bool true, JsonValue.null]),
       ("c d", JsonValue.obj [("x", JsonValue.num 2)])] :=
  ⟨rfl, C1_roundtrip_of_goodJson _ rfl⟩

/-- C2 exhibits a bug in the code: the spec states the round-trip law
applyDiffEntries(a, diff(a, b)) == b for all JSON values, but when an
array shrinks by more than one element the diff emits its remove entries at
ascending indices, and applying them in that order splices against already
shifted positions: on a = [1, 2] and b = [] the first remove deletes index
0 (leaving [2]) and the second remove targets index 1, which is now out of
range and is silently skipped, so the result is [2], not []. -/
theorem C2_diff_apply_code_bug :
    diffJson (JsonValue.arr [JsonValue.num 1, JsonValue.num 2]) (JsonValue.arr []) =
      [{ path := "$[0]", kind := .remove, currentValue := some (JsonValue.num 1) },
       { path := "$[1]", kind := .remove, currentValue := some (JsonValue.num 2) }] ∧
    applyDiffEntries (JsonValue.arr [JsonValue.num 1, JsonValue.num 2])
      (diffJson (JsonValue.arr [JsonValue.num 1, JsonValue.num 2]) (JsonValue.arr [])) =
      JsonValue.arr [JsonValue.num 2] ∧
    JsonValue.arr [JsonValue.num 2] ≠ JsonValue.arr [] := by
  refine ⟨rfl, rfl, ?_⟩
  intro hcontra
  injection hcontra with h2
  exact absurd h2 (by simp)

/-! ## Map update lemmas -/

theorem lookupNode_cons (a : Nat × JsonNode) (tl : NodeMap) (j : Nat) :
    lookupNode (a :: tl) j = if a.1 = j then some a.2 else lookupNode tl j := by
  by_cases h : a.1 = j <;> simp [lookupNode, List.find?_cons, h]

theorem lookupNode_any_iff (m : NodeMap) (i : Nat) :
    (m.any (fun p => p.1 == i) = true) ↔ (lookupNode m i).isSome = true := by
  simp [lookupNode, List.any_eq_true, List.find?_isSome]

theorem lookupNode_mapReplace (m : NodeMap) (i : Nat) (n : JsonNode) (j : Nat) :
    lookupNode (m.map (fun p => if p.1 == i then (i, n) else p)) j =
      if i = j then (lookupNode m j).map (fun _ => n) else lookupNode m j := by
  induction m with
  | nil => by_cases h : i = j <;> simp [lookupNode, h]
  | cons p tl ih =>
      by_cases hp : p.1 = i
      · simp only [List.map_cons, if_pos (by simp [hp] : (p.1 == i) = true)]
        rw [lookupNode_cons, lookupNode_cons]
        dsimp only
        by_cases hij : i = j
        · subst hij
          simp [hp]
        · have hpj : ¬ p.1 = j := by omega
          rw [if_neg hij, if_neg hij, if_neg hpj, ih, if_neg hij]
      · simp only [List.map_cons, if_neg (by simp [hp] : ¬ (p.1 == i) = true)]
        rw [lookupNode_cons, lookupNode_cons]
        by_cases hpj : p.1 = j
        · rw [if_pos hpj, if_pos hpj]
          have hij : ¬ i = j := by omega
          rw [if_neg hij]
        · rw [if_neg hpj, if_neg hpj]
          exact ih

theorem lookupNode_setNode (m : NodeMap) (i : Nat) (n : JsonNode) (j : Nat) :
    lookupNode (setNode m i n) j = if i = j then some n else lookupNode m j := by
  unfold setNode
  by_cases hmem : m.any (fun p => p.1 == i) = true
  · rw [if_pos hmem, lookupNode_mapReplace]
    by_cases hij : i = j
    · subst hij
      rw [if_pos rfl, if_pos rfl]
      have hsome := (lookupNode_any_iff m i).mp hmem
      obtain ⟨x, hx⟩ := Option.isSome_iff_exists.mp hsome
      rw [hx]
      rfl
    · rw [if_neg hij, if_neg hij]
  · rw [if_neg hmem, lookupNode_append, lookupNode_singleton]
    by_cases hij : i = j
    · subst hij
      have hnone : lookupNode m i = none := by
        rcases hcase : lookupNode m i with _ | x
        · rfl
        · exact absurd ((lookupNode_any_iff m i).mpr (by rw [hcase]; rfl)) hmem
      rw [hnone, if_pos rfl, Option.none_or]
    · rw [if_neg hij, if_neg hij, Option.or_none]

theorem lookupNode_eraseNode (m : NodeMap) (i : Nat) (j : Nat) :
    lookupNode (eraseNode m i) j = if i = j then none else lookupNode m j := by
  induction m with
  | nil => by_cases h : i = j <;> simp [eraseNode, lookupNode, h]
  | cons p tl ih =>
      unfold eraseNode at ih ⊢
      by_cases hp : p.1 = i
      · rw [List.filter_cons_of_neg (by simp [hp])]
        rw [ih, lookupNode_cons]
        by_cases hij : i = j
        · rw [if_pos hij, if_pos hij]
        · rw [if_neg hij, if_neg hij, if_neg (by omega : ¬ p.1 = j)]
      · rw [List.filter_cons_of_pos (by simp [hp])]
        rw [lookupNode_cons, lookupNode_cons]
        by_cases hpj : p.1 = j
        · rw [if_pos hpj, if_pos hpj, if_neg (by omega : ¬ i = j)]
        · rw [if_neg hpj, if_neg hpj, ih]

theorem lookupNode_eraseList (ks : List Nat) (m : NodeMap) (j : Nat) :
    lookupNode (ks.foldl eraseNode m) j =
      if ks.contains j then none else lookupNode m j := by
  induction ks generalizing m with
  | nil => simp
  | cons k tl ih =>
      rw [List.foldl_cons, ih]
      by_cases htl : tl.contains j = true
      · have hj : j ∈ tl := by simpa using htl
        simp [hj]
      · have hj : ¬ j ∈ tl := by simpa using htl
        simp only [htl, Bool.false_eq_true, if_false, lookupNode_eraseNode]
        by_cases hkj : k = j
        · subst hkj
          simp
        · rw [if_neg hkj, if_neg]
          simp only [List.contains_cons, Bool.or_eq_true, beq_iff_eq, not_or]
          exact ⟨fun hc => hkj hc.symm, htl⟩

theorem lookupNode_assignAll_of_nodup (extra : NodeMap) (m : NodeMap) (j : Nat)
    (hnd : (keysOf extra).Nodup) :
    lookupNode (assignAll m extra) j = (lookupNode extra j).or (lookupNode m j) := by
  induction extra generalizing m with
  | nil => simp [assignAll, lookupNode]
  | cons p tl ih =>
      simp only [keysOf, List.map_cons, List.nodup_cons] at hnd
      unfold assignAll at ih ⊢
      rw [List.foldl_cons, ih _ hnd.2, lookupNode_cons, lookupNode_setNode]
      by_cases hpj : p.1 = j
      · have htl : lookupNode tl j = none := by
          rcases hcase : lookupNode tl j with _ | x
          · rfl
          · exfalso
            apply hnd.1
            simp only [lookupNode, Option.map_eq_some'] at hcase
            obtain ⟨q, hq, hq2⟩ := hcase
            have := List.find?_some hq
            simp only [beq_iff_eq] at this
            rw [← hpj] at this
            rw [← this]
            exact List.mem_map_of_mem _ (List.mem_of_find?_eq_some hq)
        simp [htl, hpj]
      · rw [if_neg hpj, if_neg hpj]

/-! ## C7, C8, C9: no-op guards, paste failure, unconditional update push -/

/-- C7: moveArrayItem with equal indices, a negative index, an index at or
past the children length, or a parent that is missing or not an array (or
whose children list is absent) leaves the whole store state, in particular
the Document and both history stacks, untouched. -/
theorem C7_moveArrayItem_noop (s : StoreState) (parentId : Nat) (f t : Int)
    (h : f = t ∨ f < 0 ∨ t < 0 ∨
      (∀ doc, s.document = some doc →
        match lookupNode doc.nodes parentId with
        | none => True
        | some parent =>
            parent.type ≠ .array ∨ parent.children = none ∨
            (∀ cs, parent.children = some cs →
              ((cs.length : Int) ≤ f ∨ (cs.length : Int) ≤ t)))) :
    moveArrayItem s parentId f t = s := by
  unfold moveArrayItem
  cases hdoc : s.document with
  | none => rfl
  | some doc =>
      dsimp only
      cases hp : lookupNode doc.nodes parentId with
      | none => rfl
      | some parent =>
          dsimp only
          rcases htype : parent.type <;> rcases hch : parent.children with _ | cs <;> dsimp only
          all_goals try rfl
          have hvalid : ¬ (moveListItemValid cs f t = true) := by
            simp only [moveListItemValid, decide_eq_true_eq]
            rcases h with h | h | h | h
            · omega
            · omega
            · omega
            · have h2 := h doc hdoc
              rw [hp] at h2
              dsimp only at h2
              rcases h2 with h2 | h2 | h2
              · exact absurd htype h2
              · rw [hch] at h2
                cases h2
              · have h3 := h2 cs hch
                omega
          rw [if_neg hvalid]

theorem C7_moveArrayItem_noop_witness :
    (1 : Int) = 1 ∧
    moveArrayItem
      { document := some (jsonToAst (JsonValue.arr [JsonValue.num 1, JsonValue.num 2])),
        nextId := 3 } 0 1 1 =
      { document := some (jsonToAst (JsonValue.arr [JsonValue.num 1, JsonValue.num 2])),
        nextId := 3 } :=
  ⟨rfl, C7_moveArrayItem_noop _ 0 1 1 (Or.inl rfl)⟩

/-- C8: pasteNodeJson handed text that does not parse as JSON returns a
structured failure (ok false with a reason) and leaves the store state,
including the Document and both history stacks, untouched; no exception
reaches the caller. -/
theorem C8_pasteNodeJson_parse_failure (s : StoreState) (targetId : Nat)
    (mode : PasteMode) (msg : String) :
    (pasteNodeJson s targetId (Except.error msg) mode).1.ok = false ∧
    ((pasteNodeJson s targetId (Except.error msg) mode).1.reason).isSome = true ∧
    (pasteNodeJson s targetId (Except.error msg) mode).2 = s := by
  unfold pasteNodeJson
  cases hdoc : s.document with
  | none => exact ⟨rfl, rfl, rfl⟩
  | some doc =>
      dsimp only
      cases ht : lookupNode doc.nodes targetId with
      | none => exact ⟨rfl, rfl, rfl⟩
      | some target =>
          dsimp only
          exact ⟨rfl, rfl, rfl⟩

/-- C9: updateNodeValue on an existing node of a loaded document always
pushes exactly one UPDATE_VALUE command recording the old and new value,
and clears the redo stack, even when the new value equals the current one:
there is no no-op guard. -/
theorem C9_updateNodeValue_always_pushes (s : StoreState) (doc : JsonDocument)
    (id : Nat) (node : JsonNode) (v : JsonPrim)
    (hdoc : s.document = some doc) (hnode : lookupNode doc.nodes id = some node) :
    (updateNodeValue s id v).undoStack =
      s.undoStack ++ [HistoryCommand.updateValue id node.value v] ∧
    (updateNodeValue s id v).redoStack = [] := by
  unfold updateNodeValue
  rw [hdoc]
  dsimp only
  rw [hnode]
  exact ⟨rfl, rfl⟩

theorem C9_updateNodeValue_always_pushes_witness :
    ({ document := some (jsonToAst (JsonValue.num 7)), nextId := 1 } : StoreState).document =
      some (jsonToAst (JsonValue.num 7)) ∧
    lookupNode (jsonToAst (JsonValue.num 7)).nodes 0 =
      some { id := 0, type := .number, value := JsonPrim.num 7 } ∧
    (updateNodeValue { document := some (jsonToAst (JsonValue.num 7)), nextId := 1 } 0
      (JsonPrim.num 7)).undoStack =
      [HistoryCommand.updateValue 0 (JsonPrim.num 7) (JsonPrim.num 7)] ∧
    (updateNodeValue { document := some (jsonToAst (JsonValue.num 7)), nextId := 1 } 0
      (JsonPrim.num 7)).redoStack = [] := by
  refine ⟨rfl, rfl, ?_, ?_⟩
  · exact (C9_updateNodeValue_always_pushes
      { document := some (jsonToAst (JsonValue.num 7)), nextId := 1 }
      (jsonToAst (JsonValue.num 7)) 0
      { id := 0, type := .number, value := JsonPrim.num 7 } (JsonPrim.num 7) rfl rfl).1
  · exact (C9_updateNodeValue_always_pushes
      { document := some (jsonToAst (JsonValue.num 7)), nextId := 1 }
      (jsonToAst (JsonValue.num 7)) 0
      { id := 0, type := .number, value := JsonPrim.num 7 } (JsonPrim.num 7) rfl rfl).2

/-! ## C6: every committed mutation pushes one command and clears redo -/

theorem replaceDocumentFromJson_commits (s : StoreState) (v : JsonValue)
    (doc : JsonDocument) (hdoc : s.document = some doc) :
    ∃ c, (replaceDocumentFromJson s v).undoStack = s.undoStack ++ [c] ∧
      (replaceDocumentFromJson s v).redoStack = [] := by
  unfold replaceDocumentFromJson
  rw [hdoc]
  dsimp only
  exact ⟨_, rfl, rfl⟩

/-- C6: every mutation of the store either leaves the state completely
unchanged (the silent no-op cases), or only clears an obsolete
multi-selection (batchDeleteSelected with nothing deletable, which touches
neither the document nor either history stack), or pushes exactly one
History Command onto the undo stack and leaves the redo stack empty — so
in particular any mutation that commits after an undo clears the redo
stack. -/
theorem C6_committed_mutation_pushes_one (m : Mutation) (s : StoreState) :
    applyMutation m s = s ∨
    applyMutation m s = { s with multiSelectedIds := [] } ∨
    ∃ c, (applyMutation m s).undoStack = s.undoStack ++ [c] ∧
      (applyMutation m s).redoStack = [] := by
  cases m with
  | updateNodeValue id value =>
      dsimp only [applyMutation]
      unfold updateNodeValue
      cases hdoc : s.document with
      | none => exact Or.inl rfl
      | some doc =>
          dsimp only
          cases hnode : lookupNode doc.nodes id with
          | none => exact Or.inl rfl
          | some node => exact Or.inr (Or.inr ⟨_, rfl, rfl⟩)
  | changeNodeType id nextType =>
      dsimp only [applyMutation]
      unfold changeNodeType
      cases hdoc : s.document with
      | none => exact Or.inl rfl
      | some doc =>
          dsimp only
          cases hnode : lookupNode doc.nodes id with
          | none => exact Or.inl rfl
          | some node =>
              dsimp only
              by_cases htype : node.type = nextType
              · rw [if_pos htype]
                exact Or.inl rfl
              · rw [if_neg htype]
                exact Or.inr (Or.inr ⟨_, rfl, rfl⟩)
  | moveArrayItem parentId f t =>
      dsimp only [applyMutation]
      unfold moveArrayItem
      cases hdoc : s.document with
      | none => exact Or.inl rfl
      | some doc =>
          dsimp only
          cases hp : lookupNode doc.nodes parentId with
          | none => exact Or.inl rfl
          | some parent =>
              dsimp only
              rcases htype : parent.type <;> rcases hch : parent.children with _ | cs <;>
                dsimp only
              all_goals try exact Or.inl rfl
              by_cases hvalid : moveListItemValid cs f t = true
              · rw [if_pos hvalid]
                exact Or.inr (Or.inr ⟨_, rfl, rfl⟩)
              · rw [if_neg hvalid]
                exact Or.inl rfl
  | addNode parentId t key =>
      dsimp only [applyMutation]
      unfold addNode
      cases hdoc : s.document with
      | none => exact Or.inl rfl
      | some doc =>
          dsimp only
          cases hp : lookupNode doc.nodes parentId with
          | none => exact Or.inl rfl
          | some parent =>
              dsimp only
              cases hch : parent.children with
              | none => exact Or.inl rfl
              | some children => exact Or.inr (Or.inr ⟨_, rfl, rfl⟩)
  | deleteNode id =>
      dsimp only [applyMutation]
      unfold deleteNode
      cases hdoc : s.document with
      | none => exact Or.inl rfl
      | some doc =>
          dsimp only
          cases hnode : lookupNode doc.nodes id with
          | none => exact Or.inl rfl
          | some node =>
              dsimp only
              cases hpid : node.parentId with
              | none => exact Or.inl rfl
              | some pid =>
                  dsimp only
                  cases hp : lookupNode doc.nodes pid with
                  | none => exact Or.inl rfl
                  | some parent =>
                      dsimp only
                      cases hch : parent.children with
                      | none => exact Or.inl rfl
                      | some children =>
                          dsimp only
                          cases hidx : listIndexOf children id with
                          | none => exact Or.inl rfl
                          | some index => exact Or.inr (Or.inr ⟨_, rfl, rfl⟩)
  | renameNodeKey id newKey =>
      dsimp only [applyMutation]
      unfold renameNodeKey
      cases hdoc : s.document with
      | none => exact Or.inl rfl
      | some doc =>
          dsimp only
          cases hnode : lookupNode doc.nodes id with
          | none => exact Or.inl rfl
          | some node =>
              dsimp only
              cases hpid : node.parentId with
              | none => exact Or.inl rfl
              | some pid => exact Or.inr (Or.inr ⟨_, rfl, rfl⟩)
  | pasteNodeJson targetId rawJson mode =>
      dsimp only [applyMutation]
      unfold pasteNodeJson
      cases hdoc : s.document with
      | none => exact Or.inl rfl
      | some doc =>
          dsimp only
          cases ht : lookupNode doc.nodes targetId with
          | none => exact Or.inl rfl
          | some target =>
              dsimp only
              cases hraw : rawJson with
              | error msg => exact Or.inl rfl
              | ok parsed => exact Or.inr (Or.inr ⟨_, rfl, rfl⟩)
  | sortObjectKeys nodeId direction =>
      dsimp only [applyMutation]
      unfold sortObjectKeys
      cases hdoc : s.document with
      | none => exact Or.inl rfl
      | some doc =>
          dsimp only
          cases hnode : lookupNode doc.nodes nodeId with
          | none => exact Or.inl rfl
          | some node =>
              dsimp only
              rcases htype : node.type <;> rcases hch : node.children with _ | cs <;>
                dsimp only
              all_goals try exact Or.inl rfl
              by_cases hsorted :
                (if direction = SortDir.desc then (sortChildrenByKey doc.nodes cs).reverse
                 else sortChildrenByKey doc.nodes cs) = cs
              · rw [if_pos hsorted]
                exact Or.inl rfl
              · rw [if_neg hsorted]
                exact Or.inr (Or.inr ⟨_, rfl, rfl⟩)
  | replaceDocumentFromJson v =>
      dsimp only [applyMutation]
      cases hdoc : s.document with
      | none => exact Or.inl (by unfold replaceDocumentFromJson; rw [hdoc])
      | some doc => exact Or.inr (Or.inr (replaceDocumentFromJson_commits s v doc hdoc))
  | formatDocument mode =>
      dsimp only [applyMutation]
      unfold formatDocument
      cases hdoc : s.document with
      | none => exact Or.inl rfl
      | some doc =>
          dsimp only
          cases mode with
          | sort => exact Or.inr (Or.inr (replaceDocumentFromJson_commits s _ doc hdoc))
          | pretty => exact Or.inr (Or.inr (replaceDocumentFromJson_commits s _ doc hdoc))
          | minify => exact Or.inr (Or.inr (replaceDocumentFromJson_commits s _ doc hdoc))
  | applyDiffSelection entries =>
      dsimp only [applyMutation]
      unfold applyDiffSelection
      cases hdoc : s.document with
      | none => exact Or.inl rfl
      | some doc =>
          dsimp only
          cases entries with
          | nil => exact Or.inl rfl
          | cons e tl => exact Or.inr (Or.inr (replaceDocumentFromJson_commits s _ doc hdoc))
  | batchDeleteSelected =>
      dsimp only [applyMutation]
      unfold batchDeleteSelected
      cases hdoc : s.document with
      | none => exact Or.inl rfl
      | some doc =>
          dsimp only
          split
          · exact Or.inl rfl
          · split
            · exact Or.inr (Or.inl rfl)
            · exact Or.inr (Or.inr ⟨_, rfl, rfl⟩)
  | applyReplacePreview =>
      dsimp only [applyMutation]
      unfold applyReplacePreview
      cases hdoc : s.document with
      | none => exact Or.inl rfl
      | some doc =>
          dsimp only
          split
          · exact Or.inl rfl
          · exact Or.inr (Or.inr ⟨_, rfl, rfl⟩)

/-! ## Decimal rendering lemmas -/

theorem digitsToNat_append_digit (xs : List Char) (c : Char) :
    digitsToNat (xs ++ [c]) = digitsToNat xs * 10 + (c.toNat - 48) := by
  unfold digitsToNat
  rw [List.foldl_append]
  rfl

theorem digitChar_toNat : ∀ n < 10, (Nat.digitChar n).toNat = 48 + n := by decide

theorem digitChar_isDigit : ∀ n < 10, (Nat.digitChar n).isDigit = true := by decide

theorem digitsToNat_natDigitsAux :
    ∀ (fuel : Nat) (n : Nat), n < 10 ^ fuel →
    digitsToNat (natDigitsAux fuel n) = n := by
  intro fuel
  induction fuel with
  | zero =>
      intro n hn
      interval_cases n
      rfl
  | succ fuel ih =>
      intro n hn
      unfold natDigitsAux
      by_cases h10 : n < 10
      · rw [if_pos h10]
        have htn := digitChar_toNat n h10
        unfold digitsToNat
        simp only [List.foldl_cons, List.foldl_nil, htn]
        omega
      · rw [if_neg h10]
        rw [digitsToNat_append_digit]
        have hdiv : n / 10 < 10 ^ fuel := by
          rw [Nat.div_lt_iff_lt_mul (by norm_num)]
          calc n < 10 ^ (fuel + 1) := hn
            _ = 10 ^ fuel * 10 := by ring
        rw [ih (n / 10) hdiv]
        have hmod : n % 10 < 10 := Nat.mod_lt _ (by norm_num)
        rw [digitChar_toNat _ hmod]
        omega

theorem digitsToNat_natToDecimal (n : Nat) : digitsToNat (natToDecimal n) = n := by
  unfold natToDecimal
  exact digitsToNat_natDigitsAux (n + 1) n
    (lt_of_lt_of_le (Nat.lt_pow_self (by norm_num) n)
      (Nat.pow_le_pow_right (by norm_num) (Nat.le_succ n)))

theorem natToDecimal_injective {a b : Nat} (h : natToDecimal a = natToDecimal b) : a = b := by
  have := congrArg digitsToNat h
  rwa [digitsToNat_natToDecimal, digitsToNat_natToDecimal] at this

theorem natDigitsAux_digits :
    ∀ (fuel : Nat) (n : Nat), ∀ c ∈ natDigitsAux fuel n, c.isDigit = true := by
  intro fuel
  induction fuel with
  | zero => intro n c hc; cases hc
  | succ fuel ih =>
      intro n c hc
      unfold natDigitsAux at hc
      by_cases h10 : n < 10
      · rw [if_pos h10] at hc
        rcases List.mem_singleton.mp hc with rfl
        exact digitChar_isDigit n h10
      · rw [if_neg h10] at hc
        rcases List.mem_append.mp hc with hc | hc
        · exact ih _ c hc
        · rcases List.mem_singleton.mp hc with rfl
          exact digitChar_isDigit _ (Nat.mod_lt _ (by norm_num))

theorem natToDecimal_digits (n : Nat) : ∀ c ∈ natToDecimal n, c.isDigit = true :=
  natDigitsAux_digits (n + 1) n

theorem natToDecimal_ne_nil (n : Nat) : natToDecimal n ≠ [] := by
  unfold natToDecimal natDigitsAux
  by_cases h10 : n < 10
  · rw [if_pos h10]
    simp
  · rw [if_neg h10]
    simp

/-! ## Key-suffix lemmas (ensureUniqueObjectKey) -/

theorem mkSuffixed_injective (base : String) {a b : Nat}
    (h : mkSuffixed base a = mkSuffixed base b) : a = b := by
  unfold mkSuffixed at h
  rw [String.ext_iff] at h
  rw [String.data_append, String.data_append, String.data_append, String.data_append] at h
  have h2 := List.append_cancel_left h
  exact natToDecimal_injective h2

theorem mkSuffixed_ne_empty (base : String) (n : Nat) : mkSuffixed base n ≠ "" := by
  unfold mkSuffixed
  intro hcontra
  have hd := congrArg String.data hcontra
  rw [String.data_append, String.data_append] at hd
  have hlen := congrArg List.length hd
  simp only [List.length_append, List.length_cons, List.length_nil] at hlen
  omega

theorem firstFreeSuffix_shape (existing : List String) (base : String) :
    ∀ (fuel suffix : Nat), 1 ≤ suffix →
    ∃ i, suffix ≤ i ∧ firstFreeSuffix existing base fuel suffix = mkSuffixed base i := by
  intro fuel
  induction fuel with
  | zero => intro suffix h1; exact ⟨suffix, Nat.le_refl _, rfl⟩
  | succ fuel ih =>
      intro suffix h1
      unfold firstFreeSuffix
      by_cases hc : existing.contains (mkSuffixed base suffix) = true
      · rw [if_pos hc]
        obtain ⟨i, hi, heq⟩ := ih (suffix + 1) (by omega)
        exact ⟨i, by omega, heq⟩
      · rw [if_neg hc]
        exact ⟨suffix, Nat.le_refl _, rfl⟩

theorem firstFreeSuffix_not_mem (existing : List String) (base : String) :
    ∀ (fuel suffix : Nat),
    (∃ i, suffix ≤ i ∧ i < suffix + fuel ∧ ¬ (mkSuffixed base i ∈ existing)) →
    ¬ (firstFreeSuffix existing base fuel suffix ∈ existing) := by
  intro fuel
  induction fuel with
  | zero =>
      intro suffix h
      obtain ⟨i, h1, h2, _⟩ := h
      omega
  | succ fuel ih =>
      intro suffix h
      unfold firstFreeSuffix
      by_cases hc : existing.contains (mkSuffixed base suffix) = true
      · rw [if_pos hc]
        apply ih (suffix + 1)
        obtain ⟨i, h1, h2, h3⟩ := h
        refine ⟨i, ?_, by omega, h3⟩
        rcases Nat.eq_or_lt_of_le h1 with rfl | hlt
        · exact absurd (by simpa using hc) h3
        · omega
      · rw [if_neg hc]
        simpa using hc

theorem exists_fresh_suffix (existing : List String) (base : String) :
    ∃ i, 1 ≤ i ∧ i < 1 + (existing.length + 1) ∧ ¬ (mkSuffixed base i ∈ existing) := by
  by_contra hcontra
  push_neg at hcontra
  have hsub : ∀ i ∈ (List.range (existing.length + 1)).map (fun k => mkSuffixed base (k + 1)),
      i ∈ existing := by
    intro x hx
    simp only [List.mem_map, List.mem_range] at hx
    obtain ⟨k, hk, rfl⟩ := hx
    exact hcontra (k + 1) (by omega) (by omega)
  have hnd : ((List.range (existing.length + 1)).map (fun k => mkSuffixed base (k + 1))).Nodup := by
    refine List.Nodup.map ?_ (List.nodup_range _)
    intro a b hab
    have := mkSuffixed_injective base hab
    omega
  have hlen : ((List.range (existing.length + 1)).map (fun k => mkSuffixed base (k + 1))).length =
      existing.length + 1 := by simp
  have hcard := List.toFinset_card_le existing
  have hcard2 : ((List.range (existing.length + 1)).map
      (fun k => mkSuffixed base (k + 1))).toFinset.card = existing.length + 1 := by
    rw [List.toFinset_card_of_nodup hnd, hlen]
  have hsubset : ((List.range (existing.length + 1)).map
      (fun k => mkSuffixed base (k + 1))).toFinset ⊆ existing.toFinset := by
    intro x hx
    rw [List.mem_toFinset] at hx ⊢
    exact hsub x hx
  have := Finset.card_le_card hsubset
  omega

theorem ensureUniqueObjectKey_fresh (nodes : NodeMap) (parentId : Nat)
    (desiredKey : String) (exceptId : Option Nat) (parent : JsonNode)
    (children : List Nat)
    (hp : lookupNode nodes parentId = some parent)
    (htype : parent.type = .object) (hch : parent.children = some children) :
    ¬ (ensureUniqueObjectKey nodes parentId desiredKey exceptId ∈
        children.filterMap (fun childId =>
          if exceptId = some childId then none
          else
            match lookupNode nodes childId with
            | some cn => cn.key
            | none => none)) := by
  unfold ensureUniqueObjectKey
  rw [hp]
  dsimp only
  rw [htype, hch]
  dsimp only
  by_cases hbase : (children.filterMap (fun childId =>
      if exceptId = some childId then none
      else
        match lookupNode nodes childId with
        | some cn => cn.key
        | none => none)).contains
        (jsKeyOr (jsTrim (jsKeyOr desiredKey "key")) "key") = true
  · rw [if_pos hbase]
    apply firstFreeSuffix_not_mem
    obtain ⟨i, h1, h2, h3⟩ := exists_fresh_suffix _
      (jsKeyOr (jsTrim (jsKeyOr desiredKey "key")) "key")
    exact ⟨i, h1, h2, h3⟩
  · rw [if_neg hbase]
    simpa using hbase

/-! ## C10: empty and whitespace-only keys normalize to "key" -/

theorem jsKeyOr_key_ne_empty (s : String) : jsKeyOr s "key" ≠ "" := by
  unfold jsKeyOr
  by_cases h : s = ""
  · rw [if_pos h]
    decide
  · rw [if_neg h]
    exact h

theorem whitespace_base (k : String) (hws : jsTrim k = "") :
    jsKeyOr (jsTrim (jsKeyOr k "key")) "key" = "key" := by
  by_cases hk : k = ""
  · subst hk
    rfl
  · unfold jsKeyOr
    rw [if_neg hk, hws]
    rfl

theorem ensureUniqueObjectKey_base_congr (nodes : NodeMap) (pid : Nat)
    (d1 d2 : String) (ex : Option Nat) (parent : JsonNode) (children : List Nat)
    (hp : lookupNode nodes pid = some parent) (htype : parent.type = .object)
    (hch : parent.children = some children)
    (hb : jsKeyOr (jsTrim (jsKeyOr d1 "key")) "key" = jsKeyOr (jsTrim (jsKeyOr d2 "key")) "key") :
    ensureUniqueObjectKey nodes pid d1 ex = ensureUniqueObjectKey nodes pid d2 ex := by
  unfold ensureUniqueObjectKey
  rw [hp]
  dsimp only
  rw [htype, hch]
  dsimp only
  rw [hb]

theorem ensureUniqueObjectKey_shape (nodes : NodeMap) (pid : Nat) (d : String)
    (ex : Option Nat) (parent : JsonNode) (children : List Nat)
    (hp : lookupNode nodes pid = some parent) (htype : parent.type = .object)
    (hch : parent.children = some children) :
    ensureUniqueObjectKey nodes pid d ex = jsKeyOr (jsTrim (jsKeyOr d "key")) "key" ∨
    ∃ i, 1 ≤ i ∧ ensureUniqueObjectKey nodes pid d ex =
      mkSuffixed (jsKeyOr (jsTrim (jsKeyOr d "key")) "key") i := by
  unfold ensureUniqueObjectKey
  rw [hp]
  dsimp only
  rw [htype, hch]
  dsimp only
  by_cases hc : (children.filterMap (fun childId =>
      if ex = some childId then none
      else
        match lookupNode nodes childId with
        | some cn => cn.key
        | none => none)).contains (jsKeyOr (jsTrim (jsKeyOr d "key")) "key") = true
  · rw [if_pos hc]
    refine Or.inr ?_
    obtain ⟨i, hi, heq⟩ := firstFreeSuffix_shape _ _ _ 1 (Nat.le_refl 1)
    exact ⟨i, hi, heq⟩
  · rw [if_neg hc]
    exact Or.inl rfl

theorem ensureUniqueObjectKey_ne_empty (nodes : NodeMap) (pid : Nat) (d : String)
    (ex : Option Nat) (parent : JsonNode) (children : List Nat)
    (hp : lookupNode nodes pid = some parent) (htype : parent.type = .object)
    (hch : parent.children = some children) :
    ensureUniqueObjectKey nodes pid d ex ≠ "" := by
  rcases ensureUniqueObjectKey_shape nodes pid d ex parent children hp htype hch with h | ⟨i, _, h⟩
  · rw [h]
    exact jsKeyOr_key_ne_empty _
  · rw [h]
    exact mkSuffixed_ne_empty _ _

/-- C10: when addNode targets an object parent with an empty or
whitespace-only requested key, and when renameNodeKey requests such a key
for a child of an object parent, the stored key is the deduplication of the
literal key "key" against the sibling keys: the base normalizes to "key",
the stored key is "key" or "key_i" for some positive i, and it is never the
empty string. -/
theorem C10_whitespace_key_normalized (s : StoreState) (doc : JsonDocument)
    (parentId : Nat) (parent : JsonNode) (children : List Nat) (k : String)
    (t : JsonNodeType) (cid : Nat) (child : JsonNode)
    (hdoc : s.document = some doc)
    (hp : lookupNode doc.nodes parentId = some parent)
    (htype : parent.type = .object)
    (hch : parent.children = some children)
    (hfresh : parentId < s.nextId)
    (hws : jsTrim k = "")
    (hc : lookupNode doc.nodes cid = some child)
    (hcp : child.parentId = some parentId) :
    ((addNode s parentId t (some k)).document.bind (fun d2 =>
      (lookupNode d2.nodes s.nextId).bind (fun n2 => n2.key))) =
      some (ensureUniqueObjectKey doc.nodes parentId "key" none) ∧
    ensureUniqueObjectKey doc.nodes parentId "key" none ≠ "" ∧
    (ensureUniqueObjectKey doc.nodes parentId "key" none = "key" ∨
      ∃ i, 1 ≤ i ∧ ensureUniqueObjectKey doc.nodes parentId "key" none = mkSuffixed "key" i) ∧
    ((renameNodeKey s cid k).document.bind (fun d3 =>
      (lookupNode d3.nodes cid).bind (fun n3 => n3.key))) =
      some (ensureUniqueObjectKey doc.nodes parentId "key" (some cid)) ∧
    ensureUniqueObjectKey doc.nodes parentId "key" (some cid) ≠ "" ∧
    (ensureUniqueObjectKey doc.nodes parentId "key" (some cid) = "key" ∨
      ∃ i, 1 ≤ i ∧
        ensureUniqueObjectKey doc.nodes parentId "key" (some cid) = mkSuffixed "key" i) := by
  have hbase1 : jsKeyOr (jsTrim (jsKeyOr (jsKeyOr k "key") "key")) "key" =
      jsKeyOr (jsTrim (jsKeyOr "key" "key")) "key" := by
    by_cases hk : k = ""
    · subst hk
      rfl
    · have e1 : jsKeyOr k "key" = k := by simp [jsKeyOr, hk]
      rw [e1, e1, hws]
      rfl
  have hbase2 : jsKeyOr (jsTrim (jsKeyOr k "key")) "key" =
      jsKeyOr (jsTrim (jsKeyOr "key" "key")) "key" := by
    by_cases hk : k = ""
    · subst hk
      rfl
    · have e1 : jsKeyOr k "key" = k := by simp [jsKeyOr, hk]
      rw [e1, hws]
      rfl
  refine ⟨?_, ?_, ?_, ?_, ?_, ?_⟩
  · unfold addNode
    rw [hdoc]
    dsimp only
    rw [hp]
    dsimp only
    rw [hch]
    dsimp only
    simp only [Option.some_bind]
    rw [lookupNode_setNode, if_neg (by omega : ¬ parentId = s.nextId),
      lookupNode_setNode, if_pos rfl]
    simp only [Option.some_bind]
    rw [if_pos htype]
    simp only [Option.getD_some, Option.some_bind, Option.some.injEq]
    exact ensureUniqueObjectKey_base_congr doc.nodes parentId _ _ none parent children
      hp htype hch hbase1
  · exact ensureUniqueObjectKey_ne_empty doc.nodes parentId "key" none parent children
      hp htype hch
  · have := ensureUniqueObjectKey_shape doc.nodes parentId "key" none parent children
      hp htype hch
    simpa using this
  · unfold renameNodeKey
    rw [hdoc]
    dsimp only
    rw [hc]
    dsimp only
    rw [hcp]
    dsimp only
    simp only [Option.some_bind]
    rw [lookupNode_setNode, if_pos rfl]
    simp only [Option.some_bind, Option.some.injEq]
    exact ensureUniqueObjectKey_base_congr doc.nodes parentId _ _ (some cid) parent children
      hp htype hch hbase2
  · exact ensureUniqueObjectKey_ne_empty doc.nodes parentId "key" (some cid) parent children
      hp htype hch
  · have := ensureUniqueObjectKey_shape doc.nodes parentId "key" (some cid) parent children
      hp htype hch
    simpa using this

theorem C10_whitespace_key_normalized_witness :
    ((addNode
        { document := some (jsonToAst (JsonValue.obj
            [("key", JsonValue.num 1), ("b", JsonValue.num 2)])), nextId := 3 }
        0 JsonNodeType.string (some "  ")).document.bind (fun d2 =>
      (lookupNode d2.nodes 3).bind (fun n2 => n2.key))) =
      some (ensureUniqueObjectKey (jsonToAst (JsonValue.obj
        [("key", JsonValue.num 1), ("b", JsonValue.num 2)])).nodes 0 "key" none) ∧
    ensureUniqueObjectKey (jsonToAst (JsonValue.obj
      [("key", JsonValue.num 1), ("b", JsonValue.num 2)])).nodes 0 "key" none = "key_1" := by
  refine ⟨(C10_whitespace_key_normalized
    { document := some (jsonToAst (JsonValue.obj
        [("key", JsonValue.num 1), ("b", JsonValue.num 2)])), nextId := 3 }
    (jsonToAst (JsonValue.obj [("key", JsonValue.num 1), ("b", JsonValue.num 2)]))
    0
    { id := 0, type := .object, parentId := none, key := none, value := .null,
      children := some [1, 2] }
    [1, 2] "  " JsonNodeType.string 2
    { id := 2, type := .number, parentId := some 0, key := some "b", value := .num 2,
      children := none }
    rfl rfl rfl rfl (by decide) rfl rfl rfl).1, rfl⟩

/-! ## C5: key uniqueness under addNode/renameNodeKey sequences -/

theorem mem_keysOf_iff (m : NodeMap) (j : Nat) :
    j ∈ keysOf m ↔ (lookupNode m j).isSome = true := by
  constructor
  · exact lookupNode_isSome_of_mem
  · intro h
    obtain ⟨n, hn⟩ := Option.isSome_iff_exists.mp h
    simp only [lookupNode, Option.map_eq_some'] at hn
    obtain ⟨q, hq, _⟩ := hn
    have hqj := List.find?_some hq
    simp only [beq_iff_eq] at hqj
    rw [← hqj]
    exact List.mem_map_of_mem _ (List.mem_of_find?_eq_some hq)

theorem filterMap_congr_mem {α β : Type} {f g : α → Option β} :
    ∀ (l : List α), (∀ c ∈ l, f c = g c) → l.filterMap f = l.filterMap g
  | [], _ => rfl
  | c :: tl, h => by
      rw [List.filterMap_cons, List.filterMap_cons, h c (List.mem_cons_self _ _),
        filterMap_congr_mem tl (fun x hx => h x (List.mem_cons_of_mem _ hx))]

theorem exceptId_filterMap_eq (nodes : NodeMap) (cs : List Nat) :
    cs.filterMap (fun childId =>
      if (none : Option Nat) = some childId then none
      else
        match lookupNode nodes childId with
        | some cn => cn.key
        | none => none) = siblingKeys nodes cs := by
  apply filterMap_congr_mem
  intro c _
  rw [if_neg (by simp)]

theorem mem_filterMap_update {cs : List Nat} {f : Nat → Option String}
    {cid : Nat} {newKey : String} {x : String}
    (hx : x ∈ cs.filterMap (fun c => if c = cid then some newKey else f c)) :
    x = newKey ∨ x ∈ cs.filterMap f := by
  rw [List.mem_filterMap] at hx
  obtain ⟨c, hc, hfc⟩ := hx
  by_cases hcc : c = cid
  · rw [if_pos hcc] at hfc
    exact Or.inl (Option.some.inj hfc).symm
  · rw [if_neg hcc] at hfc
    exact Or.inr (List.mem_filterMap.mpr ⟨c, hc, hfc⟩)

theorem nodup_filterMap_update (cs : List Nat) (f : Nat → Option String)
    (cid : Nat) (newKey : String)
    (hnodupcs : cs.Nodup)
    (hold : (cs.filterMap f).Nodup)
    (hfresh : ¬ newKey ∈ cs.filterMap (fun c => if cid = c then none else f c)) :
    (cs.filterMap (fun c => if c = cid then some newKey else f c)).Nodup := by
  induction cs with
  | nil => exact List.nodup_nil
  | cons c tl ih =>
      rw [List.nodup_cons] at hnodupcs
      rw [List.filterMap_cons] at hold hfresh ⊢
      by_cases hcc : c = cid
      · rw [if_pos hcc]
        rw [if_pos (by rw [hcc]) ] at hfresh
        have htl : tl.filterMap (fun c => if c = cid then some newKey else f c) =
            tl.filterMap f := by
          apply filterMap_congr_mem
          intro x hx
          rw [if_neg]
          intro hxc
          rw [hxc, ← hcc] at hx
          exact hnodupcs.1 hx
        rw [htl, List.nodup_cons]
        have htl2 : tl.filterMap (fun c => if cid = c then none else f c) =
            tl.filterMap f := by
          apply filterMap_congr_mem
          intro x hx
          rw [if_neg]
          intro hxc
          rw [← hxc, ← hcc] at hx
          exact hnodupcs.1 hx
        rw [htl2] at hfresh
        refine ⟨hfresh, ?_⟩
        cases hfc : f c with
        | none => rw [hfc] at hold; exact hold
        | some k => rw [hfc] at hold; exact (List.nodup_cons.mp hold).2
      · rw [if_neg hcc]
        rw [if_neg (fun h => hcc h.symm)] at hfresh
        have hrec := by
          refine ih hnodupcs.2 ?_ ?_
          · cases hfc : f c with
            | none => rw [hfc] at hold; exact hold
            | some k => rw [hfc] at hold; exact (List.nodup_cons.mp hold).2
          · intro hmem
            apply hfresh
            cases hfc : f c with
            | none => exact hmem
            | some k => exact List.mem_cons_of_mem _ hmem
        cases hfc : f c with
        | none => exact hrec
        | some k =>
            rw [List.nodup_cons]
            refine ⟨?_, hrec⟩
            intro hmem
            rcases mem_filterMap_update hmem with rfl | hmem2
            · apply hfresh
              rw [hfc]
              exact List.mem_cons_self _ _
            · rw [hfc] at hold
              exact (List.nodup_cons.mp hold).1 hmem2

theorem keyInv_addNode (s : StoreState) (P : Nat) (t : JsonNodeType) (key : Option String)
    (hInv : KeyInv s P) : KeyInv (addNode s P t key) P := by
  unfold KeyInv at hInv ⊢
  rcases hdoc : s.document with _ | doc <;> rw [hdoc] at hInv
  · exact hInv.elim
  dsimp only at hInv
  rcases hp : lookupNode doc.nodes P with _ | parent <;> rw [hp] at hInv
  · exact hInv.elim
  dsimp only at hInv
  rcases hch : parent.children with _ | cs <;> rw [hch] at hInv
  · exact hInv.elim
  dsimp only at hInv
  obtain ⟨htype, hcsnd, hcs, hkeys, hsk⟩ := hInv
  have hPlt : P < s.nextId := hkeys P ((mem_keysOf_iff _ _).mpr (by rw [hp]; rfl))
  unfold addNode
  rw [hdoc]
  dsimp only
  rw [hp]
  dsimp only
  rw [hch]
  dsimp only
  rw [lookupNode_setNode, if_pos rfl]
  dsimp only
  refine ⟨htype, ?_, ?_, ?_, ?_⟩
  · rw [List.nodup_append]
    refine ⟨hcsnd, List.nodup_singleton _, ?_⟩
    intro a ha hb
    rw [List.mem_singleton] at hb
    have := hcs a ha
    omega
  · intro c hc
    rcases List.mem_append.mp hc with hc | hc
    · have := hcs c hc
      omega
    · rw [List.mem_singleton] at hc
      omega
  · intro j hj
    rw [mem_keysOf_iff, lookupNode_setNode] at hj
    by_cases hPj : P = j
    · omega
    · rw [if_neg hPj, lookupNode_setNode] at hj
      by_cases hNj : s.nextId = j
      · omega
      · rw [if_neg hNj] at hj
        have := hkeys j ((mem_keysOf_iff _ _).mpr hj)
        omega
  · unfold siblingKeys
    rw [List.filterMap_append]
    have hsame : cs.filterMap (fun childId =>
        match lookupNode (setNode (setNode doc.nodes s.nextId
          { id := s.nextId, type := t, parentId := some P,
            key := if parent.type = JsonNodeType.object then
              some (ensureUniqueObjectKey doc.nodes P (jsKeyOr (key.getD "") "key") none)
            else key,
            value := match t with
              | JsonNodeType.string => JsonPrim.str ""
              | JsonNodeType.number => JsonPrim.num 0
              | JsonNodeType.boolean => JsonPrim.bool false
              | _ => JsonPrim.null,
            children := if t = JsonNodeType.object ∨ t = JsonNodeType.array then some []
              else none }) P
          { parent with children := some (cs ++ [s.nextId]) }) childId with
        | some cn => cn.key
        | none => none) = siblingKeys doc.nodes cs := by
      apply filterMap_congr_mem
      intro c hc
      rw [lookupNode_setNode]
      by_cases hPc : P = c
      · rw [if_pos hPc]
        rw [← hPc, hp]
      · rw [if_neg hPc, lookupNode_setNode, if_neg (by have := hcs c hc; omega : ¬ s.nextId = c)]
    rw [hsame]
    have hnew : [s.nextId].filterMap (fun childId =>
        match lookupNode (setNode (setNode doc.nodes s.nextId
          { id := s.nextId, type := t, parentId := some P,
            key := if parent.type = JsonNodeType.object then
              some (ensureUniqueObjectKey doc.nodes P (jsKeyOr (key.getD "") "key") none)
            else key,
            value := match t with
              | JsonNodeType.string => JsonPrim.str ""
              | JsonNodeType.number => JsonPrim.num 0
              | JsonNodeType.boolean => JsonPrim.bool false
              | _ => JsonPrim.null,
            children := if t = JsonNodeType.object ∨ t = JsonNodeType.array then some []
              else none }) P
          { parent with children := some (cs ++ [s.nextId]) }) childId with
        | some cn => cn.key
        | none => none) =
        [ensureUniqueObjectKey doc.nodes P (jsKeyOr (key.getD "") "key") none] := by
      rw [List.filterMap_cons]
      rw [lookupNode_setNode, if_neg (by omega : ¬ P = s.nextId),
        lookupNode_setNode, if_pos rfl]
      dsimp only
      rw [if_pos htype]
      rfl
    rw [hnew, List.nodup_append]
    refine ⟨hsk, List.nodup_singleton _, ?_⟩
    intro a ha hb
    rw [List.mem_singleton] at hb
    subst hb
    have hfresh := ensureUniqueObjectKey_fresh doc.nodes P
      (jsKeyOr (key.getD "") "key") none parent cs hp htype hch
    rw [exceptId_filterMap_eq] at hfresh
    exact hfresh ha

theorem keyInv_renameNodeKey (s : StoreState) (P cid : Nat) (k : String)
    (hInv : KeyInv s P)
    (htgt : ∃ doc node, s.document = some doc ∧ lookupNode doc.nodes cid = some node ∧
      node.parentId = some P) :
    KeyInv (renameNodeKey s cid k) P := by
  obtain ⟨doc, node, hdoc, hc, hcp⟩ := htgt
  unfold KeyInv at hInv
  rw [hdoc] at hInv
  dsimp only at hInv
  rcases hp : lookupNode doc.nodes P with _ | parent <;> rw [hp] at hInv
  · exact hInv.elim
  dsimp only at hInv
  rcases hch : parent.children with _ | cs <;> rw [hch] at hInv
  · exact hInv.elim
  dsimp only at hInv
  obtain ⟨htype, hcsnd, hcsb, hkeys, hsk⟩ := hInv
  have hcid_mem : cid ∈ keysOf doc.nodes := (mem_keysOf_iff _ _).mpr (by rw [hc]; rfl)
  have hfresh0 := ensureUniqueObjectKey_fresh doc.nodes P k (some cid) parent cs hp htype hch
  have hconv : cs.filterMap (fun childId =>
      if (some cid : Option Nat) = some childId then none
      else match lookupNode doc.nodes childId with
        | some cn => cn.key
        | none => none) =
      cs.filterMap (fun c =>
        if cid = c then none
        else match lookupNode doc.nodes c with
          | some cn => cn.key
          | none => none) := by
    apply filterMap_congr_mem
    intro c _
    by_cases hcc : cid = c
    · rw [if_pos (congrArg some hcc), if_pos hcc]
    · rw [if_neg (fun h => hcc (Option.some.inj h)), if_neg hcc]
  rw [hconv] at hfresh0
  have hskNew : (cs.filterMap (fun childId =>
      match lookupNode (setNode doc.nodes cid
        { node with key := some (ensureUniqueObjectKey doc.nodes P k (some cid)) }) childId with
      | some cn => cn.key
      | none => none)).Nodup := by
    have hpt : cs.filterMap (fun childId =>
        match lookupNode (setNode doc.nodes cid
          { node with key := some (ensureUniqueObjectKey doc.nodes P k (some cid)) }) childId with
        | some cn => cn.key
        | none => none) =
        cs.filterMap (fun c =>
          if c = cid then some (ensureUniqueObjectKey doc.nodes P k (some cid))
          else match lookupNode doc.nodes c with
            | some cn => cn.key
            | none => none) := by
      apply filterMap_congr_mem
      intro c _
      rw [lookupNode_setNode]
      by_cases hcc : cid = c
      · rw [if_pos hcc, if_pos hcc.symm]
      · rw [if_neg hcc, if_neg (fun h => hcc h.symm)]
    rw [hpt]
    exact nodup_filterMap_update cs _ cid _ hcsnd hsk hfresh0
  have hbound : ∀ j ∈ keysOf (setNode doc.nodes cid
      { node with key := some (ensureUniqueObjectKey doc.nodes P k (some cid)) }),
      j < s.nextId := by
    intro j hj
    rw [mem_keysOf_iff, lookupNode_setNode] at hj
    by_cases hcj : cid = j
    · subst hcj
      exact hkeys cid hcid_mem
    · rw [if_neg hcj] at hj
      exact hkeys j ((mem_keysOf_iff _ _).mpr hj)
  unfold renameNodeKey
  rw [hdoc]
  dsimp only
  rw [hc]
  dsimp only
  rw [hcp]
  dsimp only
  unfold KeyInv
  dsimp only
  rw [lookupNode_setNode]
  by_cases hcidP : cid = P
  · subst hcidP
    rw [hp] at hc
    have hpn : parent = node := Option.some.inj hc
    subst hpn
    rw [if_pos rfl]
    dsimp only
    rw [hch]
    dsimp only
    rw [hcp, hch] at hbound hskNew
    exact ⟨htype, hcsnd, hcsb, hbound, hskNew⟩
  · rw [if_neg hcidP, hp]
    dsimp only
    rw [hch]
    dsimp only
    rw [hcp] at hbound hskNew
    exact ⟨htype, hcsnd, hcsb, hbound, hskNew⟩

theorem keyInv_step (s : StoreState) (P : Nat) (op : Mutation)
    (hInv : KeyInv s P) (htgt : targetsParent P s op) :
    KeyInv (applyMutation op s) P := by
  cases op with
  | addNode pid t key =>
      have hpid : pid = P := htgt
      subst hpid
      exact keyInv_addNode s pid t key hInv
  | renameNodeKey cid k => exact keyInv_renameNodeKey s P cid k hInv htgt
  | updateNodeValue id v => exact htgt.elim
  | changeNodeType id t => exact htgt.elim
  | moveArrayItem p f t => exact htgt.elim
  | deleteNode id => exact htgt.elim
  | pasteNodeJson t r m => exact htgt.elim
  | sortObjectKeys n d => exact htgt.elim
  | replaceDocumentFromJson v => exact htgt.elim
  | formatDocument m => exact htgt.elim
  | applyDiffSelection e => exact htgt.elim
  | batchDeleteSelected => exact htgt.elim
  | applyReplacePreview => exact htgt.elim

theorem keyInv_prefix (P : Nat) (l₁ : List Mutation) :
    ∀ (s : StoreState) (l₂ : List Mutation), KeyInv s P → SeqTargets P s (l₁ ++ l₂) →
    KeyInv (l₁.foldl (fun st op => applyMutation op st) s) P := by
  induction l₁ with
  | nil => exact fun s l₂ hInv _ => hInv
  | cons op xs ih =>
      intro s l₂ hInv hseq
      rw [List.cons_append] at hseq
      obtain ⟨htgt, hrest⟩ := hseq
      rw [List.foldl_cons]
      exact ih (applyMutation op s) l₂ (keyInv_step s P op hInv htgt) hrest

/-- C5: starting from a store whose loaded document has, around the object
parent P, duplicate-free children with already-issued ids and pairwise
distinct child keys, any sequence of addNode / renameNodeKey mutations
targeting children of P keeps the keys of P's children pairwise distinct
(string equality is case-sensitive exact match) at every point of the
sequence: after any prefix l₁ of the sequence, the list of keys held by
P's children contains no duplicate. -/
theorem C5_key_uniqueness (s : StoreState) (P : Nat) (ops : List Mutation)
    (hInv : KeyInv s P) (hseq : SeqTargets P s ops)
    (l₁ l₂ : List Mutation) (hsplit : ops = l₁ ++ l₂)
    (doc : JsonDocument) (parent : JsonNode) (cs : List Nat)
    (hdoc : (l₁.foldl (fun st op => applyMutation op st) s).document = some doc)
    (hp : lookupNode doc.nodes P = some parent)
    (hch : parent.children = some cs) :
    (siblingKeys doc.nodes cs).Nodup := by
  have hk := keyInv_prefix P l₁ s l₂ hInv (hsplit ▸ hseq)
  unfold KeyInv at hk
  rw [hdoc] at hk
  dsimp only at hk
  rw [hp] at hk
  dsimp only at hk
  rw [hch] at hk
  dsimp only at hk
  exact hk.2.2.2.2


theorem C5_key_uniqueness_witness : (siblingKeys c5nodesFinal [1, 2]).Nodup :=
  C5_key_uniqueness c5store 0 c5ops
    ⟨rfl, by decide, by decide, by decide, by decide⟩
    ⟨rfl, ⟨rfl, ⟨⟨{ rootId := 0, nodes := c5nodesMid }, c5node1, rfl, rfl, rfl⟩,
      trivial⟩⟩⟩
    c5ops [] (List.append_nil c5ops).symm
    { rootId := 0, nodes := c5nodesFinal }
    { id := 0, type := .object, children := some [1, 2] }
    [1, 2] rfl rfl rfl

theorem takeWhile_stop {p : Char → Bool} :
    ∀ (l₁ l₂ : List Char), (∀ c ∈ l₁, p c = true) →
    (∀ c, l₂.head? = some c → p c = false) →
    (l₁ ++ l₂).takeWhile p = l₁ ∧ (l₁ ++ l₂).dropWhile p = l₂ := by
  intro l₁
  induction l₁ with
  | nil =>
      intro l₂ _ h₂
      cases l₂ with
      | nil => exact ⟨rfl, rfl⟩
      | cons c tl =>
          have hc : p c = false := h₂ c rfl
          rw [List.nil_append]
          exact ⟨List.takeWhile_cons_of_neg (by simp [hc]),
            List.dropWhile_cons_of_neg (by simp [hc])⟩
  | cons c tl ih =>
      intro l₂ h₁ h₂
      have hc : p c = true := h₁ c (List.mem_cons_self _ _)
      have htl := ih l₂ (fun x hx => h₁ x (List.mem_cons_of_mem _ hx)) h₂
      rw [List.cons_append, List.takeWhile_cons_of_pos hc, List.dropWhile_cons_of_pos hc,
        htl.1, htl.2]
      exact ⟨rfl, rfl⟩

theorem isIdentChar_of_start (c : Char) (h : isIdentStart c = true) : isIdentChar c = true := by
  simp only [isIdentStart, Bool.or_eq_true, decide_eq_true_eq] at h
  simp only [isIdentChar, Char.isAlphanum, Bool.or_eq_true, decide_eq_true_eq]
  tauto

theorem not_whitespace_of_identChar (c : Char) (h : isIdentChar c = true) :
    c.isWhitespace = false := by
  by_cases hw : c.isWhitespace = true
  · simp only [Char.isWhitespace, Bool.or_eq_true, decide_eq_true_eq] at hw
    rcases hw with ((rfl | rfl) | rfl) | rfl <;> exact absurd h (by decide)
  · exact Bool.not_eq_true _ ▸ hw

theorem readQuoted_escape : ∀ (l r : List Char),
    readQuoted (escapeKeyChars l ++ '\'' :: r) = some (l, r)
  | [], r => rfl
  | c :: tl, r => by
      rw [escapeKeyChars]
      by_cases h1 : c = '\\'
      · subst h1
        rw [if_pos rfl, List.cons_append, List.cons_append, readQuoted]
        rw [readQuoted_escape tl r]
      · by_cases h2 : c = '\''
        · subst h2
          rw [if_neg h1, if_pos rfl, List.cons_append, List.cons_append, readQuoted]
          rw [readQuoted_escape tl r]
        · rw [if_neg h1, if_neg h2, List.cons_append, readQuoted.eq_def]
          split
          · rename_i heq
            exact absurd heq (by simp)
          · rename_i heq
            rw [List.cons.injEq] at heq
            exact absurd heq.1 h1
          · rename_i heq
            rw [List.cons.injEq] at heq
            exact absurd heq.1 h2
          · rename_i c' rest heq
            rw [List.cons.injEq] at heq
            obtain ⟨rfl, hrest⟩ := heq
            rw [← hrest, readQuoted_escape tl r]

theorem parse_step_idx (i : Nat) (rest : List Char) (fuel : Nat) (r : List PathSeg)
    (h : parseSegsFrom fuel rest = some r) :
    parseSegsFrom (fuel + 1) ('[' :: (natToDecimal i ++ ']' :: rest)) =
      some (.idx i :: r) := by
  obtain ⟨d, ds, hnd⟩ : ∃ d ds, natToDecimal i = d :: ds := by
    cases hh : natToDecimal i with
    | nil => exact absurd hh (natToDecimal_ne_nil i)
    | cons d ds => exact ⟨d, ds, rfl⟩
  have hall : ∀ c ∈ natToDecimal i, c.isDigit = true := natToDecimal_digits i
  have hd : d.isDigit = true := hall d (by rw [hnd]; exact List.mem_cons_self _ _)
  have hstop := takeWhile_stop (p := Char.isDigit) (natToDecimal i) (']' :: rest) hall
    (fun c hc => by
      rw [List.head?_cons] at hc
      rw [← Option.some.inj hc]
      decide)
  rw [parseSegsFrom, hnd, List.cons_append]
  rw [hnd, List.cons_append] at hstop
  split
  · rename_i heq
    rw [hstop.1] at heq
    exact absurd heq (by simp)
  · rw [hstop.2]
    split
    · rename_i rem2 heq
      rw [List.cons.injEq] at heq
      rw [← heq.2, h]
      dsimp only
      rw [hstop.1, ← hnd, digitsToNat_natToDecimal]
    · rename_i hne
      exact absurd rfl (hne rest)
  · intro hx
    rw [hnd] at hx
    exact absurd hx (by simp)
  · intro rest2 hx
    rw [hnd, List.cons_append, List.cons.injEq] at hx
    rw [hx.1] at hd
    exact absurd hd (by decide)

theorem parse_step_key_ident (k : String) (hid : identPatternTest k = true)
    (rest : List Char) (fuel : Nat) (r : List PathSeg)
    (h : parseSegsFrom fuel rest = some r)
    (hrest : ∀ c, rest.head? = some c → isIdentChar c = false) :
    parseSegsFrom (fuel + 1) ('.' :: (k.data ++ rest)) = some (.key k :: r) := by
  obtain ⟨c, tl, hk⟩ : ∃ c tl, k.data = c :: tl := by
    cases hh : k.data with
    | nil =>
        rw [identPatternTest, hh] at hid
        exact absurd hid (by decide)
    | cons c tl => exact ⟨c, tl, rfl⟩
  have hct : isIdentStart c = true ∧ tl.all isIdentChar = true := by
    rw [identPatternTest, hk] at hid
    simp only [Bool.and_eq_true] at hid
    exact hid
  have hall : ∀ x ∈ k.data, isIdentChar x = true := by
    intro x hx
    rw [hk] at hx
    rcases List.mem_cons.mp hx with rfl | hx
    · exact isIdentChar_of_start x hct.1
    · exact List.all_eq_true.mp hct.2 x hx
  have hstop := takeWhile_stop k.data rest hall hrest
  have hempty : k.data.isEmpty = false := by rw [hk]; rfl
  rw [parseSegsFrom]
  rw [hstop.1, hstop.2, hempty]
  rw [if_neg (by decide)]
  rw [h]

theorem parse_step_key_quoted (k : String) (rest : List Char) (fuel : Nat)
    (r : List PathSeg) (h : parseSegsFrom fuel rest = some r) :
    parseSegsFrom (fuel + 1)
      ('[' :: '\'' :: (escapeKeyChars k.data ++ '\'' :: ']' :: rest)) =
      some (.key k :: r) := by
  rw [parseSegsFrom]
  rw [readQuoted_escape k.data (']' :: rest)]
  dsimp only
  split
  · rename_i rem2 heq
    rw [List.cons.injEq] at heq
    rw [← heq.2, h]
  · rename_i hne
    exact absurd rfl (hne rest)

theorem renderSeg_ne_nil (seg : PathSeg) : renderSeg seg ≠ [] := by
  cases seg with
  | idx i => simp [renderSeg]
  | key k => by_cases h : identPatternTest k = true <;> simp [renderSeg, h]

theorem renderSegs_length_ge : ∀ segs : List PathSeg,
    segs.length ≤ (renderSegs segs).length := by
  intro segs
  induction segs with
  | nil => exact Nat.le_refl _
  | cons s tl ih =>
      rw [renderSegs, List.length_cons, List.length_append]
      have := List.length_pos.mpr (renderSeg_ne_nil s)
      omega

theorem renderSegs_head_not_ident :
    ∀ (segs : List PathSeg) (c : Char), (renderSegs segs).head? = some c →
      isIdentChar c = false := by
  intro segs c h
  cases segs with
  | nil => simp [renderSegs] at h
  | cons s tl =>
      rw [renderSegs] at h
      cases s with
      | idx i =>
          rw [renderSeg, List.cons_append, List.head?_cons] at h
          rw [← Option.some.inj h]
          decide
      | key k =>
          rw [renderSeg] at h
          by_cases hid : identPatternTest k = true
          · rw [if_pos hid, List.cons_append, List.head?_cons] at h
            rw [← Option.some.inj h]
            decide
          · rw [if_neg hid, List.cons_append, List.head?_cons] at h
            rw [← Option.some.inj h]
            decide

theorem parse_render : ∀ (segs : List PathSeg) (extra : Nat),
    parseSegsFrom (segs.length + 1 + extra) (renderSegs segs) = some segs := by
  intro segs
  induction segs with
  | nil =>
      intro extra
      have h1 : ([] : List PathSeg).length + 1 + extra = extra + 1 := by
        rw [List.length_nil]; omega
      rw [h1, renderSegs, parseSegsFrom]
  | cons s tl ih =>
      intro extra
      have hlen : (s :: tl).length + 1 + extra = (tl.length + 1 + extra) + 1 := by
        rw [List.length_cons]; omega
      rw [hlen, renderSegs]
      cases s with
      | idx i =>
          rw [renderSeg, List.cons_append, List.append_assoc, List.singleton_append]
          exact parse_step_idx i (renderSegs tl) _ tl (ih extra)
      | key k =>
          rw [renderSeg]
          by_cases hid : identPatternTest k = true
          · rw [if_pos hid, List.cons_append]
            exact parse_step_key_ident k hid (renderSegs tl) _ tl (ih extra)
              (renderSegs_head_not_ident tl)
          · rw [if_neg hid, List.cons_append, List.cons_append, List.append_assoc,
              List.cons_append, List.singleton_append]
            exact parse_step_key_quoted k (renderSegs tl) _ tl (ih extra)

theorem jsTrim_eq_self (cs : List Char)
    (h1 : ∀ c, cs.head? = some c → c.isWhitespace = false)
    (h2 : ∀ c, cs.getLast? = some c → c.isWhitespace = false) :
    jsTrim ⟨cs⟩ = ⟨cs⟩ := by
  unfold jsTrim
  have hdrop1 : cs.dropWhile Char.isWhitespace = cs := by
    cases cs with
    | nil => rfl
    | cons c tl => exact List.dropWhile_cons_of_neg (by simp [h1 c rfl])
  have hdrop2 : cs.reverse.dropWhile Char.isWhitespace = cs.reverse := by
    cases hrev : cs.reverse with
    | nil => rfl
    | cons c tl =>
        have hlast : cs.getLast? = some c := by
          rw [← List.head?_reverse, hrev, List.head?_cons]
        exact List.dropWhile_cons_of_neg (by simp [h2 c hlast])
  show (⟨((cs.dropWhile Char.isWhitespace).reverse.dropWhile
    Char.isWhitespace).reverse⟩ : String) = ⟨cs⟩
  rw [hdrop1, hdrop2, List.reverse_reverse]

theorem renderSeg_getLast_not_ws (seg : PathSeg) (c : Char)
    (h : (renderSeg seg).getLast? = some c) : c.isWhitespace = false := by
  cases seg with
  | idx i =>
      rw [renderSeg, ← List.cons_append, List.getLast?_append,
        List.getLast?_singleton, Option.or_some] at h
      rw [← Option.some.inj h]
      decide
  | key k =>
      rw [renderSeg] at h
      by_cases hid : identPatternTest k = true
      · rw [if_pos hid] at h
        obtain ⟨c0, tl, hk⟩ : ∃ c0 tl, k.data = c0 :: tl := by
          cases hh : k.data with
          | nil =>
              rw [identPatternTest, hh] at hid
              exact absurd hid (by decide)
          | cons c0 tl => exact ⟨c0, tl, rfl⟩
        have hall : ∀ x ∈ k.data, isIdentChar x = true := by
          rw [identPatternTest, hk] at hid
          simp only [Bool.and_eq_true] at hid
          intro x hx
          rw [hk] at hx
          rcases List.mem_cons.mp hx with rfl | hx
          · exact isIdentChar_of_start x hid.1
          · exact List.all_eq_true.mp hid.2 x hx
        rw [hk, List.getLast?_cons_cons] at h
        have hmem : c ∈ k.data := by
          rw [hk]
          exact List.mem_of_mem_getLast? (Option.mem_def.mpr h)
        exact not_whitespace_of_identChar c (hall c hmem)
      · rw [if_neg hid] at h
        have hsh : '[' :: '\'' :: (escapeKeyChars k.data ++ ['\'', ']']) =
            ('[' :: '\'' :: (escapeKeyChars k.data ++ ['\''])) ++ [']'] := by
          simp
        rw [hsh, List.getLast?_append, List.getLast?_singleton, Option.or_some] at h
        rw [← Option.some.inj h]
        decide

theorem renderSegs_getLast_not_ws :
    ∀ (segs : List PathSeg) (c : Char), (renderSegs segs).getLast? = some c →
      c.isWhitespace = false := by
  intro segs
  induction segs with
  | nil => intro c h; simp [renderSegs] at h
  | cons s tl ih =>
      intro c h
      rw [renderSegs, List.getLast?_append] at h
      cases htl : (renderSegs tl).getLast? with
      | some d =>
          rw [htl, Option.or_some] at h
          exact ih c (htl.trans h)
      | none =>
          rw [htl, Option.none_or] at h
          exact renderSeg_getLast_not_ws s c h

theorem foldl_append_data : ∀ (L : List String) (acc : String),
    (L.foldl (fun a s => a ++ s) acc).data = acc.data ++ (L.map String.data).flatten := by
  intro L
  induction L with
  | nil => intro acc; simp
  | cons s tl ih =>
      intro acc
      rw [List.foldl_cons, ih, String.data_append, List.map_cons, List.flatten_cons,
        List.append_assoc]

theorem join_data (L : List String) :
    (String.join L).data = (L.map String.data).flatten := by
  have h : String.join L = L.foldl (fun a s => a ++ s) "" := rfl
  rw [h, foldl_append_data]
  rfl

theorem resolveSegs_append (m : NodeMap) :
    ∀ (a b : List PathSeg) (s : Nat),
    resolveSegs m (a ++ b) s = (resolveSegs m a s).bind (fun t => resolveSegs m b t) := by
  intro a
  induction a with
  | nil => intro b s; simp [resolveSegs]
  | cons seg tl ih =>
      intro b s
      rw [List.cons_append, resolveSegs, resolveSegs]
      cases hcur : lookupNode m s with
      | none => simp
      | some current =>
          dsimp only
          cases seg with
          | key k =>
              dsimp only
              split
              · split
                · exact ih b _
                · simp
              · simp
          | idx i =>
              dsimp only
              split
              · split
                · exact ih b _
                · simp
              · simp

theorem listIndexOf_spec : ∀ (l : List Nat) (x i : Nat), listIndexOf l x = some i →
    i < l.length ∧ l.getD i 0 = x := by
  intro l
  induction l with
  | nil => intro x i h; simp [listIndexOf] at h
  | cons y tl ih =>
      intro x i h
      rw [listIndexOf] at h
      by_cases hxy : y = x
      · rw [if_pos hxy] at h
        obtain rfl : (0 : Nat) = i := Option.some.inj h
        exact ⟨by simp, hxy⟩
      · rw [if_neg hxy] at h
        cases hr : listIndexOf tl x with
        | none => rw [hr] at h; simp at h
        | some j =>
            rw [hr, Option.map_some'] at h
            obtain rfl : j + 1 = i := Option.some.inj h
            obtain ⟨ih1, ih2⟩ := ih x j hr
            refine ⟨by simp; omega, ?_⟩
            rw [List.getD_cons_succ]
            exact ih2

theorem listIndexOf_isSome : ∀ (l : List Nat) (x : Nat), x ∈ l →
    (listIndexOf l x).isSome = true := by
  intro l
  induction l with
  | nil => intro x hx; simp at hx
  | cons y tl ih =>
      intro x hx
      rw [listIndexOf]
      by_cases hxy : y = x
      · rw [if_pos hxy]; rfl
      · rw [if_neg hxy]
        rcases List.mem_cons.mp hx with rfl | hx'
        · exact absurd rfl hxy
        · cases hr : listIndexOf tl x with
          | none =>
              have hs := ih x hx'
              rw [hr] at hs
              exact absurd hs (by decide)
          | some j => rfl

theorem allDistinct_nodup : ∀ l : List String, allDistinct l = true → l.Nodup := by
  intro l
  induction l with
  | nil => intro _; exact List.nodup_nil
  | cons k tl ih =>
      intro h
      rw [allDistinct] at h
      simp only [Bool.and_eq_true, Bool.not_eq_true'] at h
      rw [List.nodup_cons]
      refine ⟨?_, ih h.2⟩
      intro hmem
      have hc : tl.contains k = true := List.elem_iff.mpr hmem
      rw [h.1] at hc
      exact absurd hc (by decide)

theorem nodup_filterMap_inj : ∀ (l : List Nat) (f : Nat → Option String),
    (l.filterMap f).Nodup → ∀ a ∈ l, ∀ b ∈ l, ∀ v, f a = some v → f b = some v →
      a = b := by
  intro l
  induction l with
  | nil => intro f _ a ha; simp at ha
  | cons c tl ih =>
      intro f hnd a ha b hb v hfa hfb
      rw [List.filterMap_cons] at hnd
      cases hfc : f c with
      | none =>
          rw [hfc] at hnd
          rcases List.mem_cons.mp ha with rfl | ha'
          · rw [hfa] at hfc; exact absurd hfc (by simp)
          · rcases List.mem_cons.mp hb with rfl | hb'
            · rw [hfb] at hfc; exact absurd hfc (by simp)
            · exact ih f hnd a ha' b hb' v hfa hfb
      | some w =>
          rw [hfc] at hnd
          rw [List.nodup_cons] at hnd
          rcases List.mem_cons.mp ha with rfl | ha' <;>
            rcases List.mem_cons.mp hb with rfl | hb'
          · rfl
          · obtain rfl : w = v := by rw [hfa] at hfc; exact (Option.some.inj hfc).symm
            exact absurd (List.mem_filterMap.mpr ⟨b, hb', hfb⟩) hnd.1
          · obtain rfl : w = v := by rw [hfb] at hfc; exact (Option.some.inj hfc).symm
            exact absurd (List.mem_filterMap.mpr ⟨a, ha', hfa⟩) hnd.1
          · exact ih f hnd.2 a ha' b hb' v hfa hfb

theorem lookup_mem {m : NodeMap} {i : Nat} {n : JsonNode}
    (h : lookupNode m i = some n) : (i, n) ∈ m := by
  unfold lookupNode at h
  cases hf : m.find? (fun p => p.1 == i) with
  | none => rw [hf] at h; simp at h
  | some p =>
      rw [hf, Option.map_some'] at h
      have hm := List.mem_of_find?_eq_some hf
      have hp1 : p.1 = i := by
        have := List.find?_some hf
        simpa using this
      have hp2 : p.2 = n := Option.some.inj h
      rw [← hp1, ← hp2]
      exact hm

theorem docWf_at {doc : JsonDocument} (hwf : docWf doc = true) {i : Nat} {n : JsonNode}
    (h : lookupNode doc.nodes i = some n) :
    nodeWfAt doc i n = true ∧ chainOk doc.nodes (doc.nodes.length + 1) i = true := by
  have hm := lookup_mem h
  have hall := List.all_eq_true.mp hwf (i, n) hm
  simpa [Bool.and_eq_true] using hall

theorem nodeWfAt_id {doc : JsonDocument} {i : Nat} {n : JsonNode}
    (h : nodeWfAt doc i n = true) : n.id = i := by
  rw [nodeWfAt] at h
  simp only [Bool.and_eq_true, beq_iff_eq] at h
  exact h.1.1

theorem nodeWfAt_root {doc : JsonDocument} {i : Nat} {n : JsonNode}
    (h : nodeWfAt doc i n = true) (hp : n.parentId = none) : i = doc.rootId := by
  rw [nodeWfAt] at h
  simp only [Bool.and_eq_true] at h
  obtain ⟨⟨_, h2⟩, _⟩ := h
  rw [hp] at h2
  simpa using h2

theorem nodeWfAt_parent {doc : JsonDocument} {i : Nat} {n : JsonNode} {p : Nat}
    (h : nodeWfAt doc i n = true) (hp : n.parentId = some p) :
    ∃ pn, lookupNode doc.nodes p = some pn ∧ i ∈ childList pn ∧
      (pn.type = JsonNodeType.object ∨ pn.type = JsonNodeType.array) ∧
      (pn.type = JsonNodeType.object → n.key.isSome = true) := by
  rw [nodeWfAt] at h
  simp only [Bool.and_eq_true] at h
  obtain ⟨⟨_, h2⟩, _⟩ := h
  rw [hp] at h2
  dsimp only at h2
  cases hlp : lookupNode doc.nodes p with
  | none =>
      rw [hlp] at h2
      simp at h2
  | some pn =>
      rw [hlp] at h2
      dsimp only at h2
      simp only [Bool.and_eq_true] at h2
      obtain ⟨⟨hA, hB⟩, hC⟩ := h2
      refine ⟨pn, rfl, List.elem_iff.mp hA, ?_, ?_⟩
      · rw [Bool.or_eq_true] at hB
        rcases hB with hb | hb
        · exact Or.inl (by simpa using hb)
        · exact Or.inr (by simpa using hb)
      · intro hobj
        rw [Bool.or_eq_true] at hC
        rcases hC with hc | hc
        · rw [Bool.not_eq_true'] at hc
          rw [hobj] at hc
          simp at hc
        · exact hc

theorem nodeWfAt_keys {doc : JsonDocument} {i : Nat} {n : JsonNode}
    (h : nodeWfAt doc i n = true) (ht : n.type = JsonNodeType.object) :
    allDistinct (siblingKeys doc.nodes (childList n)) = true := by
  rw [nodeWfAt] at h
  simp only [Bool.and_eq_true] at h
  obtain ⟨_, h3⟩ := h
  rw [Bool.or_eq_true] at h3
  rcases h3 with hb | hb
  · rw [Bool.not_eq_true'] at hb
    rw [ht] at hb
    simp at hb
  · exact hb

theorem chainOk_step {m : NodeMap} {fuel i : Nat} {n : JsonNode} {p : Nat}
    (hc : chainOk m (fuel + 1) i = true) (hn : lookupNode m i = some n)
    (hp : n.parentId = some p) : chainOk m fuel p = true := by
  rw [chainOk, hn] at hc
  dsimp only at hc
  rw [hp] at hc
  exact hc

theorem renderSegs_append : ∀ (a b : List PathSeg),
    renderSegs (a ++ b) = renderSegs a ++ renderSegs b := by
  intro a
  induction a with
  | nil => intro b; rfl
  | cons s tl ih =>
      intro b
      rw [List.cons_append, renderSegs, renderSegs, ih, List.append_assoc]

theorem appendKeySegment_data (k : String) :
    (appendKeySegment "" k).data = renderSeg (.key k) := by
  rw [appendKeySegment, renderSeg]
  by_cases hid : identPatternTest k = true
  · rw [if_pos hid, if_pos hid, String.data_append, String.data_append]
    rfl
  · rw [if_neg hid, if_neg hid, String.data_append, String.data_append,
      String.data_append]
    show ((([] : List Char) ++ ['[', '\'']) ++ (escapePathKey k).data) ++ ['\'', ']'] =
      '[' :: '\'' :: (escapeKeyChars k.data ++ ['\'', ']'])
    rw [List.nil_append]
    show ['[', '\''] ++ escapeKeyChars k.data ++ ['\'', ']'] =
      '[' :: '\'' :: (escapeKeyChars k.data ++ ['\'', ']'])
    simp

theorem build_total (doc : JsonDocument) (hwf : docWf doc = true) :
    ∀ (fuel : Nat) (current : JsonNode),
      lookupNode doc.nodes current.id = some current →
      chainOk doc.nodes fuel current.id = true →
      (buildPathPartsUp doc.nodes fuel current).isSome = true := by
  intro fuel
  induction fuel with
  | zero =>
      intro current _ hc
      rw [chainOk] at hc
      exact absurd hc (by decide)
  | succ fuel ih =>
      intro current hcur hc
      rw [buildPathPartsUp]
      cases hpid : current.parentId with
      | none => rfl
      | some pid =>
          dsimp only
          obtain ⟨pn, hlp, hmem, hcont, hkey⟩ :=
            nodeWfAt_parent (docWf_at hwf hcur).1 hpid
          rw [hlp]
          dsimp only
          have hpnid : pn.id = pid := nodeWfAt_id (docWf_at hwf hlp).1
          have hlp' : lookupNode doc.nodes pn.id = some pn := by
            rw [hpnid]; exact hlp
          have hcp : chainOk doc.nodes fuel pid = true := chainOk_step hc hcur hpid
          have hrec : (buildPathPartsUp doc.nodes fuel pn).isSome = true :=
            ih pn hlp' (by rw [hpnid]; exact hcp)
          obtain ⟨parts', hparts'⟩ := Option.isSome_iff_exists.mp hrec
          rcases hcont with hobj | harr
          · rw [hobj]
            dsimp only
            obtain ⟨k, hk⟩ := Option.isSome_iff_exists.mp (hkey hobj)
            rw [hk]
            dsimp only
            rw [hparts']
            rfl
          · rw [harr]
            dsimp only
            have hidx : (listIndexOf (childList pn) current.id).isSome = true :=
              listIndexOf_isSome _ _ hmem
            obtain ⟨index, hindex⟩ := Option.isSome_iff_exists.mp hidx
            rw [hindex]
            dsimp only
            rw [hparts']
            rfl

theorem build_spec (doc : JsonDocument) (hwf : docWf doc = true) :
    ∀ (fuel : Nat) (current : JsonNode) (parts : List String),
      lookupNode doc.nodes current.id = some current →
      buildPathPartsUp doc.nodes fuel current = some parts →
      ∃ segs : List PathSeg,
        (String.join parts.reverse).data = renderSegs segs ∧
        resolveSegs doc.nodes segs doc.rootId = some current.id := by
  intro fuel
  induction fuel with
  | zero =>
      intro current parts _ hb
      rw [buildPathPartsUp] at hb
      exact absurd hb (by simp)
  | succ fuel ih =>
      intro current parts hcur hb
      rw [buildPathPartsUp] at hb
      cases hpid : current.parentId with
      | none =>
          rw [hpid] at hb
          dsimp only at hb
          obtain rfl : ([] : List String) = parts := Option.some.inj hb
          have hroot : current.id = doc.rootId :=
            nodeWfAt_root (docWf_at hwf hcur).1 hpid
          refine ⟨[], rfl, ?_⟩
          rw [resolveSegs, hroot]
      | some pid =>
          rw [hpid] at hb
          dsimp only at hb
          cases hlp : lookupNode doc.nodes pid with
          | none =>
              rw [hlp] at hb
              exact absurd hb (by simp)
          | some pn =>
              rw [hlp] at hb
              dsimp only at hb
              have hpnid : pn.id = pid := nodeWfAt_id (docWf_at hwf hlp).1
              have hlp' : lookupNode doc.nodes pn.id = some pn := by
                rw [hpnid]; exact hlp
              obtain ⟨pn', hlp2, hmem, hcont, hkey⟩ :=
                nodeWfAt_parent (docWf_at hwf hcur).1 hpid
              rw [hlp] at hlp2
              obtain rfl : pn = pn' := Option.some.inj hlp2
              obtain ⟨cs, hch⟩ : ∃ cs, pn.children = some cs := by
                cases hcc : pn.children with
                | none =>
                    rw [childList, hcc] at hmem
                    exact absurd hmem (by simp)
                | some cs => exact ⟨cs, rfl⟩
              have hclist : childList pn = cs := by rw [childList, hch]; rfl
              cases ht : pn.type with
              | array =>
                  rw [ht] at hb
                  dsimp only at hb
                  cases hio : listIndexOf (childList pn) current.id with
                  | none =>
                      rw [hio] at hb
                      exact absurd hb (by simp)
                  | some index =>
                      rw [hio] at hb
                      dsimp only at hb
                      cases hrec : buildPathPartsUp doc.nodes fuel pn with
                      | none =>
                          rw [hrec] at hb
                          exact absurd hb (by simp)
                      | some parts' =>
                          rw [hrec] at hb
                          dsimp only at hb
                          obtain rfl :
                              ("[" ++ (⟨natToDecimal index⟩ : String) ++ "]") :: parts' =
                                parts := Option.some.inj hb
                          obtain ⟨segs', hdata, hres⟩ := ih pn parts' hlp' hrec
                          refine ⟨segs' ++ [.idx index], ?_, ?_⟩
                          · rw [List.reverse_cons, join_data, List.map_append,
                              List.flatten_append, renderSegs_append]
                            rw [join_data] at hdata
                            rw [hdata]
                            congr 1
                          · rw [resolveSegs_append, hres, Option.some_bind,
                              resolveSegs, hlp']
                            dsimp only
                            rw [ht, hch]
                            dsimp only
                            rw [hclist] at hio
                            obtain ⟨hlt, hgd⟩ := listIndexOf_spec cs current.id index hio
                            rw [if_pos hlt, resolveSegs, hgd]
              | object =>
                  rw [ht] at hb
                  dsimp only at hb
                  cases hk : current.key with
                  | none =>
                      rw [hk] at hb
                      exact absurd hb (by simp)
                  | some k =>
                      rw [hk] at hb
                      dsimp only at hb
                      cases hrec : buildPathPartsUp doc.nodes fuel pn with
                      | none =>
                          rw [hrec] at hb
                          exact absurd hb (by simp)
                      | some parts' =>
                          rw [hrec] at hb
                          dsimp only at hb
                          obtain rfl : appendKeySegment "" k :: parts' = parts :=
                            Option.some.inj hb
                          obtain ⟨segs', hdata, hres⟩ := ih pn parts' hlp' hrec
                          refine ⟨segs' ++ [.key k], ?_, ?_⟩
                          · rw [List.reverse_cons, join_data, List.map_append,
                              List.flatten_append, renderSegs_append]
                            rw [join_data] at hdata
                            rw [hdata]
                            congr 1
                            rw [List.map_cons, List.map_nil, List.flatten_cons,
                              List.flatten_nil, List.append_nil]
                            rw [appendKeySegment_data, renderSegs, renderSegs,
                              List.append_nil]
                          · rw [resolveSegs_append, hres, Option.some_bind,
                              resolveSegs, hlp']
                            dsimp only
                            rw [ht, hch]
                            dsimp only
                            have hmemcs : current.id ∈ cs := by
                              rw [hclist] at hmem
                              exact hmem
                            have hpredcur :
                                (match lookupNode doc.nodes current.id with
                                 | some cn => cn.key == some k
                                 | none => false) = true := by
                              rw [hcur]
                              dsimp only
                              rw [hk]
                              simp
                            have hsome : (cs.find? (fun childId =>
                                match lookupNode doc.nodes childId with
                                | some cn => cn.key == some k
                                | none => false)).isSome = true :=
                              List.find?_isSome.mpr ⟨current.id, hmemcs, hpredcur⟩
                            obtain ⟨c', hc'⟩ := Option.isSome_iff_exists.mp hsome
                            have hc'mem := List.mem_of_find?_eq_some hc'
                            have hc'pred := List.find?_some hc'
                            have hnd : (siblingKeys doc.nodes cs).Nodup := by
                              have := nodeWfAt_keys (docWf_at hwf hlp).1 ht
                              rw [hclist] at this
                              exact allDistinct_nodup _ this
                            have hfcur : (fun c =>
                                match lookupNode doc.nodes c with
                                | some cn => cn.key
                                | none => none) current.id = some k := by
                              dsimp only
                              rw [hcur]
                              dsimp only
                              exact hk
                            have hfc' : (fun c =>
                                match lookupNode doc.nodes c with
                                | some cn => cn.key
                                | none => none) c' = some k := by
                              dsimp only
                              cases hlc : lookupNode doc.nodes c' with
                              | none =>
                                  rw [hlc] at hc'pred
                                  simp at hc'pred
                              | some cn =>
                                  rw [hlc] at hc'pred
                                  simpa using hc'pred
                            have hceq : c' = current.id :=
                              nodup_filterMap_inj cs _ hnd c' hc'mem current.id hmemcs
                                k hfc' hfcur
                            rw [hc']
                            dsimp only
                            rw [resolveSegs, hceq]
              | string =>
                  rw [ht] at hb
                  exact absurd hb (by simp)
              | number =>
                  rw [ht] at hb
                  exact absurd hb (by simp)
              | boolean =>
                  rw [ht] at hb
                  exact absurd hb (by simp)
              | null =>
                  rw [ht] at hb
                  exact absurd hb (by simp)

/-- C4: in a Document satisfying the Document invariants (stored ids match
arena keys, children/parent links consistent with container types, keys
present under object parents, unique keys per object parent, parent chains
reaching the root — all packaged in the executable check docWf), resolving
the path built for any node present in the arena other than the root
yields that node's id:
resolvePathInDocument doc (buildPathInDocument doc n) = some n. -/
theorem C4_build_resolve_roundtrip (doc : JsonDocument) (hwf : docWf doc = true)
    (n : Nat) (node : JsonNode) (hn : lookupNode doc.nodes n = some node)
    (hnr : n ≠ doc.rootId) :
    resolvePathInDocument doc (buildPathInDocument doc n) = some n := by
  have hid : node.id = n := nodeWfAt_id (docWf_at hwf hn).1
  have hn' : lookupNode doc.nodes node.id = some node := by rw [hid]; exact hn
  have hchain : chainOk doc.nodes (doc.nodes.length + 1) n = true :=
    (docWf_at hwf hn).2
  have htot := build_total doc hwf (doc.nodes.length + 1) node hn'
    (by rw [hid]; exact hchain)
  obtain ⟨parts, hparts⟩ := Option.isSome_iff_exists.mp htot
  obtain ⟨segs, hdata, hres⟩ := build_spec doc hwf _ node parts hn' hparts
  unfold buildPathInDocument
  rw [hn]
  dsimp only
  rw [hparts]
  dsimp only
  have hdata' : ("$" ++ String.join parts.reverse).data = '$' :: renderSegs segs := by
    rw [String.data_append, hdata]
    rfl
  have heta : ("$" ++ String.join parts.reverse) = (⟨'$' :: renderSegs segs⟩ : String) := by
    rw [String.ext_iff]
    exact hdata'
  have htrim : jsTrim ("$" ++ String.join parts.reverse) =
      "$" ++ String.join parts.reverse := by
    rw [heta]
    apply jsTrim_eq_self
    · intro c hc
      rw [List.head?_cons] at hc
      rw [← Option.some.inj hc]
      decide
    · intro c hc
      cases hsegs : renderSegs segs with
      | nil =>
          rw [hsegs, List.getLast?_singleton] at hc
          rw [← Option.some.inj hc]
          decide
      | cons a tl =>
          rw [hsegs, List.getLast?_cons_cons] at hc
          refine renderSegs_getLast_not_ws segs c ?_
          rw [hsegs]
          exact hc
  have hparse : parseJsonPath ("$" ++ String.join parts.reverse) = some segs := by
    unfold parseJsonPath
    rw [htrim]
    dsimp only
    rw [hdata']
    have hfl : (renderSegs segs).length + 1 =
        segs.length + 1 + ((renderSegs segs).length - segs.length) := by
      have := renderSegs_length_ge segs
      omega
    split
    · rename_i rest heq
      rw [List.cons.injEq] at heq
      obtain ⟨-, hrest⟩ := heq
      rw [← hrest, hfl]
      exact parse_render segs _
    · rename_i hne
      exact absurd rfl (hne (renderSegs segs))
  unfold resolvePathInDocument
  rw [hparse]
  dsimp only
  rw [hres, hid]

theorem C4_build_resolve_roundtrip_witness :
    resolvePathInDocument c4doc (buildPathInDocument c4doc 1) = some 1 :=
  C4_build_resolve_roundtrip c4doc (by decide) 1
    { id := 1, type := .string, parentId := some 0, key := some "a b",
      value := .str "x" }
    rfl (by decide)

theorem distinctNat_nodup : ∀ l : List Nat, distinctNat l = true → l.Nodup := by
  intro l
  induction l with
  | nil => intro _; exact List.nodup_nil
  | cons k tl ih =>
      intro h
      rw [distinctNat] at h
      simp only [Bool.and_eq_true, Bool.not_eq_true'] at h
      rw [List.nodup_cons]
      refine ⟨?_, ih h.2⟩
      intro hmem
      have hc : tl.contains k = true := List.elem_iff.mpr hmem
      rw [h.1] at hc
      exact absurd hc (by decide)

theorem storeOk_at {s : StoreState} {rank : Nat → Nat} {doc : JsonDocument} {j : Nat}
    {n : JsonNode} (hok : storeOk s rank = true) (hdoc : s.document = some doc)
    (h : lookupNode doc.nodes j = some n) :
    n.id = j ∧ j < s.nextId ∧ rank j ≤ doc.nodes.length ∧
    (∀ p, n.parentId = some p →
      ∃ pn, lookupNode doc.nodes p = some pn ∧ j ∈ childList pn) ∧
    (childList n).Nodup ∧
    (∀ c ∈ childList n, ∃ cn, lookupNode doc.nodes c = some cn ∧
      cn.parentId = some j ∧ rank c < rank j) := by
  rw [storeOk, hdoc] at hok
  dsimp only at hok
  have hmem := lookup_mem h
  have hall := List.all_eq_true.mp hok (j, n) hmem
  dsimp only at hall
  simp only [Bool.and_eq_true, beq_iff_eq, decide_eq_true_eq] at hall
  obtain ⟨⟨⟨⟨⟨h1, h2⟩, h3⟩, h4⟩, h5⟩, h6⟩ := hall
  refine ⟨h1, h2, h3, ?_, distinctNat_nodup _ h5, ?_⟩
  · intro p hp
    rw [hp] at h4
    dsimp only at h4
    cases hlp : lookupNode doc.nodes p with
    | none =>
        rw [hlp] at h4
        simp at h4
    | some pn =>
        rw [hlp] at h4
        exact ⟨pn, rfl, List.elem_iff.mp h4⟩
  · intro c hc
    have h6c := List.all_eq_true.mp h6 c hc
    cases hlc : lookupNode doc.nodes c with
    | none =>
        rw [hlc] at h6c
        simp at h6c
    | some cn =>
        rw [hlc] at h6c
        dsimp only at h6c
        simp only [Bool.and_eq_true, beq_iff_eq, decide_eq_true_eq] at h6c
        exact ⟨cn, rfl, h6c.1, h6c.2⟩

theorem mem_descIds_self (m0 : NodeMap) : ∀ (fuel i : Nat), i ∈ descIds m0 fuel i := by
  intro fuel i
  cases fuel with
  | zero => simp [descIds]
  | succ f =>
      rw [descIds]
      cases h : lookupNode m0 i <;> simp

theorem descIds_rank_le (m0 : NodeMap) (rank : Nat → Nat)
    (hrank : ∀ j n, lookupNode m0 j = some n → ∀ c ∈ childList n, rank c < rank j) :
    ∀ (fuel c j : Nat), j ∈ descIds m0 fuel c → rank j ≤ rank c := by
  intro fuel
  induction fuel with
  | zero =>
      intro c j h
      rw [descIds, List.mem_singleton] at h
      subst h
      exact Nat.le_refl _
  | succ f ih =>
      intro c j h
      rw [descIds] at h
      cases hl : lookupNode m0 c with
      | none =>
          rw [hl, List.mem_singleton] at h
          subst h
          exact Nat.le_refl _
      | some n =>
          rw [hl] at h
          rcases List.mem_cons.mp h with rfl | h
          · exact Nat.le_refl _
          · rw [List.mem_flatMap] at h
            obtain ⟨c', hc', hj⟩ := h
            exact Nat.le_trans (ih c' j hj) (Nat.le_of_lt (hrank c n hl c' hc'))

theorem reachUp_extend (m0 : NodeMap) :
    ∀ {j i : Nat}, ReachUp m0 j i → ∀ {c : Nat} {cn : JsonNode},
      lookupNode m0 i = some cn → cn.parentId = some c → ReachUp m0 j c := by
  intro j i hr
  induction hr with
  | refl i' =>
      intro c cn hl hp
      exact ReachUp.step hl hp (ReachUp.refl c)
  | step hl' hp' hr' ih =>
      intro c cn hl hp
      exact ReachUp.step hl' hp' (ih hl hp)

theorem descIds_reachUp (m0 : NodeMap)
    (hchild : ∀ j n, lookupNode m0 j = some n → ∀ c ∈ childList n,
      ∃ cn, lookupNode m0 c = some cn ∧ cn.parentId = some j) :
    ∀ (fuel c j : Nat), j ∈ descIds m0 fuel c → ReachUp m0 j c := by
  intro fuel
  induction fuel with
  | zero =>
      intro c j h
      rw [descIds, List.mem_singleton] at h
      subst h
      exact ReachUp.refl _
  | succ f ih =>
      intro c j h
      rw [descIds] at h
      cases hl : lookupNode m0 c with
      | none =>
          rw [hl, List.mem_singleton] at h
          subst h
          exact ReachUp.refl _
      | some n =>
          rw [hl] at h
          rcases List.mem_cons.mp h with rfl | h
          · exact ReachUp.refl _
          · rw [List.mem_flatMap] at h
            obtain ⟨c', hc', hj⟩ := h
            obtain ⟨cn, hlc, hpc⟩ := hchild c n hl c' hc'
            exact reachUp_extend m0 (ih c' j hj) hlc hpc

theorem reachUp_linear (m0 : NodeMap) {j a : Nat} (h1 : ReachUp m0 j a) :
    ∀ {b : Nat}, ReachUp m0 j b → ReachUp m0 a b ∨ ReachUp m0 b a := by
  induction h1 with
  | refl i =>
      intro b h2
      exact Or.inl h2
  | step hl hp hr ih =>
      intro b h2
      cases h2 with
      | refl => exact Or.inr (ReachUp.step hl hp hr)
      | step hl2 hp2 hr2 =>
          have hnn := Option.some.inj (hl.symm.trans hl2)
          rw [← hnn] at hp2
          have hpq := Option.some.inj (hp.symm.trans hp2)
          rw [← hpq] at hr2
          exact ih hr2

theorem reachUp_rank_le (m0 : NodeMap) (rank : Nat → Nat)
    (hrank : ∀ j n, lookupNode m0 j = some n → ∀ c ∈ childList n, rank c < rank j)
    (hparent : ∀ j n p, lookupNode m0 j = some n → n.parentId = some p →
      ∃ pn, lookupNode m0 p = some pn ∧ j ∈ childList pn) :
    ∀ {a b : Nat}, ReachUp m0 a b → rank a ≤ rank b := by
  intro a b h
  induction h with
  | refl i => exact Nat.le_refl _
  | step hl hp hr ih =>
      obtain ⟨pn, hlp, hmem⟩ := hparent _ _ _ hl hp
      exact Nat.le_trans (Nat.le_of_lt (hrank _ _ hlp _ hmem)) ih

theorem desc_disjoint (m0 : NodeMap) (rank : Nat → Nat)
    (hchild : ∀ j n, lookupNode m0 j = some n → ∀ c ∈ childList n,
      ∃ cn, lookupNode m0 c = some cn ∧ cn.parentId = some j)
    (hrank : ∀ j n, lookupNode m0 j = some n → ∀ c ∈ childList n, rank c < rank j)
    (hparent : ∀ j n p, lookupNode m0 j = some n → n.parentId = some p →
      ∃ pn, lookupNode m0 p = some pn ∧ j ∈ childList pn)
    {P : Nat} {Pn : JsonNode} (hP : lookupNode m0 P = some Pn)
    {c1 c2 : Nat} (hc1 : c1 ∈ childList Pn) (hc2 : c2 ∈ childList Pn)
    (hne : c1 ≠ c2) {f1 f2 j : Nat}
    (h1 : j ∈ descIds m0 f1 c1) (h2 : j ∈ descIds m0 f2 c2) : False := by
  have r1 := descIds_reachUp m0 hchild f1 c1 j h1
  have r2 := descIds_reachUp m0 hchild f2 c2 j h2
  have key : ∀ {a b : Nat}, a ∈ childList Pn → b ∈ childList Pn → a ≠ b →
      ReachUp m0 a b → False := by
    intro a b ha hb hab hr
    cases hr with
    | refl => exact hab rfl
    | step hl hp hr' =>
        obtain ⟨cn, hlc, hpc⟩ := hchild P Pn hP a ha
        have hnn := Option.some.inj (hlc.symm.trans hl)
        rw [← hnn] at hp
        have hPq := Option.some.inj (hpc.symm.trans hp)
        rw [← hPq] at hr'
        have hle := reachUp_rank_le m0 rank hrank hparent hr'
        have hlt := hrank P Pn hP b hb
        omega
  rcases reachUp_linear m0 r1 r2 with h | h
  · exact key hc1 hc2 hne h
  · exact key hc2 hc1 (fun e => hne e.symm) h

theorem keysOf_nodup_setNode (m : NodeMap) (i : Nat) (n : JsonNode)
    (h : (keysOf m).Nodup) : (keysOf (setNode m i n)).Nodup := by
  unfold setNode
  by_cases hmem : m.any (fun p => p.1 == i) = true
  · rw [if_pos hmem]
    have heq : keysOf (m.map (fun p => if p.1 == i then (i, n) else p)) = keysOf m := by
      unfold keysOf
      rw [List.map_map]
      apply List.map_congr_left
      intro p _
      by_cases hp : p.1 = i
      · simp [hp]
      · simp [hp]
    rw [heq]
    exact h
  · rw [if_neg hmem]
    unfold keysOf
    rw [List.map_append, List.nodup_append]
    refine ⟨h, List.nodup_singleton _, ?_⟩
    intro a ha hb
    simp only [List.map_cons, List.map_nil, List.mem_singleton] at hb
    subst hb
    have hsome : (lookupNode m a).isSome = true := (mem_keysOf_iff m a).mp ha
    exact hmem ((lookupNode_any_iff m a).mpr hsome)

theorem collectPost_spec (m0 : NodeMap) (rank : Nat → Nat) (excl : Nat)
    (hchild : ∀ j n, lookupNode m0 j = some n → ∀ c ∈ childList n,
      ∃ cn, lookupNode m0 c = some cn ∧ cn.parentId = some j)
    (hrank : ∀ j n, lookupNode m0 j = some n → ∀ c ∈ childList n, rank c < rank j) :
    ∀ (fuel : Nat) (c : Nat) (acc : NodeMap),
      (lookupNode m0 c).isSome = true → rank c < fuel →
      (∀ j, lookupNode (collectSubtreePost m0 excl fuel c acc) j =
        if j ∈ descIds m0 fuel c ∧ j ≠ excl then lookupNode m0 j
        else lookupNode acc j) ∧
      ((keysOf acc).Nodup → (keysOf (collectSubtreePost m0 excl fuel c acc)).Nodup) := by
  intro fuel
  induction fuel with
  | zero =>
      intro c acc _ hrk
      exact absurd hrk (Nat.not_lt_zero _)
  | succ f ih =>
      intro c acc hex hrk
      obtain ⟨n, hn⟩ := Option.isSome_iff_exists.mp hex
      rw [collectSubtreePost, hn]
      dsimp only
      have hkids : ∀ c' ∈ childList n, (lookupNode m0 c').isSome = true ∧ rank c' < f := by
        intro c' hc'
        obtain ⟨cn, hlc, _⟩ := hchild c n hn c' hc'
        have := hrank c n hn c' hc'
        exact ⟨by rw [hlc]; rfl, by omega⟩
      have hfold : ∀ (cs : List Nat),
          (∀ c' ∈ cs, (lookupNode m0 c').isSome = true ∧ rank c' < f) →
          ∀ (acc0 : NodeMap),
          (∀ j, lookupNode (cs.foldl
              (fun a c' => collectSubtreePost m0 excl f c' a) acc0) j =
            if (∃ c' ∈ cs, j ∈ descIds m0 f c') ∧ j ≠ excl then lookupNode m0 j
            else lookupNode acc0 j) ∧
          ((keysOf acc0).Nodup → (keysOf (cs.foldl
              (fun a c' => collectSubtreePost m0 excl f c' a) acc0)).Nodup) := by
        intro cs
        induction cs with
        | nil =>
            intro _ acc0
            refine ⟨fun j => ?_, fun h => h⟩
            rw [if_neg (by simp)]
            rfl
        | cons c' cs' ihl =>
            intro hco acc0
            rw [List.foldl_cons]
            have hc' := hco c' (List.mem_cons_self _ _)
            have hone := ih c' acc0 hc'.1 hc'.2
            have hrest := ihl (fun x hx => hco x (List.mem_cons_of_mem _ hx))
              (collectSubtreePost m0 excl f c' acc0)
            refine ⟨fun j => ?_, fun hnd => hrest.2 (hone.2 hnd)⟩
            rw [hrest.1 j]
            by_cases hj2 : (∃ x ∈ cs', j ∈ descIds m0 f x) ∧ j ≠ excl
            · obtain ⟨⟨x, hx, hxd⟩, hne⟩ := hj2
              rw [if_pos ⟨⟨x, hx, hxd⟩, hne⟩,
                if_pos ⟨⟨x, List.mem_cons_of_mem _ hx, hxd⟩, hne⟩]
            · rw [if_neg hj2, hone.1 j]
              by_cases hj1 : j ∈ descIds m0 f c' ∧ j ≠ excl
              · rw [if_pos hj1,
                  if_pos ⟨⟨c', List.mem_cons_self _ _, hj1.1⟩, hj1.2⟩]
              · rw [if_neg hj1, if_neg ?_]
                intro hcon
                obtain ⟨⟨x, hx, hxd⟩, hne⟩ := hcon
                rcases List.mem_cons.mp hx with rfl | hx'
                · exact hj1 ⟨hxd, hne⟩
                · exact hj2 ⟨⟨x, hx', hxd⟩, hne⟩
      have hmain := hfold (childList n) hkids acc
      constructor
      · intro j
        rw [descIds, hn]
        dsimp only
        by_cases hce : c = excl
        · rw [if_pos hce, hmain.1 j]
          by_cases hj : (∃ c' ∈ childList n, j ∈ descIds m0 f c') ∧ j ≠ excl
          · obtain ⟨⟨x, hx, hxd⟩, hne⟩ := hj
            rw [if_pos ⟨⟨x, hx, hxd⟩, hne⟩,
              if_pos ⟨List.mem_cons_of_mem _ (List.mem_flatMap.mpr ⟨x, hx, hxd⟩), hne⟩]
          · rw [if_neg hj, if_neg ?_]
            intro hcon
            obtain ⟨hmem, hne⟩ := hcon
            rcases List.mem_cons.mp hmem with rfl | hmem'
            · exact hne hce
            · obtain ⟨x, hx, hxd⟩ := List.mem_flatMap.mp hmem'
              exact hj ⟨⟨x, hx, hxd⟩, hne⟩
        · rw [if_neg hce, lookupNode_setNode]
          by_cases hcj : c = j
          · subst hcj
            rw [if_pos rfl, if_pos ⟨List.mem_cons_self _ _, fun e => hce e⟩]
            exact hn.symm
          · rw [if_neg hcj, hmain.1 j]
            by_cases hj : (∃ c' ∈ childList n, j ∈ descIds m0 f c') ∧ j ≠ excl
            · obtain ⟨⟨x, hx, hxd⟩, hne⟩ := hj
              rw [if_pos ⟨⟨x, hx, hxd⟩, hne⟩,
                if_pos ⟨List.mem_cons_of_mem _ (List.mem_flatMap.mpr ⟨x, hx, hxd⟩), hne⟩]
            · rw [if_neg hj, if_neg ?_]
              intro hcon
              obtain ⟨hmem, hne⟩ := hcon
              rcases List.mem_cons.mp hmem with rfl | hmem'
              · exact hcj rfl
              · obtain ⟨x, hx, hxd⟩ := List.mem_flatMap.mp hmem'
                exact hj ⟨⟨x, hx, hxd⟩, hne⟩
      · intro hnd
        by_cases hce : c = excl
        · rw [if_pos hce]
          exact hmain.2 hnd
        · rw [if_neg hce]
          exact keysOf_nodup_setNode _ _ _ (hmain.2 hnd)

theorem collectPre_spec (m0 : NodeMap) (rank : Nat → Nat)
    (hchild : ∀ j n, lookupNode m0 j = some n → ∀ c ∈ childList n,
      ∃ cn, lookupNode m0 c = some cn ∧ cn.parentId = some j)
    (hrank : ∀ j n, lookupNode m0 j = some n → ∀ c ∈ childList n, rank c < rank j) :
    ∀ (fuel : Nat) (c : Nat) (acc : NodeMap),
      (lookupNode m0 c).isSome = true → rank c < fuel →
      (∀ j, lookupNode (collectSubtreePre m0 fuel c acc) j =
        if j ∈ descIds m0 fuel c then lookupNode m0 j else lookupNode acc j) ∧
      ((keysOf acc).Nodup → (keysOf (collectSubtreePre m0 fuel c acc)).Nodup) := by
  intro fuel
  induction fuel with
  | zero =>
      intro c acc _ hrk
      exact absurd hrk (Nat.not_lt_zero _)
  | succ f ih =>
      intro c acc hex hrk
      obtain ⟨n, hn⟩ := Option.isSome_iff_exists.mp hex
      rw [collectSubtreePre, hn]
      have hkids : ∀ c' ∈ childList n, (lookupNode m0 c').isSome = true ∧ rank c' < f := by
        intro c' hc'
        obtain ⟨cn, hlc, _⟩ := hchild c n hn c' hc'
        have := hrank c n hn c' hc'
        exact ⟨by rw [hlc]; rfl, by omega⟩
      have hfold : ∀ (cs : List Nat),
          (∀ c' ∈ cs, (lookupNode m0 c').isSome = true ∧ rank c' < f) →
          ∀ (acc0 : NodeMap),
          (∀ j, lookupNode (cs.foldl
              (fun a c' => collectSubtreePre m0 f c' a) acc0) j =
            if ∃ c' ∈ cs, j ∈ descIds m0 f c' then lookupNode m0 j
            else lookupNode acc0 j) ∧
          ((keysOf acc0).Nodup → (keysOf (cs.foldl
              (fun a c' => collectSubtreePre m0 f c' a) acc0)).Nodup) := by
        intro cs
        induction cs with
        | nil =>
            intro _ acc0
            refine ⟨fun j => ?_, fun h => h⟩
            rw [if_neg (by simp)]
            rfl
        | cons c' cs' ihl =>
            intro hco acc0
            rw [List.foldl_cons]
            have hc' := hco c' (List.mem_cons_self _ _)
            have hone := ih c' acc0 hc'.1 hc'.2
            have hrest := ihl (fun x hx => hco x (List.mem_cons_of_mem _ hx))
              (collectSubtreePre m0 f c' acc0)
            refine ⟨fun j => ?_, fun hnd => hrest.2 (hone.2 hnd)⟩
            rw [hrest.1 j]
            by_cases hj2 : ∃ x ∈ cs', j ∈ descIds m0 f x
            · obtain ⟨x, hx, hxd⟩ := hj2
              rw [if_pos ⟨x, hx, hxd⟩, if_pos ⟨x, List.mem_cons_of_mem _ hx, hxd⟩]
            · rw [if_neg hj2, hone.1 j]
              by_cases hj1 : j ∈ descIds m0 f c'
              · rw [if_pos hj1, if_pos ⟨c', List.mem_cons_self _ _, hj1⟩]
              · rw [if_neg hj1, if_neg ?_]
                intro hcon
                obtain ⟨x, hx, hxd⟩ := hcon
                rcases List.mem_cons.mp hx with rfl | hx'
                · exact hj1 hxd
                · exact hj2 ⟨x, hx', hxd⟩
      have hmain := hfold (childList n) hkids (setNode acc c (cloneNode n))
      constructor
      · intro j
        rw [descIds, hn]
        dsimp only
        rw [hmain.1 j]
        by_cases hj : ∃ c' ∈ childList n, j ∈ descIds m0 f c'
        · obtain ⟨x, hx, hxd⟩ := hj
          rw [if_pos ⟨x, hx, hxd⟩,
            if_pos (List.mem_cons_of_mem _ (List.mem_flatMap.mpr ⟨x, hx, hxd⟩))]
        · rw [if_neg hj, lookupNode_setNode]
          by_cases hcj : c = j
          · subst hcj
            rw [if_pos rfl, if_pos (List.mem_cons_self _ _)]
            exact hn.symm
          · rw [if_neg hcj, if_neg ?_]
            intro hmem
            rcases List.mem_cons.mp hmem with rfl | hmem'
            · exact hcj rfl
            · obtain ⟨x, hx, hxd⟩ := List.mem_flatMap.mp hmem'
              exact hj ⟨x, hx, hxd⟩
      · intro hnd
        exact hmain.2 (keysOf_nodup_setNode _ _ _ hnd)

theorem deleteRec_spec (m0 : NodeMap) (rank : Nat → Nat)
    (hchild : ∀ j n, lookupNode m0 j = some n → ∀ c ∈ childList n,
      ∃ cn, lookupNode m0 c = some cn ∧ cn.parentId = some j)
    (hrank : ∀ j n, lookupNode m0 j = some n → ∀ c ∈ childList n, rank c < rank j)
    (hparent : ∀ j n p, lookupNode m0 j = some n → n.parentId = some p →
      ∃ pn, lookupNode m0 p = some pn ∧ j ∈ childList pn)
    (hnodup : ∀ j n, lookupNode m0 j = some n → (childList n).Nodup) :
    ∀ (fuel c : Nat) (m : NodeMap),
      (lookupNode m0 c).isSome = true → rank c < fuel →
      (∀ j, j ∈ descIds m0 fuel c → lookupNode m j = lookupNode m0 j) →
      ∀ j, lookupNode (deleteRecursive fuel m c) j =
        if j ∈ descIds m0 fuel c then none else lookupNode m j := by
  intro fuel
  induction fuel with
  | zero =>
      intro c m _ hrk
      exact absurd hrk (Nat.not_lt_zero _)
  | succ f ih =>
      intro c m hex hrk hagree
      obtain ⟨n, hn⟩ := Option.isSome_iff_exists.mp hex
      have hmc : lookupNode m c = some n := by
        rw [hagree c (mem_descIds_self m0 _ c), hn]
      rw [deleteRecursive]
      simp only [hmc]
      cases hch : n.children with
      | none =>
          have hcl : childList n = [] := by rw [childList, hch]; rfl
          intro j
          rw [lookupNode_eraseNode, descIds]
          simp only [hn, hcl, List.flatMap_nil]
          by_cases hcj : c = j
          · subst hcj
            rw [if_pos rfl, if_pos (by simp)]
          · rw [if_neg hcj, if_neg ?_]
            intro hmem
            rcases List.mem_cons.mp hmem with rfl | hmem'
            · exact hcj rfl
            · simp at hmem'
      | some cs =>
          have hcl : childList n = cs := by rw [childList, hch]; rfl
          have hkids : ∀ c' ∈ cs, (lookupNode m0 c').isSome = true ∧ rank c' < f := by
            intro c' hc'
            obtain ⟨cn, hlc, _⟩ := hchild c n hn c' (hcl ▸ hc')
            have := hrank c n hn c' (hcl ▸ hc')
            exact ⟨by rw [hlc]; rfl, by omega⟩
          have hnodupcs : cs.Nodup := hcl ▸ hnodup c n hn
          have hdisj : ∀ c1 ∈ cs, ∀ c2 ∈ cs, c1 ≠ c2 → ∀ (f1 f2 j : Nat),
              j ∈ descIds m0 f1 c1 → j ∈ descIds m0 f2 c2 → False := by
            intro c1 hc1 c2 hc2 hne f1 f2 j h1 h2
            exact desc_disjoint m0 rank hchild hrank hparent hn
              (hcl ▸ hc1) (hcl ▸ hc2) hne h1 h2
          have hfold : ∀ (l : List Nat) (mm : NodeMap),
              l.Nodup → (∀ c' ∈ l, c' ∈ cs) →
              (∀ j, (∃ c' ∈ l, j ∈ descIds m0 f c') →
                lookupNode mm j = lookupNode m0 j) →
              ∀ j, lookupNode (l.foldl (fun acc c' => deleteRecursive f acc c') mm) j =
                if ∃ c' ∈ l, j ∈ descIds m0 f c' then none else lookupNode mm j := by
            intro l
            induction l with
            | nil =>
                intro mm _ _ _ j
                rw [if_neg (by simp)]
                rfl
            | cons c' l' ihl =>
                intro mm hnd hsub hagr j
                rw [List.foldl_cons]
                rw [List.nodup_cons] at hnd
                have hc'cs := hsub c' (List.mem_cons_self _ _)
                have hone := ih c' mm (hkids c' hc'cs).1 (hkids c' hc'cs).2
                  (fun x hx => hagr x ⟨c', List.mem_cons_self _ _, hx⟩)
                have hagr' : ∀ j, (∃ x ∈ l', j ∈ descIds m0 f x) →
                    lookupNode (deleteRecursive f mm c') j = lookupNode m0 j := by
                  intro x hx
                  obtain ⟨y, hy, hyd⟩ := hx
                  rw [hone x]
                  rw [if_neg ?_]
                  · exact hagr x ⟨y, List.mem_cons_of_mem _ hy, hyd⟩
                  · intro hxd
                    exact hdisj c' hc'cs y (hsub y (List.mem_cons_of_mem _ hy))
                      (fun e => hnd.1 (e ▸ hy)) f f x hxd hyd
                rw [ihl (deleteRecursive f mm c') hnd.2
                  (fun x hx => hsub x (List.mem_cons_of_mem _ hx)) hagr' j]
                by_cases hj2 : ∃ x ∈ l', j ∈ descIds m0 f x
                · obtain ⟨x, hx, hxd⟩ := hj2
                  rw [if_pos ⟨x, hx, hxd⟩, if_pos ⟨x, List.mem_cons_of_mem _ hx, hxd⟩]
                · rw [if_neg hj2, hone j]
                  by_cases hj1 : j ∈ descIds m0 f c'
                  · rw [if_pos hj1, if_pos ⟨c', List.mem_cons_self _ _, hj1⟩]
                  · rw [if_neg hj1, if_neg ?_]
                    intro hcon
                    obtain ⟨x, hx, hxd⟩ := hcon
                    rcases List.mem_cons.mp hx with rfl | hx'
                    · exact hj1 hxd
                    · exact hj2 ⟨x, hx', hxd⟩
          have hmain := hfold cs m hnodupcs (fun x hx => hx)
            (fun x hx => by
              obtain ⟨y, hy, hyd⟩ := hx
              refine hagree x ?_
              rw [descIds]
              simp only [hn, hcl]
              exact List.mem_cons_of_mem _ (List.mem_flatMap.mpr ⟨y, hy, hyd⟩))
          intro j
          rw [lookupNode_eraseNode]
          by_cases hcj : c = j
          · subst hcj
            rw [if_pos rfl, if_pos (mem_descIds_self m0 _ c)]
          · rw [if_neg hcj, hmain j, descIds]
            simp only [hn, hcl]
            by_cases hj : ∃ x ∈ cs, j ∈ descIds m0 f x
            · obtain ⟨x, hx, hxd⟩ := hj
              rw [if_pos ⟨x, hx, hxd⟩,
                if_pos (List.mem_cons_of_mem _ (List.mem_flatMap.mpr ⟨x, hx, hxd⟩))]
            · rw [if_neg hj, if_neg ?_]
              intro hmem
              rcases List.mem_cons.mp hmem with rfl | hmem'
              · exact hcj rfl
              · obtain ⟨x, hx, hxd⟩ := List.mem_flatMap.mp hmem'
                exact hj ⟨x, hx, hxd⟩

theorem filter_ne_of_not_mem (cs : List Nat) (x : Nat) (hx : x ∉ cs) :
    cs.filter (fun c => c ≠ x) = cs := by
  apply List.filter_eq_self.mpr
  intro a ha
  exact decide_eq_true (fun e => hx (e ▸ ha))

theorem filter_insertIdx_restore : ∀ (cs : List Nat) (x i : Nat), cs.Nodup →
    listIndexOf cs x = some i →
    (cs.filter (fun c => c ≠ x)).insertIdx i x = cs := by
  intro cs
  induction cs with
  | nil => intro x i _ h; simp [listIndexOf] at h
  | cons y tl ih =>
      intro x i hnd h
      rw [List.nodup_cons] at hnd
      rw [listIndexOf] at h
      by_cases hxy : y = x
      · rw [if_pos hxy] at h
        obtain rfl : (0 : Nat) = i := Option.some.inj h
        subst hxy
        rw [List.filter_cons, if_neg (by simp), filter_ne_of_not_mem tl y hnd.1]
        rfl
      · rw [if_neg hxy] at h
        cases hr : listIndexOf tl x with
        | none => rw [hr] at h; simp at h
        | some j =>
            rw [hr, Option.map_some'] at h
            obtain rfl : j + 1 = i := Option.some.inj h
            rw [List.filter_cons, if_pos (by rw [decide_eq_true_eq]; exact hxy),
              List.insertIdx_succ_cons, ih x j hnd.2 hr]

theorem insertIdx_eraseIdx_getD : ∀ (l : List Nat) (n : Nat), n < l.length →
    (l.eraseIdx n).insertIdx n (l.getD n 0) = l := by
  intro l
  induction l with
  | nil => intro n h; simp at h
  | cons y tl ih =>
      intro n h
      cases n with
      | zero => rfl
      | succ k =>
          rw [List.eraseIdx_cons_succ, List.getD_cons_succ, List.insertIdx_succ_cons,
            ih k (by simpa using h)]

theorem moveListItem_length (cs : List Nat) (f t : Int)
    (h : moveListItemValid cs f t = true) :
    (moveListItem cs f t).length = cs.length := by
  have hv := h
  unfold moveListItemValid at hv
  rw [decide_eq_true_eq] at hv
  obtain ⟨h0f, h0t, hfl, htl, hft⟩ := hv
  unfold moveListItem
  rw [if_pos h]
  have hfn : f.toNat < cs.length := by omega
  have htn : t.toNat ≤ cs.length - 1 := by omega
  rw [List.length_insertIdx _ _ (by rw [List.length_eraseIdx, if_pos hfn]; exact htn),
    List.length_eraseIdx, if_pos hfn]
  omega

theorem moveListItem_inverse (cs : List Nat) (f t : Int)
    (h : moveListItemValid cs f t = true) :
    moveListItemValid (moveListItem cs f t) t f = true ∧
    moveListItem (moveListItem cs f t) t f = cs := by
  have hv := h
  unfold moveListItemValid at hv
  rw [decide_eq_true_eq] at hv
  obtain ⟨h0f, h0t, hfl, htl, hft⟩ := hv
  have hlen := moveListItem_length cs f t h
  have hvalid2 : moveListItemValid (moveListItem cs f t) t f = true := by
    unfold moveListItemValid
    rw [decide_eq_true_eq, hlen]
    exact ⟨h0t, h0f, htl, hfl, fun e => hft e.symm⟩
  refine ⟨hvalid2, ?_⟩
  have hfn : f.toNat < cs.length := by omega
  have htn : t.toNat ≤ cs.length - 1 := by omega
  have hmoved : moveListItem cs f t =
      (cs.eraseIdx f.toNat).insertIdx t.toNat (cs.getD f.toNat 0) := by
    unfold moveListItem
    rw [if_pos h]
  rw [hmoved] at hvalid2 ⊢
  unfold moveListItem
  rw [if_pos hvalid2]
  have htn' : t.toNat ≤ (cs.eraseIdx f.toNat).length := by
    rw [List.length_eraseIdx, if_pos hfn]
    exact htn
  rw [List.eraseIdx_insertIdx]
  have hget : (((cs.eraseIdx f.toNat).insertIdx t.toNat
      (cs.getD f.toNat 0))).getD t.toNat 0 = cs.getD f.toNat 0 := by
    rw [List.getD_eq_getElem _ _ (by
      rw [List.length_insertIdx _ _ htn', List.length_eraseIdx, if_pos hfn]
      omega)]
    exact List.getElem_insertIdx_self _ _ _ htn'
  rw [hget, insertIdx_eraseIdx_getD cs f.toNat hfn]

theorem descIds_exists (m0 : NodeMap)
    (hchild : ∀ j n, lookupNode m0 j = some n → ∀ c ∈ childList n,
      ∃ cn, lookupNode m0 c = some cn ∧ cn.parentId = some j) :
    ∀ (fuel c : Nat), (lookupNode m0 c).isSome = true →
      ∀ j ∈ descIds m0 fuel c, (lookupNode m0 j).isSome = true := by
  intro fuel
  induction fuel with
  | zero =>
      intro c hex j hj
      rw [descIds, List.mem_singleton] at hj
      subst hj
      exact hex
  | succ f ih =>
      intro c hex j hj
      obtain ⟨n, hn⟩ := Option.isSome_iff_exists.mp hex
      rw [descIds] at hj
      simp only [hn] at hj
      rcases List.mem_cons.mp hj with rfl | hj'
      · exact hex
      · obtain ⟨x, hx, hxd⟩ := List.mem_flatMap.mp hj'
        obtain ⟨cn, hlc, _⟩ := hchild c n hn x hx
        exact ih x (by rw [hlc]; rfl) j hxd

theorem listIndexOf_mem (l : List Nat) (x i : Nat) (h : listIndexOf l x = some i) :
    x ∈ l := by
  obtain ⟨hlt, hget⟩ := listIndexOf_spec l x i h
  rw [List.getD_eq_getElem _ _ hlt] at hget
  rw [← hget]
  exact List.getElem_mem _

theorem collectPost_fold_spec (m0 : NodeMap) (rank : Nat → Nat) (excl : Nat)
    (hchild : ∀ j n, lookupNode m0 j = some n → ∀ c ∈ childList n,
      ∃ cn, lookupNode m0 c = some cn ∧ cn.parentId = some j)
    (hrank : ∀ j n, lookupNode m0 j = some n → ∀ c ∈ childList n, rank c < rank j)
    (f : Nat) :
    ∀ (cs : List Nat), (∀ c' ∈ cs, (lookupNode m0 c').isSome = true ∧ rank c' < f) →
    ∀ (acc0 : NodeMap),
      (∀ j, lookupNode (cs.foldl
          (fun a c' => collectSubtreePost m0 excl f c' a) acc0) j =
        if (∃ c' ∈ cs, j ∈ descIds m0 f c') ∧ j ≠ excl then lookupNode m0 j
        else lookupNode acc0 j) ∧
      ((keysOf acc0).Nodup → (keysOf (cs.foldl
          (fun a c' => collectSubtreePost m0 excl f c' a) acc0)).Nodup) := by
  intro cs
  induction cs with
  | nil =>
      intro _ acc0
      refine ⟨fun j => ?_, fun h => h⟩
      rw [if_neg (by simp)]
      rfl
  | cons c' cs' ihl =>
      intro hco acc0
      rw [List.foldl_cons]
      have hc' := hco c' (List.mem_cons_self _ _)
      have hone := collectPost_spec m0 rank excl hchild hrank f c' acc0 hc'.1 hc'.2
      have hrest := ihl (fun x hx => hco x (List.mem_cons_of_mem _ hx))
        (collectSubtreePost m0 excl f c' acc0)
      refine ⟨fun j => ?_, fun hnd => hrest.2 (hone.2 hnd)⟩
      rw [hrest.1 j]
      by_cases hj2 : (∃ x ∈ cs', j ∈ descIds m0 f x) ∧ j ≠ excl
      · obtain ⟨⟨x, hx, hxd⟩, hne⟩ := hj2
        rw [if_pos ⟨⟨x, hx, hxd⟩, hne⟩,
          if_pos ⟨⟨x, List.mem_cons_of_mem _ hx, hxd⟩, hne⟩]
      · rw [if_neg hj2, hone.1 j]
        by_cases hj1 : j ∈ descIds m0 f c' ∧ j ≠ excl
        · rw [if_pos hj1, if_pos ⟨⟨c', List.mem_cons_self _ _, hj1.1⟩, hj1.2⟩]
        · rw [if_neg hj1, if_neg ?_]
          intro hcon
          obtain ⟨⟨x, hx, hxd⟩, hne⟩ := hcon
          rcases List.mem_cons.mp hx with rfl | hx'
          · exact hj1 ⟨hxd, hne⟩
          · exact hj2 ⟨⟨x, hx', hxd⟩, hne⟩

theorem collectPre_fold_spec (m0 : NodeMap) (rank : Nat → Nat)
    (hchild : ∀ j n, lookupNode m0 j = some n → ∀ c ∈ childList n,
      ∃ cn, lookupNode m0 c = some cn ∧ cn.parentId = some j)
    (hrank : ∀ j n, lookupNode m0 j = some n → ∀ c ∈ childList n, rank c < rank j)
    (f : Nat) :
    ∀ (cs : List Nat), (∀ c' ∈ cs, (lookupNode m0 c').isSome = true ∧ rank c' < f) →
    ∀ (acc0 : NodeMap),
      (∀ j, lookupNode (cs.foldl
          (fun a c' => collectSubtreePre m0 f c' a) acc0) j =
        if ∃ c' ∈ cs, j ∈ descIds m0 f c' then lookupNode m0 j
        else lookupNode acc0 j) ∧
      ((keysOf acc0).Nodup → (keysOf (cs.foldl
          (fun a c' => collectSubtreePre m0 f c' a) acc0)).Nodup) := by
  intro cs
  induction cs with
  | nil =>
      intro _ acc0
      refine ⟨fun j => ?_, fun h => h⟩
      rw [if_neg (by simp)]
      rfl
  | cons c' cs' ihl =>
      intro hco acc0
      rw [List.foldl_cons]
      have hc' := hco c' (List.mem_cons_self _ _)
      have hone := collectPre_spec m0 rank hchild hrank f c' acc0 hc'.1 hc'.2
      have hrest := ihl (fun x hx => hco x (List.mem_cons_of_mem _ hx))
        (collectSubtreePre m0 f c' acc0)
      refine ⟨fun j => ?_, fun hnd => hrest.2 (hone.2 hnd)⟩
      rw [hrest.1 j]
      by_cases hj2 : ∃ x ∈ cs', j ∈ descIds m0 f x
      · obtain ⟨x, hx, hxd⟩ := hj2
        rw [if_pos ⟨x, hx, hxd⟩, if_pos ⟨x, List.mem_cons_of_mem _ hx, hxd⟩]
      · rw [if_neg hj2, hone.1 j]
        by_cases hj1 : j ∈ descIds m0 f c'
        · rw [if_pos hj1, if_pos ⟨c', List.mem_cons_self _ _, hj1⟩]
        · rw [if_neg hj1, if_neg ?_]
          intro hcon
          obtain ⟨x, hx, hxd⟩ := hcon
          rcases List.mem_cons.mp hx with rfl | hx'
          · exact hj1 hxd
          · exact hj2 ⟨x, hx', hxd⟩

theorem undo_redo_updateValue (m0 : NodeMap) (id : Nat) (node : JsonNode) (v : JsonPrim)
    (hn : lookupNode m0 id = some node) :
    (∀ j, lookupNode (undoApplyNodes (.updateValue id node.value v)
      (setNode m0 id { node with value := v })) j = lookupNode m0 j) ∧
    (∀ j, lookupNode (redoApplyNodes (.updateValue id node.value v)
      (undoApplyNodes (.updateValue id node.value v)
        (setNode m0 id { node with value := v }))) j =
      lookupNode (setNode m0 id { node with value := v }) j) := by
  have hlu : lookupNode (setNode m0 id { node with value := v }) id =
      some { node with value := v } := by
    rw [lookupNode_setNode, if_pos rfl]
  have hU : undoApplyNodes (.updateValue id node.value v)
      (setNode m0 id { node with value := v }) =
      setNode (setNode m0 id { node with value := v }) id node := by
    rw [undoApplyNodes]
    simp only [hlu]
  constructor
  · intro j
    rw [hU]
    simp only [lookupNode_setNode]
    by_cases hij : id = j
    · subst hij
      simp [hn]
    · simp [hij]
  · intro j
    rw [hU]
    have hlu2 : lookupNode (setNode (setNode m0 id { node with value := v }) id node)
        id = some node := by
      rw [lookupNode_setNode, if_pos rfl]
    rw [redoApplyNodes]
    simp only [hlu2]
    simp only [lookupNode_setNode]
    by_cases hij : id = j
    · subst hij
      simp
    · simp [hij]

theorem undo_redo_renameKey (m0 : NodeMap) (id : Nat) (node : JsonNode) (uk : String)
    (hn : lookupNode m0 id = some node) :
    (∀ j, lookupNode (undoApplyNodes (.renameKey id node.key uk)
      (setNode m0 id { node with key := some uk })) j = lookupNode m0 j) ∧
    (∀ j, lookupNode (redoApplyNodes (.renameKey id node.key uk)
      (undoApplyNodes (.renameKey id node.key uk)
        (setNode m0 id { node with key := some uk }))) j =
      lookupNode (setNode m0 id { node with key := some uk }) j) := by
  have hlu : lookupNode (setNode m0 id { node with key := some uk }) id =
      some { node with key := some uk } := by
    rw [lookupNode_setNode, if_pos rfl]
  have hU : undoApplyNodes (.renameKey id node.key uk)
      (setNode m0 id { node with key := some uk }) =
      setNode (setNode m0 id { node with key := some uk }) id node := by
    rw [undoApplyNodes]
    simp only [hlu]
  constructor
  · intro j
    rw [hU]
    simp only [lookupNode_setNode]
    by_cases hij : id = j
    · subst hij
      simp [hn]
    · simp [hij]
  · intro j
    rw [hU]
    have hlu2 : lookupNode (setNode (setNode m0 id { node with key := some uk }) id node)
        id = some node := by
      rw [lookupNode_setNode, if_pos rfl]
    rw [redoApplyNodes]
    simp only [hlu2]
    simp only [lookupNode_setNode]
    by_cases hij : id = j
    · subst hij
      simp
    · simp [hij]

theorem undo_redo_move (m0 : NodeMap) (pid : Nat) (parent : JsonNode) (cs : List Nat)
    (f t : Int) (hp : lookupNode m0 pid = some parent)
    (htp : parent.type = JsonNodeType.array)
    (hch : parent.children = some cs) (hv : moveListItemValid cs f t = true) :
    (∀ j, lookupNode (undoApplyNodes (.moveArrayItem pid f t)
      (setNode m0 pid { parent with children := some (moveListItem cs f t) })) j =
      lookupNode m0 j) ∧
    (∀ j, lookupNode (redoApplyNodes (.moveArrayItem pid f t)
      (undoApplyNodes (.moveArrayItem pid f t)
        (setNode m0 pid
          { parent with children := some (moveListItem cs f t) }))) j =
      lookupNode (setNode m0 pid
        { parent with children := some (moveListItem cs f t) }) j) := by
  obtain ⟨hv2, hinv⟩ := moveListItem_inverse cs f t hv
  have hlu : lookupNode (setNode m0 pid
      { parent with children := some (moveListItem cs f t) }) pid =
      some { parent with children := some (moveListItem cs f t) } := by
    rw [lookupNode_setNode, if_pos rfl]
  have hU : undoApplyNodes (.moveArrayItem pid f t)
      (setNode m0 pid { parent with children := some (moveListItem cs f t) }) =
      setNode (setNode m0 pid { parent with children := some (moveListItem cs f t) })
        pid { parent with children := some cs } := by
    rw [undoApplyNodes]
    simp only [hlu]
    simp only [htp]
    rw [if_pos hv2, hinv]
  constructor
  · intro j
    rw [hU]
    simp only [lookupNode_setNode]
    by_cases hij : pid = j
    · subst hij
      rw [if_pos rfl, hp, ← hch]
    · simp [hij]
  · intro j
    rw [hU]
    have hlu2 : lookupNode (setNode (setNode m0 pid
        { parent with children := some (moveListItem cs f t) }) pid
        { parent with children := some cs }) pid =
        some { parent with children := some cs } := by
      rw [lookupNode_setNode, if_pos rfl]
    rw [redoApplyNodes]
    simp only [hlu2]
    simp only [htp]
    rw [if_pos hv]
    simp only [lookupNode_setNode]
    by_cases hij : pid = j
    · subst hij
      rw [if_pos rfl, if_pos rfl]
    · simp [hij]

theorem undo_redo_addNode (m0 : NodeMap) (pid : Nat) (parent : JsonNode) (cs : List Nat)
    (newNode : JsonNode)
    (hp : lookupNode m0 pid = some parent) (hch : parent.children = some cs)
    (hfresh : lookupNode m0 newNode.id = none)
    (hne : newNode.id ≠ pid) (hcs : newNode.id ∉ cs) :
    (∀ j, lookupNode (undoApplyNodes (.addNode pid newNode)
      (setNode (setNode m0 newNode.id newNode) pid
        { parent with children := some (cs ++ [newNode.id]) })) j = lookupNode m0 j) ∧
    (∀ j, lookupNode (redoApplyNodes (.addNode pid newNode)
      (undoApplyNodes (.addNode pid newNode)
        (setNode (setNode m0 newNode.id newNode) pid
          { parent with children := some (cs ++ [newNode.id]) }))) j =
      lookupNode (setNode (setNode m0 newNode.id newNode) pid
        { parent with children := some (cs ++ [newNode.id]) }) j) := by
  have hlu : lookupNode (setNode (setNode m0 newNode.id newNode) pid
      { parent with children := some (cs ++ [newNode.id]) }) pid =
      some { parent with children := some (cs ++ [newNode.id]) } := by
    rw [lookupNode_setNode, if_pos rfl]
  have hfilter : (cs ++ [newNode.id]).filter (fun cid => cid ≠ newNode.id) = cs := by
    rw [List.filter_append, filter_ne_of_not_mem cs newNode.id hcs]
    simp
  have hU : undoApplyNodes (.addNode pid newNode)
      (setNode (setNode m0 newNode.id newNode) pid
        { parent with children := some (cs ++ [newNode.id]) }) =
      eraseNode (setNode (setNode (setNode m0 newNode.id newNode) pid
        { parent with children := some (cs ++ [newNode.id]) }) pid
        { parent with children := some cs }) newNode.id := by
    rw [undoApplyNodes]
    simp only [hlu]
    rw [hfilter]
  constructor
  · intro j
    rw [hU, lookupNode_eraseNode]
    simp only [lookupNode_setNode]
    by_cases hnj : newNode.id = j
    · subst hnj
      rw [if_pos rfl, hfresh]
    · rw [if_neg hnj]
      by_cases hpj : pid = j
      · subst hpj
        rw [if_pos rfl, hp, ← hch]
      · simp [hpj, hnj]
  · intro j
    rw [hU]
    have hlu2 : lookupNode (eraseNode (setNode (setNode (setNode m0 newNode.id newNode)
        pid { parent with children := some (cs ++ [newNode.id]) }) pid
        { parent with children := some cs }) newNode.id) pid =
        some { parent with children := some cs } := by
      rw [lookupNode_eraseNode, if_neg hne, lookupNode_setNode, if_pos rfl]
    rw [redoApplyNodes]
    simp only [hlu2]
    simp only [lookupNode_setNode, lookupNode_eraseNode]
    by_cases hnj : newNode.id = j
    · subst hnj
      rw [if_pos rfl, if_neg (fun e => hne e.symm), if_pos rfl]
    · rw [if_neg hnj]
      by_cases hpj : pid = j
      · subst hpj
        rw [if_pos rfl, if_pos rfl]
      · simp [hpj, hnj]

theorem undo_redo_changeType (m0 : NodeMap) (rank : Nat → Nat)
    (hchild : ∀ j n, lookupNode m0 j = some n → ∀ c ∈ childList n,
      ∃ cn, lookupNode m0 c = some cn ∧ cn.parentId = some j)
    (hrank : ∀ j n, lookupNode m0 j = some n → ∀ c ∈ childList n, rank c < rank j)
    (id : Nat) (node newNode : JsonNode) (subtree : NodeMap)
    (hn : lookupNode m0 id = some node)
    (hsub : ∀ j, lookupNode subtree j =
      if ∃ c ∈ childList node, j ∈ descIds m0 (m0.length + 1) c then lookupNode m0 j
      else none)
    (hsubnd : (keysOf subtree).Nodup) :
    (∀ j, lookupNode (undoApplyNodes (.changeType id node newNode subtree)
      ((keysOf subtree).foldl eraseNode (setNode m0 id newNode))) j =
      lookupNode m0 j) ∧
    (∀ j, lookupNode (redoApplyNodes (.changeType id node newNode subtree)
      (undoApplyNodes (.changeType id node newNode subtree)
        ((keysOf subtree).foldl eraseNode (setNode m0 id newNode)))) j =
      lookupNode ((keysOf subtree).foldl eraseNode (setNode m0 id newNode)) j) := by
  have hkidsex : ∀ c ∈ childList node, (lookupNode m0 c).isSome = true := by
    intro c hc
    obtain ⟨cn, hlc, _⟩ := hchild id node hn c hc
    rw [hlc]
    rfl
  have hPex : ∀ j, (∃ c ∈ childList node, j ∈ descIds m0 (m0.length + 1) c) →
      (lookupNode m0 j).isSome = true := by
    rintro j ⟨c, hc, hj⟩
    exact descIds_exists m0 hchild _ c (hkidsex c hc) j hj
  have hcont : ∀ j, ((keysOf subtree).contains j = true) ↔
      (∃ c ∈ childList node, j ∈ descIds m0 (m0.length + 1) c) := by
    intro j
    rw [List.elem_iff, mem_keysOf_iff, hsub j]
    constructor
    · intro hs
      by_cases hPj : ∃ c ∈ childList node, j ∈ descIds m0 (m0.length + 1) c
      · exact hPj
      · rw [if_neg hPj] at hs
        exact absurd hs (by decide)
    · intro hPj
      rw [if_pos hPj]
      exact hPex j hPj
  have hPid : ¬ (∃ c ∈ childList node, id ∈ descIds m0 (m0.length + 1) c) := by
    rintro ⟨c, hc, hj⟩
    have h1 := descIds_rank_le m0 rank hrank _ c id hj
    have h2 := hrank id node hn c hc
    omega
  constructor
  · intro j
    rw [undoApplyNodes]
    rw [lookupNode_assignAll_of_nodup _ _ _ hsubnd, hsub j]
    by_cases hPj : ∃ c ∈ childList node, j ∈ descIds m0 (m0.length + 1) c
    · rw [if_pos hPj]
      obtain ⟨v, hv⟩ := Option.isSome_iff_exists.mp (hPex j hPj)
      rw [hv]
      exact Option.or_some
    · rw [if_neg hPj, Option.none_or, lookupNode_setNode]
      by_cases hij : id = j
      · subst hij
        rw [if_pos rfl]
        exact hn.symm
      · rw [if_neg hij, lookupNode_eraseList,
          if_neg (fun hc => hPj ((hcont j).mp hc)), lookupNode_setNode, if_neg hij]
  · intro j
    rw [redoApplyNodes, lookupNode_eraseList, lookupNode_eraseList]
    by_cases hc : (keysOf subtree).contains j = true
    · rw [if_pos hc, if_pos hc]
    · rw [if_neg hc, if_neg hc, lookupNode_setNode, lookupNode_setNode]
      by_cases hij : id = j
      · rw [if_pos hij, if_pos hij]
        exact rfl
      · rw [if_neg hij, if_neg hij, undoApplyNodes,
          lookupNode_assignAll_of_nodup _ _ _ hsubnd, hsub j,
          if_neg (fun hPj => hc ((hcont j).mpr hPj)), Option.none_or,
          lookupNode_setNode, if_neg hij, lookupNode_eraseList, if_neg hc,
          lookupNode_setNode, if_neg hij]

theorem flatMap_congr_mem {α β : Type} {f g : α → List β} :
    ∀ (l : List α), (∀ a ∈ l, f a = g a) → l.flatMap f = l.flatMap g
  | [], _ => rfl
  | a :: tl, h => by
      rw [List.flatMap_cons, List.flatMap_cons, h a (List.mem_cons_self _ _),
        flatMap_congr_mem tl (fun x hx => h x (List.mem_cons_of_mem _ hx))]

theorem descIds_stable (m0 : NodeMap) (rank : Nat → Nat)
    (hchild : ∀ j n, lookupNode m0 j = some n → ∀ c ∈ childList n,
      ∃ cn, lookupNode m0 c = some cn ∧ cn.parentId = some j)
    (hrank : ∀ j n, lookupNode m0 j = some n → ∀ c ∈ childList n, rank c < rank j) :
    ∀ (f1 f2 c : Nat), rank c < f1 → rank c < f2 →
      descIds m0 f1 c = descIds m0 f2 c := by
  intro f1
  induction f1 with
  | zero =>
      intro f2 c h1
      exact absurd h1 (Nat.not_lt_zero _)
  | succ a ih =>
      intro f2 c h1 h2
      cases f2 with
      | zero => exact absurd h2 (Nat.not_lt_zero _)
      | succ b =>
          rw [descIds, descIds]
          cases hl : lookupNode m0 c with
          | none => rfl
          | some n =>
              dsimp only
              congr 1
              apply flatMap_congr_mem
              intro x hx
              have hx1 := hrank c n hl x hx
              exact ih b x (by omega) (by omega)

theorem undo_redo_deleteNode (m0 : NodeMap) (rank : Nat → Nat)
    (hchild : ∀ j n, lookupNode m0 j = some n → ∀ c ∈ childList n,
      ∃ cn, lookupNode m0 c = some cn ∧ cn.parentId = some j)
    (hrank : ∀ j n, lookupNode m0 j = some n → ∀ c ∈ childList n, rank c < rank j)
    (hparent : ∀ j n p, lookupNode m0 j = some n → n.parentId = some p →
      ∃ pn, lookupNode m0 p = some pn ∧ j ∈ childList pn)
    (hnodup : ∀ j n, lookupNode m0 j = some n → (childList n).Nodup)
    (id pid index : Nat) (node parent : JsonNode) (cs : List Nat) (subtree : NodeMap)
    (hn : lookupNode m0 id = some node)
    (hnid : node.id = id)
    (hp : lookupNode m0 pid = some parent)
    (hparid : parent.id = pid)
    (hch : parent.children = some cs)
    (hidx : listIndexOf cs id = some index)
    (hrkb : rank id ≤ m0.length)
    (hsub : ∀ j, lookupNode subtree j =
      if (∃ c ∈ childList node, j ∈ descIds m0 (m0.length + 1) c) ∧ j ≠ id
      then lookupNode m0 j else none)
    (hsubnd : (keysOf subtree).Nodup) :
    (∀ j, lookupNode (undoApplyNodes (.deleteNode pid index node subtree)
      (setNode (deleteRecursive (m0.length + 1) m0 id) parent.id
        { parent with children := some (cs.filter (fun childId => childId ≠ id)) })) j =
      lookupNode m0 j) ∧
    (∀ j, lookupNode (redoApplyNodes (.deleteNode pid index node subtree)
      (undoApplyNodes (.deleteNode pid index node subtree)
        (setNode (deleteRecursive (m0.length + 1) m0 id) parent.id
          { parent with
            children := some (cs.filter (fun childId => childId ≠ id)) }))) j =
      lookupNode (setNode (deleteRecursive (m0.length + 1) m0 id) parent.id
        { parent with children := some (cs.filter (fun childId => childId ≠ id)) }) j)
    := by
  have hcsl : childList parent = cs := by rw [childList, hch]; rfl
  have hidmem : id ∈ cs := listIndexOf_mem cs id index hidx
  have hcsnd : cs.Nodup := hcsl ▸ hnodup pid parent hp
  have hlt : rank id < rank pid := hrank pid parent hp id (by rw [hcsl]; exact hidmem)
  have hidpid : id ≠ pid := by
    intro e
    rw [e] at hlt
    omega
  have hdel : ∀ j, lookupNode (deleteRecursive (m0.length + 1) m0 id) j =
      if j ∈ descIds m0 (m0.length + 1) id then none else lookupNode m0 j :=
    deleteRec_spec m0 rank hchild hrank hparent hnodup (m0.length + 1) id m0
      (by rw [hn]; rfl) (by omega) (fun _ _ => rfl)
  have hkidsc : ∀ c ∈ childList node, rank c < rank id := hrank id node hn
  have hst : ∀ x ∈ childList node,
      descIds m0 m0.length x = descIds m0 (m0.length + 1) x := by
    intro x hx
    have := hkidsc x hx
    exact descIds_stable m0 rank hchild hrank _ _ x (by omega) (by omega)
  have hdelset : ∀ j, j ∈ descIds m0 (m0.length + 1) id ↔
      (j = id ∨ ∃ c ∈ childList node, j ∈ descIds m0 (m0.length + 1) c) := by
    intro j
    rw [descIds]
    simp only [hn]
    rw [flatMap_congr_mem (childList node) hst, List.mem_cons, List.mem_flatMap]
  have hPex : ∀ j, (∃ c ∈ childList node, j ∈ descIds m0 (m0.length + 1) c) →
      (lookupNode m0 j).isSome = true := by
    rintro j ⟨c, hc, hj⟩
    obtain ⟨cn, hlc, _⟩ := hchild id node hn c hc
    exact descIds_exists m0 hchild _ c (by rw [hlc]; rfl) j hj
  have hPpid : ¬ ∃ c ∈ childList node, pid ∈ descIds m0 (m0.length + 1) c := by
    rintro ⟨c, hc, hj⟩
    have h1 := descIds_rank_le m0 rank hrank _ c pid hj
    have h2 := hkidsc c hc
    omega
  have hcont : ∀ j, ((keysOf subtree).contains j = true) ↔
      ((∃ c ∈ childList node, j ∈ descIds m0 (m0.length + 1) c) ∧ j ≠ id) := by
    intro j
    rw [List.elem_iff, mem_keysOf_iff, hsub j]
    constructor
    · intro hs
      by_cases hPj : (∃ c ∈ childList node, j ∈ descIds m0 (m0.length + 1) c) ∧ j ≠ id
      · exact hPj
      · rw [if_neg hPj] at hs
        exact absurd hs (by decide)
    · intro hPj
      rw [if_pos hPj]
      exact hPex j hPj.1
  have hrestore : (cs.filter (fun childId => childId ≠ id)).insertIdx index id = cs :=
    filter_insertIdx_restore cs id index hcsnd hidx
  have hluM : lookupNode (setNode (deleteRecursive (m0.length + 1) m0 id) parent.id
      { parent with children := some (cs.filter (fun childId => childId ≠ id)) }) pid =
      some { parent with children := some (cs.filter (fun childId => childId ≠ id)) } := by
    rw [lookupNode_setNode, hparid, if_pos rfl]
  have hAA : ∀ (m : NodeMap) (j : Nat), lookupNode (assignAll m subtree) j =
      (lookupNode subtree j).or (lookupNode m j) :=
    fun m j => lookupNode_assignAll_of_nodup subtree m j hsubnd
  have hA : ∀ j, lookupNode (undoApplyNodes (.deleteNode pid index node subtree)
      (setNode (deleteRecursive (m0.length + 1) m0 id) parent.id
        { parent with children := some (cs.filter (fun childId => childId ≠ id)) })) j =
      lookupNode m0 j := by
    intro j
    rw [undoApplyNodes]
    simp only [hluM]
    rw [hnid, hrestore]
    rw [lookupNode_setNode]
    by_cases hjid : id = j
    · subst hjid
      rw [if_pos rfl, hn]
    · rw [if_neg hjid, hAA, hsub j]
      by_cases hPj : (∃ c ∈ childList node, j ∈ descIds m0 (m0.length + 1) c) ∧ j ≠ id
      · rw [if_pos hPj]
        obtain ⟨v, hv⟩ := Option.isSome_iff_exists.mp (hPex j hPj.1)
        rw [hv]
        exact Option.or_some
      · rw [if_neg hPj, Option.none_or, lookupNode_setNode]
        by_cases hpj : pid = j
        · subst hpj
          rw [if_pos rfl, hp, ← hch]
        · rw [if_neg hpj, lookupNode_setNode, hparid, if_neg hpj, hdel j, if_neg ?_]
          intro hmem
          rcases (hdelset j).mp hmem with rfl | hPj'
          · exact hjid rfl
          · exact hPj ⟨hPj', fun e => hjid e.symm⟩
  refine ⟨hA, ?_⟩
  intro j
  rw [undoApplyNodes]
  simp only [hluM]
  rw [hnid, hrestore]
  have hluU : lookupNode (setNode (assignAll (setNode
      (setNode (deleteRecursive (m0.length + 1) m0 id) parent.id
        { parent with children := some (cs.filter (fun childId => childId ≠ id)) })
      pid { parent with children := some cs }) subtree) id node) pid =
      some { parent with children := some cs } := by
    rw [lookupNode_setNode, if_neg hidpid, hAA, hsub pid,
      if_neg (fun h => hPpid h.1), Option.none_or, lookupNode_setNode, if_pos rfl]
  rw [redoApplyNodes]
  simp only [hluU]
  rw [hnid]
  rw [lookupNode_eraseList, lookupNode_eraseNode, lookupNode_setNode]
  by_cases hjid : j = id
  · subst hjid
    rw [if_neg ?_, if_pos rfl]
    · rw [lookupNode_setNode, hparid, if_neg (fun e => hidpid e.symm), hdel j,
        if_pos (mem_descIds_self m0 _ j)]
    · intro hc
      exact ((hcont j).mp hc).2 rfl
  · by_cases hPj : (∃ c ∈ childList node, j ∈ descIds m0 (m0.length + 1) c)
    · rw [if_pos ((hcont j).mpr ⟨hPj, hjid⟩)]
      rw [lookupNode_setNode, hparid, if_neg ?_, hdel j,
        if_pos ((hdelset j).mpr (Or.inr hPj))]
      intro e
      subst e
      exact hPpid hPj
    · rw [if_neg (fun hc => hPj ((hcont j).mp hc).1), if_neg (fun e => hjid e.symm)]
      by_cases hpj : pid = j
      · subst hpj
        rw [if_pos rfl, lookupNode_setNode, hparid, if_pos rfl]
      · rw [if_neg hpj, lookupNode_setNode, if_neg (fun e => hjid e.symm), hAA,
          hsub j, if_neg (fun h => hPj h.1), Option.none_or, lookupNode_setNode,
          if_neg hpj]

theorem store_undo_redo_fine (s1 : StoreState) (doc d1 : JsonDocument)
    (cmd : HistoryCommand)
    (hd1 : s1.document = some d1)
    (hroot : d1.rootId = doc.rootId)
    (hstack : s1.undoStack.getLast? = some cmd)
    (hnr : (match cmd with
      | HistoryCommand.replaceDocument _ _ _ _ _ _ => False
      | _ => True))
    (hA : ∀ j, lookupNode (undoApplyNodes cmd d1.nodes) j = lookupNode doc.nodes j)
    (hB : ∀ j, lookupNode (redoApplyNodes cmd (undoApplyNodes cmd d1.nodes)) j =
      lookupNode d1.nodes j) :
    OptDocEq (undo s1).document (some doc) ∧
    OptDocEq (redo (undo s1)).document s1.document := by
  have hu : (undo s1).document =
      some { d1 with nodes := undoApplyNodes cmd d1.nodes } ∧
      (undo s1).redoStack = s1.redoStack ++ [cmd] := by
    unfold undo
    rw [hd1]
    dsimp only
    rw [hstack]
    dsimp only
    cases cmd with
    | replaceDocument b a bs as be ae => exact hnr.elim
    | updateValue i o n => exact ⟨rfl, rfl⟩
    | renameKey i o n => exact ⟨rfl, rfl⟩
    | addNode p n => exact ⟨rfl, rfl⟩
    | deleteNode p i n st => exact ⟨rfl, rfl⟩
    | moveArrayItem p f t => exact ⟨rfl, rfl⟩
    | changeType i o n st => exact ⟨rfl, rfl⟩
  obtain ⟨hud, hur⟩ := hu
  constructor
  · rw [hud]
    exact ⟨hroot, hA⟩
  · have hrd : (redo (undo s1)).document =
        some { d1 with nodes := redoApplyNodes cmd (undoApplyNodes cmd d1.nodes) } := by
      unfold redo
      rw [hud]
      dsimp only
      rw [hur, List.getLast?_concat]
      dsimp only
      cases cmd with
      | replaceDocument b a bs as be ae => exact hnr.elim
      | updateValue i o n => rfl
      | renameKey i o n => rfl
      | addNode p n => rfl
      | deleteNode p i n st => rfl
      | moveArrayItem p f t => rfl
      | changeType i o n st => rfl
    rw [hrd, hd1]
    exact ⟨rfl, hB⟩

theorem store_undo_redo_replace (s1 : StoreState) (d1 : JsonDocument)
    (before after : JsonDocument) (bSel aSel : Option Nat) (bExp aExp : List Nat)
    (hd1 : s1.document = some d1)
    (hstack : s1.undoStack.getLast? =
      some (.replaceDocument before after bSel aSel bExp aExp)) :
    (undo s1).document = some before ∧
    (redo (undo s1)).document = some after := by
  have hu : (undo s1).document = some before ∧
      (undo s1).redoStack = s1.redoStack ++
        [HistoryCommand.replaceDocument before after bSel aSel bExp aExp] := by
    unfold undo
    rw [hd1]
    dsimp only
    rw [hstack]
    dsimp only
    exact ⟨rfl, rfl⟩
  obtain ⟨hud, hur⟩ := hu
  refine ⟨hud, ?_⟩
  unfold redo
  rw [hud]
  dsimp only
  rw [hur, List.getLast?_concat]
  dsimp only
  rfl

theorem store_undo_redo_replace2 (s1 : StoreState) (d1 : JsonDocument)
    (before after : JsonDocument) (bSel aSel : Option Nat) (bExp aExp : List Nat)
    (hd1 : s1.document = some d1)
    (hstack : s1.undoStack.getLast? =
      some (.replaceDocument before after bSel aSel bExp aExp))
    (hafter : DocEq after d1) :
    OptDocEq (undo s1).document (some before) ∧
    OptDocEq (redo (undo s1)).document s1.document := by
  obtain ⟨h1, h2⟩ := store_undo_redo_replace s1 d1 before after bSel aSel bExp aExp
    hd1 hstack
  constructor
  · rw [h1]
    exact ⟨rfl, fun j => rfl⟩
  · rw [h2, hd1]
    exact hafter

/-- C3: undo after a committed mutation restores the previous document
exactly (same root id and same node at every id), and redo after that undo
restores the mutated document exactly.  A mutation committed exactly when
it changed the undo stack; `storeOk` packages the Document invariants the
spec maintains (id/key coherence, issued ids, parent/children mutual
consistency, duplicate-free children) with a rank certificate making the
parent-child relation well-founded. -/
theorem C3_undo_redo_exact (s : StoreState) (rank : Nat → Nat) (m : Mutation)
    (hok : storeOk s rank = true)
    (hcommit : (applyMutation m s).undoStack ≠ s.undoStack) :
    OptDocEq (undo (applyMutation m s)).document s.document ∧
    OptDocEq (redo (undo (applyMutation m s))).document (applyMutation m s).document := by
  obtain ⟨doc, hdoc⟩ : ∃ doc, s.document = some doc := by
    cases hd : s.document with
    | none =>
        unfold storeOk at hok
        rw [hd] at hok
        exact Bool.noConfusion hok
    | some d => exact ⟨d, rfl⟩
  have hchild : ∀ j n, lookupNode doc.nodes j = some n → ∀ c ∈ childList n,
      ∃ cn, lookupNode doc.nodes c = some cn ∧ cn.parentId = some j := by
    intro j n hjn c hc
    obtain ⟨cn, h1, h2, _⟩ := (storeOk_at hok hdoc hjn).2.2.2.2.2 c hc
    exact ⟨cn, h1, h2⟩
  have hrank : ∀ j n, lookupNode doc.nodes j = some n → ∀ c ∈ childList n,
      rank c < rank j := by
    intro j n hjn c hc
    obtain ⟨cn, _, _, h3⟩ := (storeOk_at hok hdoc hjn).2.2.2.2.2 c hc
    exact h3
  have hparent : ∀ j n p, lookupNode doc.nodes j = some n → n.parentId = some p →
      ∃ pn, lookupNode doc.nodes p = some pn ∧ j ∈ childList pn :=
    fun j n p hjn hp => (storeOk_at hok hdoc hjn).2.2.2.1 p hp
  have hnodup : ∀ j n, lookupNode doc.nodes j = some n → (childList n).Nodup :=
    fun j n hjn => (storeOk_at hok hdoc hjn).2.2.2.2.1
  have hid : ∀ j n, lookupNode doc.nodes j = some n → n.id = j :=
    fun j n hjn => (storeOk_at hok hdoc hjn).1
  have hlt : ∀ j n, lookupNode doc.nodes j = some n → j < s.nextId :=
    fun j n hjn => (storeOk_at hok hdoc hjn).2.1
  have hrkb : ∀ j n, lookupNode doc.nodes j = some n → rank j ≤ doc.nodes.length :=
    fun j n hjn => (storeOk_at hok hdoc hjn).2.2.1
  have hrepl : ∀ (v : JsonValue),
      OptDocEq (undo (replaceDocumentFromJson s v)).document (some doc) ∧
      OptDocEq (redo (undo (replaceDocumentFromJson s v))).document
        (replaceDocumentFromJson s v).document := by
    intro v
    unfold replaceDocumentFromJson
    rw [hdoc]
    dsimp only
    refine store_undo_redo_replace2 _ _ _ _ _ _ _ _ rfl (List.getLast?_concat _) ?_
    exact ⟨rfl, fun j => rfl⟩
  cases m with
  | updateNodeValue id v =>
      unfold applyMutation at hcommit ⊢
      unfold updateNodeValue at hcommit ⊢
      rw [hdoc] at hcommit ⊢
      dsimp only at hcommit ⊢
      cases hlu : lookupNode doc.nodes id with
      | none =>
          rw [hlu] at hcommit
          exact absurd rfl hcommit
      | some node =>
          dsimp only
          refine store_undo_redo_fine _ doc _ _ rfl rfl (List.getLast?_concat _) ?_ ?_ ?_
          · exact True.intro
          · exact (undo_redo_updateValue doc.nodes id node v hlu).1
          · exact (undo_redo_updateValue doc.nodes id node v hlu).2
  | changeNodeType id nextType =>
      unfold applyMutation at hcommit ⊢
      unfold changeNodeType at hcommit ⊢
      rw [hdoc] at hcommit ⊢
      dsimp only at hcommit ⊢
      cases hlu : lookupNode doc.nodes id with
      | none =>
          rw [hlu] at hcommit
          exact absurd rfl hcommit
      | some node =>
          rw [hlu] at hcommit
          dsimp only at hcommit ⊢
          by_cases hty : node.type = nextType
          · rw [if_pos hty] at hcommit
            exact absurd rfl hcommit
          · rw [if_neg hty]
            dsimp only
            have hkids : ∀ c ∈ childList node,
                (lookupNode doc.nodes c).isSome = true ∧
                rank c < doc.nodes.length + 1 := by
              intro c hc
              obtain ⟨cn, hlc, _⟩ := hchild id node hlu c hc
              refine ⟨by rw [hlc]; rfl, ?_⟩
              have h1 := hrank id node hlu c hc
              have h2 := hrkb id node hlu
              omega
            have hfold := collectPre_fold_spec doc.nodes rank hchild hrank
              (doc.nodes.length + 1) (childList node) hkids []
            refine store_undo_redo_fine _ doc _ _ rfl rfl (List.getLast?_concat _) ?_ ?_ ?_
            · exact True.intro
            · exact (undo_redo_changeType doc.nodes rank hchild hrank id node _ _
                hlu hfold.1 (hfold.2 List.nodup_nil)).1
            · exact (undo_redo_changeType doc.nodes rank hchild hrank id node _ _
                hlu hfold.1 (hfold.2 List.nodup_nil)).2
  | moveArrayItem pid f t =>
      unfold applyMutation at hcommit ⊢
      unfold moveArrayItem at hcommit ⊢
      rw [hdoc] at hcommit ⊢
      dsimp only at hcommit ⊢
      cases hlu : lookupNode doc.nodes pid with
      | none =>
          rw [hlu] at hcommit
          exact absurd rfl hcommit
      | some parent =>
          rw [hlu] at hcommit
          dsimp only at hcommit ⊢
          cases htp : parent.type
          case array =>
            rw [htp] at hcommit
            cases hch : parent.children with
            | none =>
                rw [hch] at hcommit
                exact absurd rfl hcommit
            | some children =>
                rw [hch] at hcommit
                dsimp only at hcommit ⊢
                by_cases hv : moveListItemValid children f t = true
                · rw [if_pos hv]
                  dsimp only
                  rw [← htp]
                  refine store_undo_redo_fine _ doc _ _ rfl rfl
                    (List.getLast?_concat _) ?_ ?_ ?_
                  · exact True.intro
                  · exact (undo_redo_move doc.nodes pid parent children f t
                      hlu htp hch hv).1
                  · exact (undo_redo_move doc.nodes pid parent children f t
                      hlu htp hch hv).2
                · rw [if_neg hv] at hcommit
                  exact absurd rfl hcommit
          all_goals (rw [htp] at hcommit; exact absurd rfl hcommit)
  | addNode pid t key =>
      unfold applyMutation at hcommit ⊢
      unfold addNode at hcommit ⊢
      rw [hdoc] at hcommit ⊢
      dsimp only at hcommit ⊢
      cases hlu : lookupNode doc.nodes pid with
      | none =>
          rw [hlu] at hcommit
          exact absurd rfl hcommit
      | some parent =>
          rw [hlu] at hcommit
          dsimp only at hcommit ⊢
          cases hch : parent.children with
          | none =>
              rw [hch] at hcommit
              exact absurd rfl hcommit
          | some children =>
              dsimp only
              have hfresh : lookupNode doc.nodes s.nextId = none := by
                cases hl : lookupNode doc.nodes s.nextId with
                | none => rfl
                | some n => exact absurd (hlt s.nextId n hl) (lt_irrefl _)
              have hne : s.nextId ≠ pid := by
                intro e
                rw [e, hlu] at hfresh
                exact Option.noConfusion hfresh
              have hcs : s.nextId ∉ children := by
                intro hmem
                obtain ⟨cn, hlc, _⟩ := hchild pid parent hlu s.nextId
                  (by rw [childList, hch]; exact hmem)
                rw [hfresh] at hlc
                exact Option.noConfusion hlc
              refine store_undo_redo_fine _ doc _ _ rfl rfl
                (List.getLast?_concat _) ?_ ?_ ?_
              · exact True.intro
              · refine (undo_redo_addNode doc.nodes pid parent children _ hlu hch
                  ?_ ?_ ?_).1
                · exact hfresh
                · exact hne
                · exact hcs
              · refine (undo_redo_addNode doc.nodes pid parent children _ hlu hch
                  ?_ ?_ ?_).2
                · exact hfresh
                · exact hne
                · exact hcs
  | deleteNode id =>
      unfold applyMutation at hcommit ⊢
      unfold deleteNode at hcommit ⊢
      rw [hdoc] at hcommit ⊢
      dsimp only at hcommit ⊢
      cases hlu : lookupNode doc.nodes id with
      | none =>
          rw [hlu] at hcommit
          exact absurd rfl hcommit
      | some node =>
          rw [hlu] at hcommit
          dsimp only at hcommit ⊢
          cases hpidq : node.parentId with
          | none =>
              rw [hpidq] at hcommit
              exact absurd rfl hcommit
          | some pid =>
              rw [hpidq] at hcommit
              dsimp only at hcommit ⊢
              cases hlp : lookupNode doc.nodes pid with
              | none =>
                  rw [hlp] at hcommit
                  exact absurd rfl hcommit
              | some parent =>
                  rw [hlp] at hcommit
                  dsimp only at hcommit ⊢
                  cases hch : parent.children with
                  | none =>
                      rw [hch] at hcommit
                      exact absurd rfl hcommit
                  | some children =>
                      rw [hch] at hcommit
                      dsimp only at hcommit ⊢
                      cases hidx : listIndexOf children id with
                      | none =>
                          rw [hidx] at hcommit
                          exact absurd rfl hcommit
                      | some index =>
                          dsimp only
                          have hkids : ∀ c ∈ childList node,
                              (lookupNode doc.nodes c).isSome = true ∧
                              rank c < doc.nodes.length + 1 := by
                            intro c hc
                            obtain ⟨cn, hlc, _⟩ := hchild id node hlu c hc
                            refine ⟨by rw [hlc]; rfl, ?_⟩
                            have h1 := hrank id node hlu c hc
                            have h2 := hrkb id node hlu
                            omega
                          have hfold := collectPost_fold_spec doc.nodes rank id
                            hchild hrank (doc.nodes.length + 1) (childList node)
                            hkids []
                          refine store_undo_redo_fine _ doc _ _ rfl rfl
                            (List.getLast?_concat _) ?_ ?_ ?_
                          · exact True.intro
                          · exact (undo_redo_deleteNode doc.nodes rank hchild hrank
                              hparent hnodup id pid index node parent children _
                              hlu (hid id node hlu) hlp (hid pid parent hlp) hch
                              hidx (hrkb id node hlu) hfold.1
                              (hfold.2 List.nodup_nil)).1
                          · exact (undo_redo_deleteNode doc.nodes rank hchild hrank
                              hparent hnodup id pid index node parent children _
                              hlu (hid id node hlu) hlp (hid pid parent hlp) hch
                              hidx (hrkb id node hlu) hfold.1
                              (hfold.2 List.nodup_nil)).2
  | renameNodeKey id newKey =>
      unfold applyMutation at hcommit ⊢
      unfold renameNodeKey at hcommit ⊢
      rw [hdoc] at hcommit ⊢
      dsimp only at hcommit ⊢
      cases hlu : lookupNode doc.nodes id with
      | none =>
          rw [hlu] at hcommit
          exact absurd rfl hcommit
      | some node =>
          rw [hlu] at hcommit
          dsimp only at hcommit ⊢
          cases hpidq : node.parentId with
          | none =>
              rw [hpidq] at hcommit
              exact absurd rfl hcommit
          | some pid =>
              dsimp only
              rw [← hpidq]
              refine store_undo_redo_fine _ doc _ _ rfl rfl
                (List.getLast?_concat _) ?_ ?_ ?_
              · exact True.intro
              · exact (undo_redo_renameKey doc.nodes id node
                  (ensureUniqueObjectKey doc.nodes pid newKey (some id)) hlu).1
              · exact (undo_redo_renameKey doc.nodes id node
                  (ensureUniqueObjectKey doc.nodes pid newKey (some id)) hlu).2
  | pasteNodeJson targetId rawJson mode =>
      unfold applyMutation at hcommit ⊢
      unfold pasteNodeJson at hcommit ⊢
      rw [hdoc] at hcommit ⊢
      dsimp only at hcommit ⊢
      cases hlu : lookupNode doc.nodes targetId with
      | none =>
          rw [hlu] at hcommit
          exact absurd rfl hcommit
      | some target =>
          rw [hlu] at hcommit
          dsimp only at hcommit ⊢
          cases rawJson with
          | error msg => exact absurd rfl hcommit
          | ok parsed =>
              dsimp only at hcommit ⊢
              refine store_undo_redo_replace2 _ _ _ _ _ _ _ _ rfl
                (List.getLast?_concat _) ?_
              exact ⟨rfl, fun j => rfl⟩
  | sortObjectKeys nodeId direction =>
      unfold applyMutation at hcommit ⊢
      unfold sortObjectKeys at hcommit ⊢
      rw [hdoc] at hcommit ⊢
      dsimp only at hcommit ⊢
      cases hlu : lookupNode doc.nodes nodeId with
      | none =>
          rw [hlu] at hcommit
          exact absurd rfl hcommit
      | some node =>
          rw [hlu] at hcommit
          dsimp only at hcommit ⊢
          cases htp : node.type
          case object =>
            rw [htp] at hcommit
            cases hch : node.children with
            | none =>
                rw [hch] at hcommit
                exact absurd rfl hcommit
            | some children =>
                rw [hch] at hcommit
                dsimp only at hcommit ⊢
                by_cases hs : (if direction = SortDir.desc
                    then (sortChildrenByKey doc.nodes children).reverse
                    else sortChildrenByKey doc.nodes children) = children
                · rw [if_pos hs] at hcommit
                  exact absurd rfl hcommit
                · rw [if_neg hs]
                  dsimp only
                  refine store_undo_redo_replace2 _ _ _ _ _ _ _ _ rfl
                    (List.getLast?_concat _) ?_
                  exact ⟨rfl, fun j => rfl⟩
          all_goals (rw [htp] at hcommit; exact absurd rfl hcommit)
  | replaceDocumentFromJson v =>
      rw [hdoc]
      exact hrepl v
  | formatDocument mode =>
      unfold applyMutation at hcommit ⊢
      unfold formatDocument at hcommit ⊢
      rw [hdoc] at hcommit ⊢
      dsimp only at hcommit ⊢
      cases mode with
      | pretty => exact hrepl (astToJson doc)
      | minify => exact hrepl (astToJson doc)
      | sort => exact hrepl (sortJsonKeysDeep (astToJson doc))
  | applyDiffSelection entries =>
      unfold applyMutation at hcommit ⊢
      unfold applyDiffSelection at hcommit ⊢
      rw [hdoc] at hcommit ⊢
      dsimp only at hcommit ⊢
      cases entries with
      | nil => exact absurd rfl hcommit
      | cons e es => exact hrepl (applyDiffEntries (astToJson doc) (e :: es))
  | batchDeleteSelected =>
      unfold applyMutation at hcommit ⊢
      unfold batchDeleteSelected at hcommit ⊢
      rw [hdoc] at hcommit ⊢
      dsimp only at hcommit ⊢
      by_cases hms : s.multiSelectedIds = []
      · rw [if_pos hms] at hcommit
        exact absurd rfl hcommit
      · rw [if_neg hms] at hcommit ⊢
        split
        next htl =>
          rw [if_pos htl] at hcommit
          exact absurd rfl hcommit
        next htl =>
          refine store_undo_redo_replace2 _ _ _ _ _ _ _ _ rfl
            (List.getLast?_concat _) ?_
          exact ⟨rfl, fun j => rfl⟩
  | applyReplacePreview =>
      unfold applyMutation at hcommit ⊢
      unfold applyReplacePreview at hcommit ⊢
      rw [hdoc] at hcommit ⊢
      dsimp only at hcommit ⊢
      by_cases hrp : s.replacePreview = []
      · rw [if_pos hrp] at hcommit
        exact absurd rfl hcommit
      · rw [if_neg hrp]
        refine store_undo_redo_replace2 _ _ _ _ _ _ _ _ rfl
          (List.getLast?_concat _) ?_
        exact ⟨rfl, fun j => rfl⟩

theorem C3_undo_redo_exact_witness :
    storeOk c3store c3rank = true ∧
    (applyMutation (Mutation.deleteNode 2) c3store).undoStack ≠ c3store.undoStack ∧
    (OptDocEq (undo (applyMutation (Mutation.deleteNode 2) c3store)).document
       c3store.document ∧
     OptDocEq (redo (undo (applyMutation (Mutation.deleteNode 2) c3store))).document
       (applyMutation (Mutation.deleteNode 2) c3store).document) :=
  ⟨by decide, by decide,
   C3_undo_redo_exact c3store c3rank (Mutation.deleteNode 2) (by decide) (by decide)⟩
